import Mathlib

/-!
Verification of the maze generator / maze solver (`Maze_Solver/main.cpp`).

The C++ program is shallowly embedded below:
* `DisjointSet` with `findRoot` (path compression, modelled with explicit fuel
  and state passing) and `unite` (union by size);
* `Maze` with wall grids `hasRightWall` / `hasDownWall` (total functions; the
  C++ `vector<vector<bool>>` is only ever indexed in range), `canMove`, and
  `generateRandom` modelled as a fold of the Kruskal loop body over the
  shuffled edge list (the shuffled list is a parameter: in the source it is
  produced by `std::shuffle` from an `mt19937` seeded with `time(NULL)`);
* the three search loops `runDFS`, `runBFS` and `runPQ` (the latter shared by
  Dijkstra and A*), as fuel-indexed step functions on explicit search states,
  together with the final-path extraction of `drawFinalPath` (following
  `parentOf` from the goal; the `-1` sentinel is modelled as `none`).

Machine integers: all quantities that are nonnegative in every executed C++
path (cell ids, sizes, distances) are modelled as `Nat`; coordinates and the
direction argument of `canMove`, which the source manipulates as possibly
negative `int`s, are modelled as `Int`. `INT_MAX` is the literal 2147483647.
-/

namespace MazeSolver

/-! ### The maze structure (`struct Maze`) -/

/-- `struct Maze`: dimensions plus the two wall grids.  The grids are total
functions; the program only ever reads them at in-range indices. -/
structure Maze where
  mazeW : Nat
  mazeH : Nat
  hasRightWall : Nat → Nat → Bool
  hasDownWall : Nat → Nat → Bool

/-- The `Maze(w, h)` constructor: both wall grids start all-`true`. -/
def Maze.new (w h : Nat) : Maze :=
  { mazeW := w, mazeH := h, hasRightWall := fun _ _ => true, hasDownWall := fun _ _ => true }

/-- `Maze::canMove(x, y, dir)`, translated clause by clause.  `x`, `y`, `dir`
are C++ `int`s, hence `Int` here; wall grids are indexed after the boundary
guards, exactly as in the source. -/
def Maze.canMove (mz : Maze) (x y dir : Int) : Bool :=
  if dir = 0 then
    if y = 0 then false else !mz.hasDownWall x.toNat (y - 1).toNat
  else if dir = 1 then
    if x + 1 ≥ (mz.mazeW : Int) then false else !mz.hasRightWall x.toNat y.toNat
  else if dir = 2 then
    if y + 1 ≥ (mz.mazeH : Int) then false else !mz.hasDownWall x.toNat y.toNat
  else if dir = 3 then
    if x = 0 then false else !mz.hasRightWall (x - 1).toNat y.toNat
  else false

/-- `struct Point { int x, y; }`. -/
structure Point where
  x : Int
  y : Int

/-- `cellId(x, y, W) = y*W + x`. -/
def cellId (x y : Int) (W : Nat) : Int := y * W + x

/-- `cellPt(idx, W) = { idx % W, idx / W }` (for the nonnegative ids the
program uses, C++ `%` and `/` agree with `Nat` operations). -/
def cellPt (idx W : Nat) : Point := ⟨(idx % W : Nat), (idx / W : Nat)⟩

/-- The x-offset `(dir==1) - (dir==3)` used by every search loop. -/
def dirDx (dir : Int) : Int := (if dir = 1 then 1 else 0) - (if dir = 3 then 1 else 0)

/-- The y-offset `(dir==2) - (dir==0)` used by every search loop. -/
def dirDy (dir : Int) : Int := (if dir = 2 then 1 else 0) - (if dir = 0 then 1 else 0)

/-- One candidate move of the shared search-loop body: from cell `u`, compute
`nx = pu.x + (dir==1) - (dir==3)`, `ny = pu.y + (dir==2) - (dir==0)`, apply
the bounds guard `nx<0||nx>=W||ny<0||ny>=H`, then the `canMove` test, and
return the neighbour id `cellId(nx, ny, W)` on success. -/
def moveTo (mz : Maze) (u : Nat) (dir : Int) : Option Nat :=
  let pu := cellPt u mz.mazeW
  let nx := pu.x + dirDx dir
  let ny := pu.y + dirDy dir
  if nx < 0 ∨ nx ≥ (mz.mazeW : Int) ∨ ny < 0 ∨ ny ≥ (mz.mazeH : Int) then none
  else if mz.canMove pu.x pu.y dir then some (cellId nx ny mz.mazeW).toNat
  else none

/-- The opposite of a movement direction, in the fixed order
up(0), right(1), down(2), left(3): up↔down and left↔right. -/
def opposite (dir : Int) : Int :=
  if dir = 0 then 2 else if dir = 1 then 3 else if dir = 2 then 0 else if dir = 3 then 1 else dir

/-! ### C3 and C10: `canMove` facts -/

theorem canMove_zero (mz : Maze) (x y : Int) :
    mz.canMove x y 0 = if y = 0 then false else !mz.hasDownWall x.toNat (y - 1).toNat := by
  simp [Maze.canMove]

theorem canMove_one (mz : Maze) (x y : Int) :
    mz.canMove x y 1 =
      if x + 1 ≥ (mz.mazeW : Int) then false else !mz.hasRightWall x.toNat y.toNat := by
  simp [Maze.canMove]

theorem canMove_two (mz : Maze) (x y : Int) :
    mz.canMove x y 2 =
      if y + 1 ≥ (mz.mazeH : Int) then false else !mz.hasDownWall x.toNat y.toNat := by
  simp [Maze.canMove]

theorem canMove_three (mz : Maze) (x y : Int) :
    mz.canMove x y 3 = if x = 0 then false else !mz.hasRightWall (x - 1).toNat y.toNat := by
  simp [Maze.canMove]

/-- C3: Adjacency is symmetric.  For every maze, in-bounds cell `(x, y)`,
direction `dir ∈ {0,1,2,3}` whose neighbour `(x + dx, y + dy)` is also in
bounds, `canMove (x, y, dir) = canMove (neighbour, opposite dir)`. -/
theorem canMove_symm (mz : Maze) (x y dir : Int)
    (hx : 0 ≤ x) (hx' : x < (mz.mazeW : Int)) (hy : 0 ≤ y) (hy' : y < (mz.mazeH : Int))
    (hdir : dir = 0 ∨ dir = 1 ∨ dir = 2 ∨ dir = 3)
    (hnx : 0 ≤ x + dirDx dir) (hnx' : x + dirDx dir < (mz.mazeW : Int))
    (hny : 0 ≤ y + dirDy dir) (hny' : y + dirDy dir < (mz.mazeH : Int)) :
    mz.canMove x y dir = mz.canMove (x + dirDx dir) (y + dirDy dir) (opposite dir) := by
  rcases hdir with h | h | h | h <;> subst h <;>
      simp only [dirDx, dirDy] at hnx hnx' hny hny' ⊢ <;>
      norm_num at hnx hnx' hny hny' ⊢
  · -- dir = 0: up; neighbour (x, y-1), opposite 2 (down)
    rw [show opposite 0 = 2 by rfl, canMove_zero, canMove_two,
      if_neg (by omega : ¬ y = 0), if_neg (by omega : ¬ y + -1 + 1 ≥ (mz.mazeH : Int))]
    congr 2 <;> omega
  · -- dir = 1: right; neighbour (x+1, y), opposite 3 (left)
    rw [show opposite 1 = 3 by rfl, canMove_one, canMove_three,
      if_neg (by omega : ¬ x + 1 ≥ (mz.mazeW : Int)), if_neg (by omega : ¬ x + 1 = 0)]
    congr 2 <;> omega
  · -- dir = 2: down; neighbour (x, y+1), opposite 0 (up)
    rw [show opposite 2 = 0 by rfl, canMove_two, canMove_zero,
      if_neg (by omega : ¬ y + 1 ≥ (mz.mazeH : Int)), if_neg (by omega : ¬ y + 1 = 0)]
    congr 2 <;> omega
  · -- dir = 3: left; neighbour (x-1, y), opposite 1 (right)
    rw [show opposite 3 = 1 by rfl, canMove_three, canMove_one,
      if_neg (by omega : ¬ x = 0), if_neg (by omega : ¬ x + -1 + 1 ≥ (mz.mazeW : Int))]
    congr 2 <;> omega

/-- Witness for `canMove_symm` at a concrete maze and cell. -/
theorem canMove_symm_witness :
    ((0 : Int) ≤ 0 ∧ (0 : Int) < ((Maze.new 2 1).mazeW : Int)) ∧
      (Maze.new 2 1).canMove 0 0 1
        = (Maze.new 2 1).canMove (0 + dirDx 1) (0 + dirDy 1) (opposite 1) := by
  refine ⟨⟨le_refl _, by decide⟩, ?_⟩
  exact canMove_symm (Maze.new 2 1) 0 0 1 (by decide) (by decide) (by decide) (by decide)
    (Or.inr (Or.inl rfl)) (by decide) (by decide) (by decide) (by decide)

/-- C10: `canMove` is total in the direction argument: for any integer
direction code outside `{0,1,2,3}` it returns `false` (final `return false`
in the source), for every cell, in bounds or not. -/
theorem canMove_total_dir (mz : Maze) (x y dir : Int)
    (h : dir ≠ 0 ∧ dir ≠ 1 ∧ dir ≠ 2 ∧ dir ≠ 3) :
    mz.canMove x y dir = false := by
  obtain ⟨h0, h1, h2, h3⟩ := h
  simp [Maze.canMove, h0, h1, h2, h3]

/-- Witness for `canMove_total_dir`: direction code 7 on a concrete maze. -/
theorem canMove_total_dir_witness :
    ((7 : Int) ≠ 0 ∧ (7 : Int) ≠ 1 ∧ (7 : Int) ≠ 2 ∧ (7 : Int) ≠ 3) ∧
      (Maze.new 3 2).canMove 0 0 7 = false :=
  ⟨by decide, canMove_total_dir (Maze.new 3 2) 0 0 7 (by decide)⟩

/-! ### Disjoint set (union-find)

`struct DisjointSet` holds `parent` and `sz` vectors of length `n`.  We model
the vectors as total functions together with the length `n`; all reads and
writes the program performs are at indices `< n`.  The recursive, mutating
`findRoot` is modelled with explicit fuel and state passing; fuel `n` is
shown to suffice for well-formed states. -/

structure DisjointSet where
  n : Nat
  parent : Nat → Nat
  sz : Nat → Nat

/-- The `DisjointSet(n)` constructor: `iota(parent)` and `sz` all ones. -/
def DisjointSet.init (n : Nat) : DisjointSet :=
  { n := n, parent := fun i => i, sz := fun _ => 1 }

/-- The single store `parent[x] = r`. -/
def repoint (ds : DisjointSet) (x r : Nat) : DisjointSet :=
  { ds with parent := fun y => if y = x then r else ds.parent y }

/-- `findRoot(x) { return parent[x] == x ? x : (parent[x] = findRoot(parent[x])); }`
with explicit fuel; returns the root together with the path-compressed state. -/
def findRootAux : Nat → DisjointSet → Nat → Nat × DisjointSet
  | 0, ds, x => (x, ds)
  | fuel + 1, ds, x =>
    if ds.parent x = x then (x, ds)
    else
      let r := findRootAux fuel ds (ds.parent x)
      (r.1, repoint r.2 x r.1)

/-- `findRoot` at the fuel (`n`) that suffices for well-formed states. -/
def DisjointSet.findRoot (ds : DisjointSet) (x : Nat) : Nat × DisjointSet :=
  findRootAux ds.n ds x

/-- `unite(a, b)`: find both roots (with their compressions, in order), return
if equal, otherwise attach the smaller-size root below the larger-size root
(`if (sz[a] < sz[b]) swap(a, b); parent[b] = a; sz[a] += sz[b];`). -/
def DisjointSet.unite (ds : DisjointSet) (a b : Nat) : DisjointSet :=
  let fa := ds.findRoot a
  let fb := fa.2.findRoot b
  let ra := fa.1
  let rb := fb.1
  let ds2 := fb.2
  if ra = rb then ds2
  else
    let w := if ds2.sz ra < ds2.sz rb then rb else ra
    let l := if ds2.sz ra < ds2.sz rb then ra else rb
    { repoint ds2 l w with
      sz := fun y => if y = w then ds2.sz w + ds2.sz l else ds2.sz y }

/-! #### Union-find semantics: roots, the follows relation, well-formedness -/

/-- `x` is a representative: its parent pointer is a fixpoint. -/
def DisjointSet.isRoot (ds : DisjointSet) (x : Nat) : Prop := ds.parent x = x

/-- `r` is the representative of `x`'s component: `r` is a root and the
parent chain from `x` reaches it. -/
def Follows (ds : DisjointSet) (x r : Nat) : Prop :=
  ds.isRoot r ∧ ∃ k, ds.parent^[k] x = r

/-- `u` and `v` lie in the same component. -/
def sameRoot (ds : DisjointSet) (u v : Nat) : Prop :=
  ∃ r, Follows ds u r ∧ Follows ds v r

/-- Well-formedness of a union-find state: in-range parent pointers, every
in-range element has a representative, out-of-range entries are (virtual)
self-loops. -/
def DSWF (ds : DisjointSet) : Prop :=
  (∀ x, x < ds.n → ds.parent x < ds.n) ∧
  (∀ x, x < ds.n → ∃ r, Follows ds x r) ∧
  (∀ x, ds.n ≤ x → ds.parent x = x)

theorem DSWF.init (n : Nat) : DSWF (DisjointSet.init n) := by
  refine ⟨fun x hx => hx, fun x _ => ⟨x, rfl, 0, rfl⟩, fun x _ => rfl⟩

theorem follows_refl {ds : DisjointSet} {r : Nat} (h : ds.isRoot r) : Follows ds r r :=
  ⟨h, 0, rfl⟩

theorem iterate_root_fixed {ds : DisjointSet} {r : Nat} (h : ds.isRoot r) (m : Nat) :
    ds.parent^[m] r = r :=
  Function.iterate_fixed h m

theorem follows_unique {ds : DisjointSet} {x r r' : Nat}
    (h : Follows ds x r) (h' : Follows ds x r') : r = r' := by
  obtain ⟨hr, k, hk⟩ := h
  obtain ⟨hr', k', hk'⟩ := h'
  rcases le_total k k' with hle | hle
  · have := Function.iterate_add_apply ds.parent (k' - k) k x
    rw [Nat.sub_add_cancel hle] at this
    rw [this, hk, iterate_root_fixed hr] at hk'
    exact hk'
  · have := Function.iterate_add_apply ds.parent (k - k') k' x
    rw [Nat.sub_add_cancel hle] at this
    rw [this, hk', iterate_root_fixed hr'] at hk
    exact hk.symm

theorem follows_step {ds : DisjointSet} {x r : Nat}
    (h : Follows ds (ds.parent x) r) : Follows ds x r := by
  obtain ⟨hr, k, hk⟩ := h
  exact ⟨hr, k + 1, by rw [Function.iterate_succ_apply]; exact hk⟩

theorem follows_of_not_root {ds : DisjointSet} {x r : Nat}
    (h : Follows ds x r) (hx : ¬ ds.isRoot x) : Follows ds (ds.parent x) r := by
  obtain ⟨hr, k, hk⟩ := h
  cases k with
  | zero =>
    simp only [Function.iterate_zero_apply] at hk
    subst hk
    exact absurd hr hx
  | succ j => exact ⟨hr, j, by rwa [Function.iterate_succ_apply] at hk⟩

theorem iterate_lt {ds : DisjointSet} (hwf : DSWF ds) :
    ∀ (k : Nat) {x : Nat}, x < ds.n → ds.parent^[k] x < ds.n
  | 0, _, hx => hx
  | k + 1, x, hx => by
    rw [Function.iterate_succ_apply]
    exact iterate_lt hwf k (hwf.1 x hx)

theorem follows_lt {ds : DisjointSet} (hwf : DSWF ds) {x r : Nat}
    (hx : x < ds.n) (h : Follows ds x r) : r < ds.n := by
  obtain ⟨_, k, hk⟩ := h
  rw [← hk]
  exact iterate_lt hwf k hx

/-- The parent chain of an in-range element reaches its root within `n`
steps (the chain is injective before reaching the root). -/
theorem follows_bounded {ds : DisjointSet} (hwf : DSWF ds) {x r : Nat}
    (hx : x < ds.n) (h : Follows ds x r) : ∃ k ≤ ds.n, ds.parent^[k] x = r := by
  obtain ⟨hr, hex⟩ := h
  have hdec : DecidablePred fun k => ds.parent^[k] x = r := fun k => Nat.decEq _ _
  let m := Nat.find hex
  have hm : ds.parent^[m] x = r := Nat.find_spec hex
  refine ⟨m, ?_, hm⟩
  by_contra hcon
  push_neg at hcon
  -- the iterates 0..m are pairwise distinct, all < n, so m + 1 ≤ n
  have key : ∀ i j : Nat, i < j → j ≤ m → ds.parent^[i] x ≠ ds.parent^[j] x := by
    intro i j hij hjm heq
    have h1 : ds.parent^[m - j + j] x = r := by
      rw [Nat.sub_add_cancel hjm]
      exact hm
    rw [Function.iterate_add_apply, ← heq, ← Function.iterate_add_apply] at h1
    have : m ≤ m - j + i := Nat.find_min' hex h1
    omega
  have hinj : Function.Injective
      fun i : Fin (m + 1) => (⟨ds.parent^[(i : Nat)] x, iterate_lt hwf _ hx⟩ : Fin ds.n) := by
    intro i j hij
    simp only [Fin.mk.injEq] at hij
    rcases lt_trichotomy (i : Nat) (j : Nat) with h | h | h
    · exact absurd hij (key _ _ h (by omega))
    · exact Fin.ext h
    · exact absurd hij.symm (key _ _ h (by omega))
  have := Fintype.card_le_of_injective _ hinj
  simp only [Fintype.card_fin] at this
  omega

theorem repoint_n (ds : DisjointSet) (x r : Nat) : (repoint ds x r).n = ds.n := rfl

theorem repoint_sz (ds : DisjointSet) (x r : Nat) : (repoint ds x r).sz = ds.sz := rfl

theorem follows_congr_parent {ds ds' : DisjointSet} (h : ds'.parent = ds.parent) :
    ∀ y r', Follows ds' y r' ↔ Follows ds y r' := by
  intro y r'
  unfold Follows DisjointSet.isRoot
  rw [h]

/-- Path compression at `x` (re-pointing `x` to its own representative `r`)
changes no root and no component. -/
theorem repoint_isRoot {ds : DisjointSet} {x r : Nat} (hfx : Follows ds x r) :
    ∀ z, (repoint ds x r).isRoot z ↔ ds.isRoot z := by
  intro z
  simp only [DisjointSet.isRoot, repoint]
  by_cases hz : z = x
  · subst hz
    rw [if_pos rfl]
    constructor
    · intro hrz
      have h1 : ds.parent r = r := hfx.1
      rw [hrz] at h1
      exact h1
    · intro hroot
      exact follows_unique hfx (follows_refl hroot)
  · simp [hz]

theorem repoint_parent_eq {ds : DisjointSet} (x r : Nat) :
    (repoint ds x r).parent x = r := by
  simp [repoint]

theorem repoint_parent_ne {ds : DisjointSet} {x y : Nat} (r : Nat) (h : y ≠ x) :
    (repoint ds x r).parent y = ds.parent y := by
  simp [repoint, h]

theorem repoint_follows {ds : DisjointSet} {x r : Nat} (hfx : Follows ds x r) :
    ∀ y r', Follows (repoint ds x r) y r' ↔ Follows ds y r' := by
  have hbase : ∀ z, (repoint ds x r).isRoot z ↔ ds.isRoot z := repoint_isRoot hfx
  have hback : ∀ (k : Nat) (y r' : Nat), ds.parent^[k] y = r' → ds.isRoot r' →
      Follows (repoint ds x r) y r' := by
    intro k
    induction k with
    | zero =>
      intro y r' hk hr'
      simp only [Function.iterate_zero_apply] at hk
      subst hk
      exact follows_refl ((hbase y).mpr hr')
    | succ j ih =>
      intro y r' hk hr'
      by_cases hyx : y = x
      · have hyr' : Follows ds y r' := ⟨hr', j + 1, hk⟩
        have hrr : r' = r := follows_unique hyr' (hyx ▸ hfx)
        rw [hrr]
        refine follows_step ?_
        rw [hyx, repoint_parent_eq]
        exact follows_refl ((hbase r).mpr hfx.1)
      · rw [Function.iterate_succ_apply] at hk
        refine follows_step ?_
        rw [repoint_parent_ne r hyx]
        exact ih _ _ hk hr'
  intro y r'
  constructor
  · -- forward: a chain in the compressed state maps back
    rintro ⟨hr', k, hk⟩
    have hroot : ds.isRoot r' := (hbase r').mp hr'
    clear hr'
    induction k generalizing y with
    | zero =>
      simp only [Function.iterate_zero_apply] at hk
      subst hk
      exact follows_refl hroot
    | succ j ih =>
      rw [Function.iterate_succ_apply] at hk
      by_cases hyx : y = x
      · rw [hyx, repoint_parent_eq] at hk
        have hrroot : (repoint ds x r).isRoot r := (hbase r).mpr hfx.1
        have hrr : r' = r := by
          have hfixed := iterate_root_fixed hrroot j
          rw [hfixed] at hk
          exact hk.symm
        subst hrr
        exact hyx ▸ hfx
      · rw [repoint_parent_ne r hyx] at hk
        exact follows_step (ih _ hk)
  · rintro ⟨hr', k, hk⟩
    exact hback k y r' hk hr'

theorem repoint_wf {ds : DisjointSet} (hwf : DSWF ds) {x r : Nat}
    (hx : x < ds.n) (hfx : Follows ds x r) : DSWF (repoint ds x r) := by
  refine ⟨?_, ?_, ?_⟩
  · intro z hz
    rw [repoint_n] at hz
    by_cases hzx : z = x
    · rw [hzx, repoint_parent_eq, repoint_n]
      exact follows_lt hwf hx hfx
    · rw [repoint_parent_ne r hzx, repoint_n]
      exact hwf.1 z hz
  · intro z hz
    rw [repoint_n] at hz
    obtain ⟨r', hr'⟩ := hwf.2.1 z hz
    exact ⟨r', (repoint_follows hfx z r').mpr hr'⟩
  · intro z hz
    rw [repoint_n] at hz
    have hzx : z ≠ x := by omega
    rw [repoint_parent_ne r hzx]
    exact hwf.2.2 z hz

/-- Master specification of `findRootAux`: with enough fuel it returns the
representative; the compressed state has the same length, sizes, roots and
components, and every re-written pointer now points directly at the root. -/
theorem findRootAux_spec {ds : DisjointSet} (hwf : DSWF ds) :
    ∀ (k x r : Nat), ds.parent^[k] x = r → ds.isRoot r →
    ∀ fuel, k ≤ fuel →
      (findRootAux fuel ds x).1 = r ∧
      (findRootAux fuel ds x).2.n = ds.n ∧
      (findRootAux fuel ds x).2.sz = ds.sz ∧
      DSWF (findRootAux fuel ds x).2 ∧
      (∀ y r', Follows (findRootAux fuel ds x).2 y r' ↔ Follows ds y r') ∧
      (∀ y, (findRootAux fuel ds x).2.isRoot y ↔ ds.isRoot y) ∧
      (∀ y, (findRootAux fuel ds x).2.parent y = ds.parent y ∨
        (findRootAux fuel ds x).2.parent y = r) ∧
      (findRootAux fuel ds x).2.parent x = r := by
  intro k
  induction k with
  | zero =>
    intro x r hk hr fuel _
    simp only [Function.iterate_zero_apply] at hk
    subst hk
    have hxroot : ds.parent x = x := hr
    have hfix : findRootAux fuel ds x = (x, ds) := by
      cases fuel with
      | zero => rfl
      | succ f => simp [findRootAux, hxroot]
    rw [hfix]
    exact ⟨rfl, rfl, rfl, hwf, fun _ _ => Iff.rfl, fun _ => Iff.rfl,
      fun _ => Or.inl rfl, hxroot⟩
  | succ j ih =>
    intro x r hk hr fuel hfuel
    by_cases hxroot : ds.parent x = x
    · have hxr : x = r := by
        have : ds.parent^[j + 1] x = x := iterate_root_fixed hxroot (j + 1)
        rw [this] at hk
        exact hk
      subst hxr
      have hfix : findRootAux fuel ds x = (x, ds) := by
        cases fuel with
        | zero => rfl
        | succ f => simp [findRootAux, hxroot]
      rw [hfix]
      exact ⟨rfl, rfl, rfl, hwf, fun _ _ => Iff.rfl, fun _ => Iff.rfl,
        fun _ => Or.inl rfl, hxroot⟩
    · cases fuel with
      | zero => omega
      | succ f =>
        have hk' : ds.parent^[j] (ds.parent x) = r := by
          rwa [Function.iterate_succ_apply] at hk
        have hrec := ih (ds.parent x) r hk' hr f (by omega)
        have hfix : findRootAux (f + 1) ds x =
            ((findRootAux f ds (ds.parent x)).1,
              repoint (findRootAux f ds (ds.parent x)).2 x
                (findRootAux f ds (ds.parent x)).1) := by
          simp [findRootAux, hxroot]
        obtain ⟨h1, h2, h3, h4, h5, h6, h7, _⟩ := hrec
        have hfollows_x : Follows ds x r := ⟨hr, j + 1, hk⟩
        have hfollows2_x : Follows (findRootAux f ds (ds.parent x)).2 x r :=
          (h5 x r).mpr hfollows_x
        rw [hfix]
        rw [h1] at *
        refine ⟨rfl, ?_, ?_, ?_, ?_, ?_, ?_, ?_⟩
        · rw [repoint_n, h2]
        · rw [repoint_sz, h3]
        · refine repoint_wf h4 ?_ hfollows2_x
          rw [h2]
          by_cases hxn : x < ds.n
          · exact hxn
          · exact absurd (hwf.2.2 x (by omega)) hxroot
        · intro y r'
          rw [repoint_follows hfollows2_x, h5]
        · intro y
          rw [repoint_isRoot hfollows2_x, h6]
        · intro y
          unfold repoint
          by_cases hyx : y = x
          · simp [hyx]
          · simp only [hyx, if_false]
            exact h7 y
        · unfold repoint
          simp

/-- `findRoot` (at fuel `n`) on a well-formed state: returns the
representative, compresses, and preserves length, sizes, roots, components. -/
theorem DisjointSet.findRoot_spec {ds : DisjointSet} (hwf : DSWF ds) {x r : Nat}
    (hx : x < ds.n) (hf : Follows ds x r) :
    (ds.findRoot x).1 = r ∧
    (ds.findRoot x).2.n = ds.n ∧
    (ds.findRoot x).2.sz = ds.sz ∧
    DSWF (ds.findRoot x).2 ∧
    (∀ y r', Follows (ds.findRoot x).2 y r' ↔ Follows ds y r') ∧
    (∀ y, (ds.findRoot x).2.isRoot y ↔ ds.isRoot y) ∧
    (∀ y, (ds.findRoot x).2.parent y = ds.parent y ∨ (ds.findRoot x).2.parent y = r) ∧
    (ds.findRoot x).2.parent x = r := by
  obtain ⟨k, hk, hck⟩ := follows_bounded hwf hx hf
  exact findRootAux_spec hwf k x r hck hf.1 ds.n hk

/-! #### Linking two roots (the `parent[b] = a` store of `unite`) -/

theorem link_isRoot {ds : DisjointSet} {l w : Nat} (hlw : l ≠ w) :
    ∀ z, (repoint ds l w).isRoot z ↔ (ds.isRoot z ∧ z ≠ l) := by
  intro z
  by_cases hz : z = l
  · subst hz
    simp only [DisjointSet.isRoot, repoint_parent_eq]
    constructor
    · intro h
      exact absurd h.symm hlw
    · rintro ⟨_, h⟩
      exact absurd rfl h
  · simp only [DisjointSet.isRoot, repoint_parent_ne w hz]
    exact ⟨fun h => ⟨h, hz⟩, fun h => h.1⟩

theorem link_follows_left {ds : DisjointSet} {l w : Nat}
    (hl : ds.isRoot l) (hlw : l ≠ w) :
    ∀ y r', Follows ds y r' → r' ≠ l → Follows (repoint ds l w) y r' := by
  intro y r' hf hne
  obtain ⟨hr', k, hk⟩ := hf
  induction k generalizing y with
  | zero =>
    simp only [Function.iterate_zero_apply] at hk
    subst hk
    exact follows_refl ((link_isRoot hlw y).mpr ⟨hr', hne⟩)
  | succ j ih =>
    by_cases hyl : y = l
    · exfalso
      have h1 : Follows ds y r' := ⟨hr', j + 1, hk⟩
      have h2 : Follows ds y l := by
        rw [hyl]
        exact follows_refl hl
      exact hne (follows_unique h1 h2)
    · rw [Function.iterate_succ_apply] at hk
      refine follows_step ?_
      rw [repoint_parent_ne w hyl]
      exact ih _ hk

theorem link_follows_to_l {ds : DisjointSet} {l w : Nat}
    (hl : ds.isRoot l) (hw : ds.isRoot w) (hlw : l ≠ w) :
    ∀ y, Follows ds y l → Follows (repoint ds l w) y w := by
  have hwroot : (repoint ds l w).isRoot w :=
    (link_isRoot hlw w).mpr ⟨hw, fun h => hlw h.symm⟩
  intro y hf
  obtain ⟨_, k, hk⟩ := hf
  induction k generalizing y with
  | zero =>
    simp only [Function.iterate_zero_apply] at hk
    rw [hk]
    refine follows_step ?_
    rw [repoint_parent_eq]
    exact follows_refl hwroot
  | succ j ih =>
    by_cases hyl : y = l
    · subst hyl
      refine follows_step ?_
      rw [repoint_parent_eq]
      exact follows_refl hwroot
    · rw [Function.iterate_succ_apply] at hk
      refine follows_step ?_
      rw [repoint_parent_ne w hyl]
      exact ih _ hk

theorem link_follows_forward {ds : DisjointSet} {l w : Nat}
    (hl : ds.isRoot l) (hw : ds.isRoot w) (hlw : l ≠ w) :
    ∀ y r', Follows (repoint ds l w) y r' →
      (Follows ds y r' ∧ r' ≠ l) ∨ (Follows ds y l ∧ r' = w) := by
  intro y r' hf
  obtain ⟨hr', k, hk⟩ := hf
  have hroot : ds.isRoot r' ∧ r' ≠ l := (link_isRoot hlw r').mp hr'
  induction k generalizing y with
  | zero =>
    simp only [Function.iterate_zero_apply] at hk
    subst hk
    exact Or.inl ⟨follows_refl hroot.1, hroot.2⟩
  | succ j ih =>
    by_cases hyl : y = l
    · rw [Function.iterate_succ_apply, hyl, repoint_parent_eq] at hk
      have hwr : (repoint ds l w).isRoot w :=
        (link_isRoot hlw w).mpr ⟨hw, fun h => hlw h.symm⟩
      have hrw : r' = w := by
        have hfix := iterate_root_fixed hwr j
        rw [hfix] at hk
        exact hk.symm
      have hyfl : Follows ds y l := by
        rw [hyl]
        exact follows_refl hl
      exact Or.inr ⟨hyfl, hrw⟩
    · rw [Function.iterate_succ_apply, repoint_parent_ne w hyl] at hk
      rcases ih _ hk with ⟨h1, h2⟩ | ⟨h1, h2⟩
      · exact Or.inl ⟨follows_step h1, h2⟩
      · exact Or.inr ⟨follows_step h1, h2⟩

theorem link_wf {ds : DisjointSet} (hwf : DSWF ds) {l w : Nat}
    (hl : ds.isRoot l) (hw : ds.isRoot w) (hlw : l ≠ w)
    (hln : l < ds.n) (hwn : w < ds.n) : DSWF (repoint ds l w) := by
  refine ⟨?_, ?_, ?_⟩
  · intro z hz
    rw [repoint_n] at hz
    by_cases hzl : z = l
    · rw [hzl, repoint_parent_eq, repoint_n]
      exact hwn
    · rw [repoint_parent_ne w hzl, repoint_n]
      exact hwf.1 z hz
  · intro z hz
    rw [repoint_n] at hz
    obtain ⟨r, hr⟩ := hwf.2.1 z hz
    by_cases hrl : r = l
    · exact ⟨w, link_follows_to_l hl hw hlw z (hrl ▸ hr)⟩
    · exact ⟨r, link_follows_left hl hlw z r hr hrl⟩
  · intro z hz
    rw [repoint_n] at hz
    have hzl : z ≠ l := by omega
    rw [repoint_parent_ne w hzl]
    exact hwf.2.2 z hz

theorem dswf_congr {ds ds' : DisjointSet} (hp : ds'.parent = ds.parent)
    (hn : ds'.n = ds.n) : DSWF ds → DSWF ds' := by
  intro hwf
  refine ⟨?_, ?_, ?_⟩
  · intro x hx
    rw [hp, hn]
    exact hwf.1 x (hn ▸ hx)
  · intro x hx
    obtain ⟨r, hr⟩ := hwf.2.1 x (hn ▸ hx)
    exact ⟨r, (follows_congr_parent hp x r).mpr hr⟩
  · intro x hx
    rw [hp]
    exact hwf.2.2 x (hn ▸ hx)

/-! #### The `unite` specification -/

/-- `unite(a, b)` when the two roots coincide: a component no-op (only path
compression happened). -/
theorem unite_spec_same {ds : DisjointSet} (hwf : DSWF ds) {a b ra rb : Nat}
    (ha : a < ds.n) (hb : b < ds.n) (hfa : Follows ds a ra) (hfb : Follows ds b rb)
    (heq : ra = rb) :
    DSWF (ds.unite a b) ∧ (ds.unite a b).n = ds.n ∧ (ds.unite a b).sz = ds.sz ∧
    (∀ y r', Follows (ds.unite a b) y r' ↔ Follows ds y r') ∧
    (∀ y, (ds.unite a b).isRoot y ↔ ds.isRoot y) := by
  obtain ⟨e1, e2, e3, e4, e5, e6, _, _⟩ := DisjointSet.findRoot_spec hwf ha hfa
  have hb1 : b < (ds.findRoot a).2.n := by rw [e2]; exact hb
  have hfb1 : Follows (ds.findRoot a).2 b rb := (e5 b rb).mpr hfb
  obtain ⟨f1, f2, f3, f4, f5, f6, _, _⟩ := DisjointSet.findRoot_spec e4 hb1 hfb1
  have hunite : ds.unite a b = ((ds.findRoot a).2.findRoot b).2 := by
    simp only [DisjointSet.unite]
    rw [e1, f1, if_pos heq]
  rw [hunite]
  refine ⟨f4, by rw [f2, e2], by rw [f3, e3], ?_, ?_⟩
  · intro y r'
    rw [f5, e5]
  · intro y
    rw [f6, e6]

/-- `unite(a, b)` when the two roots differ: the smaller-size root is
attached below the larger-size root, sizes are summed at the new root, and
the components of `a` and `b` are merged (all other components unchanged). -/
theorem unite_spec_diff {ds : DisjointSet} (hwf : DSWF ds) {a b ra rb : Nat}
    (ha : a < ds.n) (hb : b < ds.n) (hfa : Follows ds a ra) (hfb : Follows ds b rb)
    (hne : ra ≠ rb) :
    ∃ w l, ((w = ra ∧ l = rb) ∨ (w = rb ∧ l = ra)) ∧
      (ds.sz ra < ds.sz rb → w = rb ∧ l = ra) ∧
      (¬ ds.sz ra < ds.sz rb → w = ra ∧ l = rb) ∧
      (ds.unite a b).parent l = w ∧
      (ds.unite a b).sz w = ds.sz ra + ds.sz rb ∧
      (∀ y, y ≠ w → (ds.unite a b).sz y = ds.sz y) ∧
      DSWF (ds.unite a b) ∧ (ds.unite a b).n = ds.n ∧
      (∀ y r', Follows (ds.unite a b) y r' ↔
        ((Follows ds y r' ∧ r' ≠ l) ∨ (Follows ds y l ∧ r' = w))) ∧
      (∀ y, (ds.unite a b).isRoot y ↔ (ds.isRoot y ∧ y ≠ l)) := by
  obtain ⟨e1, e2, e3, e4, e5, e6, _, _⟩ := DisjointSet.findRoot_spec hwf ha hfa
  have hb1 : b < (ds.findRoot a).2.n := by rw [e2]; exact hb
  have hfb1 : Follows (ds.findRoot a).2 b rb := (e5 b rb).mpr hfb
  obtain ⟨f1, f2, f3, f4, f5, f6, _, _⟩ := DisjointSet.findRoot_spec e4 hb1 hfb1
  have hsz2 : ((ds.findRoot a).2.findRoot b).2.sz = ds.sz := by rw [f3, e3]
  have hn2 : ((ds.findRoot a).2.findRoot b).2.n = ds.n := by rw [f2, e2]
  have hra2 : ((ds.findRoot a).2.findRoot b).2.isRoot ra := (f6 ra).mpr ((e6 ra).mpr hfa.1)
  have hrb2 : ((ds.findRoot a).2.findRoot b).2.isRoot rb := (f6 rb).mpr ((e6 rb).mpr hfb.1)
  have hran : ra < ds.n := follows_lt hwf ha hfa
  have hrbn : rb < ds.n := follows_lt hwf hb hfb
  have hfol2 : ∀ y r', Follows ((ds.findRoot a).2.findRoot b).2 y r' ↔ Follows ds y r' := by
    intro y r'
    rw [f5, e5]
  have hunite : ds.unite a b =
      (if ((ds.findRoot a).2.findRoot b).2.sz ra < ((ds.findRoot a).2.findRoot b).2.sz rb
        then { repoint ((ds.findRoot a).2.findRoot b).2 ra rb with
               sz := fun y => if y = rb
                 then ((ds.findRoot a).2.findRoot b).2.sz rb + ((ds.findRoot a).2.findRoot b).2.sz ra
                 else ((ds.findRoot a).2.findRoot b).2.sz y }
        else { repoint ((ds.findRoot a).2.findRoot b).2 rb ra with
               sz := fun y => if y = ra
                 then ((ds.findRoot a).2.findRoot b).2.sz ra + ((ds.findRoot a).2.findRoot b).2.sz rb
                 else ((ds.findRoot a).2.findRoot b).2.sz y }) := by
    simp only [DisjointSet.unite]
    rw [e1, f1, if_neg hne]
    by_cases hc : ((ds.findRoot a).2.findRoot b).2.sz ra < ((ds.findRoot a).2.findRoot b).2.sz rb
    · simp only [if_pos hc]
    · simp only [if_neg hc]
  rw [hsz2] at hunite
  by_cases hc : ds.sz ra < ds.sz rb
  · rw [if_pos hc] at hunite
    refine ⟨rb, ra, Or.inr ⟨rfl, rfl⟩, fun _ => ⟨rfl, rfl⟩, fun h => absurd hc h, ?_, ?_, ?_, ?_, ?_, ?_, ?_⟩
    · rw [hunite]
      exact repoint_parent_eq ra rb
    · rw [hunite]
      show (if rb = rb then ds.sz rb + ds.sz ra else ds.sz rb) = ds.sz ra + ds.sz rb
      rw [if_pos rfl]
      omega
    · intro y hy
      rw [hunite]
      show (if y = rb then ds.sz rb + ds.sz ra else ds.sz y) = ds.sz y
      rw [if_neg hy]
    · rw [hunite]
      refine dswf_congr rfl rfl ?_
      refine link_wf f4 hra2 hrb2 (fun h => hne h) ?_ ?_
      · rw [hn2]; exact hran
      · rw [hn2]; exact hrbn
    · rw [hunite]
      exact hn2
    · intro y r'
      rw [hunite]
      rw [follows_congr_parent (rfl : ({ repoint ((ds.findRoot a).2.findRoot b).2 ra rb with
            sz := fun y => if y = rb then ds.sz rb + ds.sz ra else ds.sz y } : DisjointSet).parent
          = (repoint ((ds.findRoot a).2.findRoot b).2 ra rb).parent) y r']
      constructor
      · intro h
        rcases link_follows_forward hra2 hrb2 (fun h' => hne h') y r' h with ⟨h1, h2⟩ | ⟨h1, h2⟩
        · exact Or.inl ⟨(hfol2 y r').mp h1, h2⟩
        · exact Or.inr ⟨(hfol2 y ra).mp h1, h2⟩
      · rintro (⟨h1, h2⟩ | ⟨h1, h2⟩)
        · exact link_follows_left hra2 (fun h' => hne h') y r' ((hfol2 y r').mpr h1) h2
        · subst h2
          exact link_follows_to_l hra2 hrb2 (fun h' => hne h') y ((hfol2 y ra).mpr h1)
    · intro y
      rw [hunite]
      have : ({ repoint ((ds.findRoot a).2.findRoot b).2 ra rb with
            sz := fun y => if y = rb then ds.sz rb + ds.sz ra else ds.sz y } : DisjointSet).isRoot y
          ↔ (repoint ((ds.findRoot a).2.findRoot b).2 ra rb).isRoot y := Iff.rfl
      rw [this, link_isRoot (fun h' => hne h') y, f6, e6]
  · rw [if_neg hc] at hunite
    refine ⟨ra, rb, Or.inl ⟨rfl, rfl⟩, fun h => absurd h hc, fun _ => ⟨rfl, rfl⟩, ?_, ?_, ?_, ?_, ?_, ?_, ?_⟩
    · rw [hunite]
      exact repoint_parent_eq rb ra
    · rw [hunite]
      show (if ra = ra then ds.sz ra + ds.sz rb else ds.sz ra) = ds.sz ra + ds.sz rb
      rw [if_pos rfl]
    · intro y hy
      rw [hunite]
      show (if y = ra then ds.sz ra + ds.sz rb else ds.sz y) = ds.sz y
      rw [if_neg hy]
    · rw [hunite]
      refine dswf_congr rfl rfl ?_
      refine link_wf f4 hrb2 hra2 (fun h => hne h.symm) ?_ ?_
      · rw [hn2]; exact hrbn
      · rw [hn2]; exact hran
    · rw [hunite]
      exact hn2
    · intro y r'
      rw [hunite]
      rw [follows_congr_parent (rfl : ({ repoint ((ds.findRoot a).2.findRoot b).2 rb ra with
            sz := fun y => if y = ra then ds.sz ra + ds.sz rb else ds.sz y } : DisjointSet).parent
          = (repoint ((ds.findRoot a).2.findRoot b).2 rb ra).parent) y r']
      constructor
      · intro h
        rcases link_follows_forward hrb2 hra2 (fun h' => hne h'.symm) y r' h with ⟨h1, h2⟩ | ⟨h1, h2⟩
        · exact Or.inl ⟨(hfol2 y r').mp h1, h2⟩
        · exact Or.inr ⟨(hfol2 y rb).mp h1, h2⟩
      · rintro (⟨h1, h2⟩ | ⟨h1, h2⟩)
        · exact link_follows_left hrb2 (fun h' => hne h'.symm) y r' ((hfol2 y r').mpr h1) h2
        · subst h2
          exact link_follows_to_l hrb2 hra2 (fun h' => hne h'.symm) y ((hfol2 y rb).mpr h1)
    · intro y
      rw [hunite]
      have : ({ repoint ((ds.findRoot a).2.findRoot b).2 rb ra with
            sz := fun y => if y = ra then ds.sz ra + ds.sz rb else ds.sz y } : DisjointSet).isRoot y
          ↔ (repoint ((ds.findRoot a).2.findRoot b).2 rb ra).isRoot y := Iff.rfl
      rw [this, link_isRoot (fun h' => hne h'.symm) y, f6, e6]

/-! #### Components: the `sameRoot` relation and the number of components -/

theorem sameRoot_iff_of_follows {ds : DisjointSet} {u v ru rv : Nat}
    (hu : Follows ds u ru) (hv : Follows ds v rv) :
    sameRoot ds u v ↔ ru = rv := by
  constructor
  · rintro ⟨r, h1, h2⟩
    rw [follows_unique hu h1, follows_unique hv h2]
  · intro h
    exact ⟨ru, hu, h ▸ hv⟩

theorem sameRoot_refl {ds : DisjointSet} {u r : Nat} (hu : Follows ds u r) :
    sameRoot ds u u := ⟨r, hu, hu⟩

theorem sameRoot_symm {ds : DisjointSet} {u v : Nat} (h : sameRoot ds u v) :
    sameRoot ds v u := by
  obtain ⟨r, h1, h2⟩ := h
  exact ⟨r, h2, h1⟩

theorem sameRoot_trans {ds : DisjointSet} {u v t : Nat}
    (h : sameRoot ds u v) (h' : sameRoot ds v t) : sameRoot ds u t := by
  obtain ⟨r, h1, h2⟩ := h
  obtain ⟨r', h3, h4⟩ := h'
  exact ⟨r, h1, (follows_unique h3 h2) ▸ h4⟩

/-- After a no-op `unite` (same roots), components are unchanged. -/
theorem unite_sameRoot_same {ds : DisjointSet} (hwf : DSWF ds) {a b ra rb : Nat}
    (ha : a < ds.n) (hb : b < ds.n) (hfa : Follows ds a ra) (hfb : Follows ds b rb)
    (heq : ra = rb) :
    ∀ u v, sameRoot (ds.unite a b) u v ↔ sameRoot ds u v := by
  obtain ⟨_, _, _, hFiff, _⟩ := unite_spec_same hwf ha hb hfa hfb heq
  intro u v
  exact exists_congr fun r => and_congr (hFiff u r) (hFiff v r)

/-- After a merging `unite`, two cells are in one component iff they were
already, or they lie on opposite sides of the merged pair. -/
theorem unite_sameRoot_diff {ds : DisjointSet} (hwf : DSWF ds) {a b ra rb : Nat}
    (ha : a < ds.n) (hb : b < ds.n) (hfa : Follows ds a ra) (hfb : Follows ds b rb)
    (hne : ra ≠ rb) :
    ∀ u v, u < ds.n → v < ds.n →
      (sameRoot (ds.unite a b) u v ↔
        (sameRoot ds u v ∨ (sameRoot ds u a ∧ sameRoot ds b v) ∨
         (sameRoot ds u b ∧ sameRoot ds a v))) := by
  obtain ⟨w, l, hperm, _, _, _, _, _, hwf', hn', hFiff, _⟩ :=
    unite_spec_diff hwf ha hb hfa hfb hne
  intro u v hu hv
  obtain ⟨ru, hru⟩ := hwf.2.1 u hu
  obtain ⟨rv, hrv⟩ := hwf.2.1 v hv
  have hget : ∀ y ry, Follows ds y ry →
      Follows (ds.unite a b) y (if ry = l then w else ry) := by
    intro y ry hy
    by_cases hyl : ry = l
    · rw [if_pos hyl]
      exact (hFiff y w).mpr (Or.inr ⟨hyl ▸ hy, rfl⟩)
    · rw [if_neg hyl]
      exact (hFiff y ry).mpr (Or.inl ⟨hy, hyl⟩)
  rw [sameRoot_iff_of_follows (hget u ru hru) (hget v rv hrv),
    sameRoot_iff_of_follows hru hrv,
    sameRoot_iff_of_follows hru hfa,
    sameRoot_iff_of_follows hfb hrv,
    sameRoot_iff_of_follows hru hfb,
    sameRoot_iff_of_follows hfa hrv]
  rcases hperm with ⟨hw', hl'⟩ | ⟨hw', hl'⟩ <;> subst hw' <;> subst hl' <;>
    by_cases h3 : ru = l <;> by_cases h4 : rv = l <;>
    simp only [h3, h4, if_pos, if_neg, if_true, if_false] <;>
    simp [h3, h4] <;> omega

/-- The number of components: the number of in-range root entries. -/
def rootCount (ds : DisjointSet) : Nat :=
  ((Finset.range ds.n).filter fun x => ds.parent x = x).card

theorem rootCount_congr {ds ds' : DisjointSet} (hn : ds'.n = ds.n)
    (h : ∀ y, ds'.isRoot y ↔ ds.isRoot y) : rootCount ds' = rootCount ds := by
  unfold rootCount
  rw [hn]
  congr 1
  apply Finset.filter_congr
  intro x _
  exact h x

theorem rootCount_init (n : Nat) : rootCount (DisjointSet.init n) = n := by
  unfold rootCount DisjointSet.init
  simp

/-- A merging `unite` removes exactly one root. -/
theorem rootCount_erase {ds ds' : DisjointSet} (hn : ds'.n = ds.n) {l : Nat}
    (hl : ds.isRoot l) (hln : l < ds.n)
    (h : ∀ y, ds'.isRoot y ↔ (ds.isRoot y ∧ y ≠ l)) :
    rootCount ds' + 1 = rootCount ds := by
  unfold rootCount
  rw [hn]
  have hmem : l ∈ (Finset.range ds.n).filter fun x => ds.parent x = x := by
    simp only [Finset.mem_filter, Finset.mem_range]
    exact ⟨hln, hl⟩
  have hset : ((Finset.range ds.n).filter fun x => ds'.parent x = x)
      = ((Finset.range ds.n).filter fun x => ds.parent x = x).erase l := by
    ext x
    simp only [Finset.mem_filter, Finset.mem_range, Finset.mem_erase]
    constructor
    · rintro ⟨hx, hroot⟩
      have := (h x).mp hroot
      exact ⟨this.2, hx, this.1⟩
    · rintro ⟨hne, hx, hroot⟩
      exact ⟨hx, (h x).mpr ⟨hroot, hne⟩⟩
  rw [hset, Finset.card_erase_of_mem hmem]
  have : 0 < ((Finset.range ds.n).filter fun x => ds.parent x = x).card :=
    Finset.card_pos.mpr ⟨l, hmem⟩
  omega

/-- If every pair of in-range elements lies in one component, there is
exactly one root. -/
theorem rootCount_eq_one {ds : DisjointSet} (hwf : DSWF ds) (hn : 0 < ds.n)
    (hall : ∀ u v, u < ds.n → v < ds.n → sameRoot ds u v) : rootCount ds = 1 := by
  obtain ⟨r0, hr0⟩ := hwf.2.1 0 hn
  have hr0n : r0 < ds.n := follows_lt hwf hn hr0
  have hset : (Finset.range ds.n).filter (fun x => ds.parent x = x) = {r0} := by
    ext x
    simp only [Finset.mem_filter, Finset.mem_range, Finset.mem_singleton]
    constructor
    · rintro ⟨hx, hroot⟩
      exact (sameRoot_iff_of_follows (follows_refl hroot) hr0).mp (hall x 0 hx hn)
    · intro h
      subst h
      exact ⟨hr0n, hr0.1⟩
  rw [rootCount, hset, Finset.card_singleton]

/-! ### C8: union-find behaviour -/

theorem DisjointSet.ext' {d1 d2 : DisjointSet} (hn : d1.n = d2.n)
    (hp : d1.parent = d2.parent) (hs : d1.sz = d2.sz) : d1 = d2 := by
  cases d1
  cases d2
  simp only [DisjointSet.mk.injEq]
  exact ⟨hn, hp, hs⟩

/-- Two singleton components `{0} {1}` over two elements. -/
def dsTwoApart : DisjointSet := ⟨2, fun y => y, fun _ => 1⟩

/-- Element 1 already attached below 0 (the state `dsTwoApart` reaches after
one merge). -/
def dsTwoJoined : DisjointSet := ⟨2, fun y => if y = 1 then 0 else y, fun y => if y = 0 then 2 else 1⟩

/-- C8 counterexample: `unite` is `void` in the source; the state it leaves
behind cannot tell the caller whether a merge occurred.  Starting from
`dsTwoApart` (roots differ: the call merges) and from `dsTwoJoined` (roots
equal: the call is a no-op), `unite(0,1)` returns the identical state. -/
theorem unite_returns_no_merge_flag :
    (dsTwoApart.findRoot 0).1 ≠ ((dsTwoApart.findRoot 0).2.findRoot 1).1 ∧
    (dsTwoJoined.findRoot 0).1 = ((dsTwoJoined.findRoot 0).2.findRoot 1).1 ∧
    dsTwoApart.unite 0 1 = dsTwoJoined.unite 0 1 := by
  refine ⟨by decide, by decide, ?_⟩
  apply DisjointSet.ext'
  · rfl
  · funext y
    show (if y = 1 then 0 else y : Nat) = (if y = 1 then (0 : Nat) else if y = 1 then 0 else y)
    by_cases h : y = 1 <;> simp [h]
  · funext y
    show (if y = 0 then 1 + 1 else 1 : Nat) = (if y = 0 then (2 : Nat) else 1)
    by_cases h : y = 0 <;> simp [h]

/-- C8 (amended; the source `unite` is `void`, it returns nothing):
`findRoot(x)` returns the representative of `x`'s component and applies path
compression — every rewritten pointer now aims directly at the returned
root, the queried entry included, and components are unchanged.
`unite(a,b)` is a component no-op when `a` and `b` share a root; otherwise
it attaches the smaller-size root below the larger-size root (the `b`-side
root below the `a`-side root on ties) and merges exactly the two
components. -/
theorem dsu_find_unite_spec (ds : DisjointSet) (hwf : DSWF ds) (a b ra rb : Nat)
    (ha : a < ds.n) (hb : b < ds.n) (hfa : Follows ds a ra) (hfb : Follows ds b rb) :
    ((ds.findRoot a).1 = ra ∧
      (ds.findRoot a).2.parent a = ra ∧
      (∀ y, (ds.findRoot a).2.parent y = ds.parent y ∨ (ds.findRoot a).2.parent y = ra) ∧
      (∀ u v, sameRoot (ds.findRoot a).2 u v ↔ sameRoot ds u v)) ∧
    (ra = rb → ∀ u v, sameRoot (ds.unite a b) u v ↔ sameRoot ds u v) ∧
    (ra ≠ rb →
      (ds.sz ra < ds.sz rb → (ds.unite a b).parent ra = rb) ∧
      (¬ ds.sz ra < ds.sz rb → (ds.unite a b).parent rb = ra) ∧
      (∀ u v, u < ds.n → v < ds.n →
        (sameRoot (ds.unite a b) u v ↔
          (sameRoot ds u v ∨ (sameRoot ds u a ∧ sameRoot ds b v) ∨
           (sameRoot ds u b ∧ sameRoot ds a v))))) := by
  obtain ⟨e1, _, _, _, e5, _, e7, e8⟩ := DisjointSet.findRoot_spec hwf ha hfa
  refine ⟨⟨e1, e8, e7, ?_⟩, ?_, ?_⟩
  · intro u v
    exact exists_congr fun r => and_congr (e5 u r) (e5 v r)
  · intro heq
    exact unite_sameRoot_same hwf ha hb hfa hfb heq
  · intro hne
    obtain ⟨w, l, _, hc1, hc2, hpl, _, _, _, _, _, _⟩ :=
      unite_spec_diff hwf ha hb hfa hfb hne
    refine ⟨?_, ?_, unite_sameRoot_diff hwf ha hb hfa hfb hne⟩
    · intro hsz
      obtain ⟨hw, hl⟩ := hc1 hsz
      rw [← hl, ← hw]
      exact hpl
    · intro hsz
      obtain ⟨hw, hl⟩ := hc2 hsz
      rw [← hl, ← hw]
      exact hpl

/-- Witness for `dsu_find_unite_spec` on the two-element state. -/
theorem dsu_find_unite_spec_witness :
    (DSWF dsTwoApart ∧ 0 < dsTwoApart.n ∧ 1 < dsTwoApart.n) ∧
      ((dsTwoApart.findRoot 0).1 = 0 ∧
        (dsTwoApart.findRoot 0).2.parent 0 = 0 ∧
        (∀ y, (dsTwoApart.findRoot 0).2.parent y = dsTwoApart.parent y ∨
          (dsTwoApart.findRoot 0).2.parent y = 0) ∧
        (∀ u v, sameRoot (dsTwoApart.findRoot 0).2 u v ↔ sameRoot dsTwoApart u v)) ∧
      ((0 : Nat) = 1 → ∀ u v, sameRoot (dsTwoApart.unite 0 1) u v ↔ sameRoot dsTwoApart u v) ∧
      ((0 : Nat) ≠ 1 →
        (dsTwoApart.sz 0 < dsTwoApart.sz 1 → (dsTwoApart.unite 0 1).parent 0 = 1) ∧
        (¬ dsTwoApart.sz 0 < dsTwoApart.sz 1 → (dsTwoApart.unite 0 1).parent 1 = 0) ∧
        (∀ u v, u < dsTwoApart.n → v < dsTwoApart.n →
          (sameRoot (dsTwoApart.unite 0 1) u v ↔
            (sameRoot dsTwoApart u v ∨
             (sameRoot dsTwoApart u 0 ∧ sameRoot dsTwoApart 1 v) ∨
             (sameRoot dsTwoApart u 1 ∧ sameRoot dsTwoApart 0 v))))) := by
  have hwf : DSWF dsTwoApart :=
    ⟨fun x hx => hx, fun x _ => ⟨x, rfl, 0, rfl⟩, fun x _ => rfl⟩
  exact ⟨⟨hwf, by decide, by decide⟩,
    dsu_find_unite_spec dsTwoApart hwf 0 1 0 1 (by decide) (by decide)
      ⟨rfl, 0, rfl⟩ ⟨rfl, 0, rfl⟩⟩

/-! ### Maze generation (`Maze::generateRandom`) -/

/-- `struct Edge { int x, y, dir; }` of `generateRandom` (always filled with
in-range values, `dir ∈ {1, 2}`). -/
structure Edge where
  x : Nat
  y : Nat
  dir : Nat
deriving DecidableEq

/-- The generator's candidate edge enumeration: for each `y` then `x` in
row-major order, a right edge (`dir = 1`) if `x+1 < W` and a down edge
(`dir = 2`) if `y+1 < H`. -/
def edgeList (W H : Nat) : List Edge :=
  (List.range H).flatMap fun y =>
    (List.range W).flatMap fun x =>
      (if x + 1 < W then [⟨x, y, 1⟩] else []) ++ (if y + 1 < H then [⟨x, y, 2⟩] else [])

/-- The Kruskal loop body: `a = e.y*W + e.x`, `b = a+1` or `a+W`; if the two
roots differ, remove the corresponding wall and `unite(a, b)`.  (The two
`findRoot` calls of the comparison compress the structure in both branches;
`unite` then re-finds the — now cached — roots.) -/
def genStep (st : Maze × DisjointSet) (e : Edge) : Maze × DisjointSet :=
  let mz := st.1
  let a := e.y * mz.mazeW + e.x
  let b := if e.dir = 1 then a + 1 else a + mz.mazeW
  let fa := st.2.findRoot a
  let fb := fa.2.findRoot b
  if fa.1 ≠ fb.1 then
    let mz' :=
      if e.dir = 1 then
        { mz with hasRightWall := fun x' y' =>
            if x' = e.x ∧ y' = e.y then false else mz.hasRightWall x' y' }
      else
        { mz with hasDownWall := fun x' y' =>
            if x' = e.x ∧ y' = e.y then false else mz.hasDownWall x' y' }
    (mz', fb.2.unite a b)
  else (mz, fb.2)

/-- `Maze::generateRandom()`, with the shuffled edge order supplied as a
parameter: the source builds `edges`, shuffles it with an `mt19937` seeded
from `time(NULL)`, and folds the Kruskal body over the shuffled list.  The
permutation `es` is this model's stand-in for that random source. -/
def generateRandom (mz : Maze) (es : List Edge) : Maze :=
  (es.foldl genStep (mz, DisjointSet.init (mz.mazeW * mz.mazeH))).1

/-- The complete construction `Maze mazeObj(w, h); mazeObj.generateRandom();`.
`generateRandom` takes no arguments: it hard-codes
`std::mt19937 rng((unsigned)time(NULL));` and shuffles the candidate wall
list with it, so the permutation applied is `shuffleOf now`, a function of
the wall-clock time `now` at the call — the program accepts no
caller-supplied seed anywhere (`main` reads only the dimensions and the
animation speed).  `shuffleOf t` stands for the permutation that
`std::shuffle` produces from the `mt19937` seeded with `t`. -/
def generateTimed (w h : Nat) (shuffleOf : Nat → List Edge → List Edge)
    (now : Nat) : Maze :=
  generateRandom (Maze.new w h) (shuffleOf now (edgeList w h))

/-! ### C6: seed determinism -/

/-- **C6, counterexample**: generation exposes no seed to fix.  Its only
random source is the `mt19937` seeded with the ambient wall-clock time, and
the output genuinely depends on that time: there is a time-indexed shuffle
(each instant yielding a permutation of the candidate wall list, as
`std::shuffle` does) under which two invocations of the construction — all
caller-visible inputs equal, only the clock differing — produce wall grids
that disagree at cell `(0,0)`.  So "two invocations produce bit-identical
grids" fails for the program as written, and no caller-supplied seed exists
that could restore it. -/
theorem generation_accepts_no_seed :
    ∃ shuffleOf : Nat → List Edge → List Edge,
      (∀ t, (shuffleOf t (edgeList 2 2)).Perm (edgeList 2 2)) ∧
      (generateTimed 2 2 shuffleOf 0).hasRightWall 0 0
        ≠ (generateTimed 2 2 shuffleOf 1).hasRightWall 0 0 := by
  refine ⟨fun t es => if t = 0 then es else es.reverse, ?_, ?_⟩
  · intro t
    show (if t = 0 then edgeList 2 2 else (edgeList 2 2).reverse).Perm (edgeList 2 2)
    by_cases h : t = 0
    · rw [if_pos h]
    · rw [if_neg h]
      exact (edgeList 2 2).reverse_perm
  · decide

/-- **C6, amended**: the program accepts no random seed; its `mt19937` is
seeded with `(unsigned)time(NULL)`, the wall-clock time of the call.
Generation is otherwise a pure function of the dimensions and the shuffled
wall order, so two invocations whose clock readings produce the same shuffle
(in particular, made within the same second) yield bit-identical
`hasRightWall` and `hasDownWall` grids. -/
theorem generate_time_determinism (w h : Nat)
    (shuffleOf : Nat → List Edge → List Edge) (t1 t2 : Nat)
    (hsame : shuffleOf t1 (edgeList w h) = shuffleOf t2 (edgeList w h)) :
    (∀ x y, (generateTimed w h shuffleOf t1).hasRightWall x y
      = (generateTimed w h shuffleOf t2).hasRightWall x y) ∧
    (∀ x y, (generateTimed w h shuffleOf t1).hasDownWall x y
      = (generateTimed w h shuffleOf t2).hasDownWall x y) := by
  unfold generateTimed
  rw [hsame]
  exact ⟨fun _ _ => rfl, fun _ _ => rfl⟩

/-- Witness for `generate_time_determinism`: two calls within the same
clock second (`t1 = t2 = 5`). -/
theorem generate_time_determinism_witness :
    (fun _ : Nat => fun es : List Edge => es.reverse) 5 (edgeList 2 2)
      = (fun _ : Nat => fun es : List Edge => es.reverse) 5 (edgeList 2 2) ∧
    ((∀ x y, (generateTimed 2 2 (fun _ es => es.reverse) 5).hasRightWall x y
      = (generateTimed 2 2 (fun _ es => es.reverse) 5).hasRightWall x y) ∧
     (∀ x y, (generateTimed 2 2 (fun _ es => es.reverse) 5).hasDownWall x y
      = (generateTimed 2 2 (fun _ es => es.reverse) 5).hasDownWall x y)) :=
  ⟨rfl, generate_time_determinism 2 2 (fun _ es => es.reverse) 5 5 rfl⟩

/-! ### C5: degenerate dimensions -/

/-- C5 counterexample: there is no `InvalidDimensions` failure anywhere in
the program.  `Maze mazeObj(0, 1); mazeObj.generateRandom();` (a width
satisfying `W ≤ 0`) succeeds and produces a maze value. -/
theorem no_invalid_dimensions_check :
    (Maze.new 0 1).mazeW = 0 ∧
      generateRandom (Maze.new 0 1) (edgeList 0 1) = Maze.new 0 1 :=
  ⟨rfl, rfl⟩

/-- C5 (amended): the code performs no dimension validation and has no error
type.  For `W = 0` or `H = 0` the constructor succeeds with empty wall
grids, the candidate edge list is empty, and generation returns the
degenerate maze unchanged.  (Strictly negative C++ `int` dimensions are not
representable here; for those the `std::vector` constructor in `Maze(w,h)`
throws `length_error`/`bad_alloc` — still not an `InvalidDimensions`
error.) -/
theorem generate_degenerate_dims (w h : Nat) (hwh : w = 0 ∨ h = 0)
    (es : List Edge) (hes : es.Perm (edgeList w h)) :
    generateRandom (Maze.new w h) es = Maze.new w h := by
  have hnil : edgeList w h = [] := by
    rcases hwh with h0 | h0 <;> subst h0 <;> simp [edgeList]
  rw [hnil] at hes
  have : es = [] := List.Perm.eq_nil hes
  subst this
  rfl

/-- Witness for `generate_degenerate_dims` at `W = 0`, `H = 1`. -/
theorem generate_degenerate_dims_witness :
    ((0 : Nat) = 0 ∨ (1 : Nat) = 0) ∧
      generateRandom (Maze.new 0 1) (edgeList 0 1) = Maze.new 0 1 :=
  ⟨Or.inl rfl, generate_degenerate_dims 0 1 (Or.inl rfl) (edgeList 0 1) (List.Perm.refl _)⟩

/-! ### The grid graph of a maze

`moveTo` (the shared loop body) succeeds exactly on removed in-range walls;
the four lemmas below express it over `Nat` coordinates. -/

theorem pos_width_of_lt {mz : Maze} {u : Nat} (hu : u < mz.mazeW * mz.mazeH) :
    0 < mz.mazeW := by
  rcases Nat.eq_zero_or_pos mz.mazeW with h | h
  · rw [h, Nat.zero_mul] at hu
    exact absurd hu (Nat.not_lt_zero u)
  · exact h

theorem div_lt_height {mz : Maze} {u : Nat} (hu : u < mz.mazeW * mz.mazeH) :
    u / mz.mazeW < mz.mazeH :=
  Nat.div_lt_of_lt_mul hu

theorem moveTo_one {mz : Maze} {u : Nat} (hu : u < mz.mazeW * mz.mazeH) (v : Nat) :
    (moveTo mz u 1 = some v ↔
      (u % mz.mazeW + 1 < mz.mazeW ∧
        mz.hasRightWall (u % mz.mazeW) (u / mz.mazeW) = false ∧ v = u + 1)) := by
  have hW : 0 < mz.mazeW := pos_width_of_lt hu
  have hH : u / mz.mazeW < mz.mazeH := div_lt_height hu
  have hmod : u / mz.mazeW * mz.mazeW + u % mz.mazeW = u := Nat.div_add_mod' u mz.mazeW
  simp only [moveTo, cellPt, dirDx, dirDy]
  rw [canMove_one]
  norm_num
  rw [show ((u : Int) % (mz.mazeW : Int)) = ((u % mz.mazeW : Nat) : Int) by push_cast; ring]
  rw [show ((u : Int) / (mz.mazeW : Int)) = ((u / mz.mazeW : Nat) : Int) by push_cast; ring]
  rw [Int.toNat_natCast, Int.toNat_natCast]
  rw [show (cellId (((u % mz.mazeW : Nat) : Int) + 1) ((u / mz.mazeW : Nat) : Int)
      mz.mazeW).toNat = u + 1 by
    unfold cellId
    rw [show ((u / mz.mazeW : Nat) : Int) * (mz.mazeW : Nat) + (((u % mz.mazeW : Nat) : Int) + 1)
        = ((u / mz.mazeW * mz.mazeW + u % mz.mazeW + 1 : Nat) : Int) by push_cast; ring]
    rw [Int.toNat_natCast]
    omega]
  constructor
  · rintro ⟨h1, ⟨h2, h3⟩, h4⟩
    exact ⟨by exact_mod_cast h2, h3, h4.symm⟩
  · rintro ⟨h1, h2, h3⟩
    exact ⟨⟨add_nonneg (Int.natCast_nonneg _) zero_le_one, by exact_mod_cast h1,
      Int.natCast_nonneg _, by exact_mod_cast hH⟩, ⟨by exact_mod_cast h1, h2⟩, h3.symm⟩

theorem moveTo_two {mz : Maze} {u : Nat} (hu : u < mz.mazeW * mz.mazeH) (v : Nat) :
    (moveTo mz u 2 = some v ↔
      (u / mz.mazeW + 1 < mz.mazeH ∧
        mz.hasDownWall (u % mz.mazeW) (u / mz.mazeW) = false ∧ v = u + mz.mazeW)) := by
  have hW : 0 < mz.mazeW := pos_width_of_lt hu
  have hH : u / mz.mazeW < mz.mazeH := div_lt_height hu
  have hmod : u / mz.mazeW * mz.mazeW + u % mz.mazeW = u := Nat.div_add_mod' u mz.mazeW
  have hmlt : u % mz.mazeW < mz.mazeW := Nat.mod_lt u hW
  simp only [moveTo, cellPt, dirDx, dirDy]
  rw [canMove_two]
  norm_num
  rw [show ((u : Int) % (mz.mazeW : Int)) = ((u % mz.mazeW : Nat) : Int) by push_cast; ring]
  rw [show ((u : Int) / (mz.mazeW : Int)) = ((u / mz.mazeW : Nat) : Int) by push_cast; ring]
  rw [Int.toNat_natCast, Int.toNat_natCast]
  rw [show (cellId ((u % mz.mazeW : Nat) : Int) (((u / mz.mazeW : Nat) : Int) + 1)
      mz.mazeW).toNat = u + mz.mazeW by
    unfold cellId
    rw [show (((u / mz.mazeW : Nat) : Int) + 1) * (mz.mazeW : Nat) + ((u % mz.mazeW : Nat) : Int)
        = (((u / mz.mazeW + 1) * mz.mazeW + u % mz.mazeW : Nat) : Int) by push_cast; ring]
    rw [Int.toNat_natCast]
    have hdist : (u / mz.mazeW + 1) * mz.mazeW = u / mz.mazeW * mz.mazeW + mz.mazeW := by
      rw [Nat.add_mul, Nat.one_mul]
    omega]
  constructor
  · rintro ⟨h1, ⟨h2, h3⟩, h4⟩
    exact ⟨by exact_mod_cast h2, h3, h4.symm⟩
  · rintro ⟨h1, h2, h3⟩
    exact ⟨⟨Int.natCast_nonneg _, by exact_mod_cast hmlt,
      add_nonneg (Int.natCast_nonneg _) zero_le_one, by exact_mod_cast h1⟩,
      ⟨by exact_mod_cast h1, h2⟩, h3.symm⟩

theorem moveTo_zero {mz : Maze} {u : Nat} (hu : u < mz.mazeW * mz.mazeH) (v : Nat) :
    (moveTo mz u 0 = some v ↔
      (1 ≤ u / mz.mazeW ∧
        mz.hasDownWall (u % mz.mazeW) (u / mz.mazeW - 1) = false ∧ v + mz.mazeW = u)) := by
  have hW : 0 < mz.mazeW := pos_width_of_lt hu
  have hH : u / mz.mazeW < mz.mazeH := div_lt_height hu
  have hmod : u / mz.mazeW * mz.mazeW + u % mz.mazeW = u := Nat.div_add_mod' u mz.mazeW
  have hmlt : u % mz.mazeW < mz.mazeW := Nat.mod_lt u hW
  simp only [moveTo, cellPt, dirDx, dirDy]
  rw [canMove_zero]
  norm_num
  rw [show ((u : Int) % (mz.mazeW : Int)) = ((u % mz.mazeW : Nat) : Int) by push_cast; ring]
  rw [show ((u : Int) / (mz.mazeW : Int)) = ((u / mz.mazeW : Nat) : Int) by push_cast; ring]
  rw [Int.toNat_natCast]
  rw [Int.toNat_natCast]
  by_cases hq : 1 ≤ u / mz.mazeW
  · rw [show ((u / mz.mazeW : Nat) : Int) + -1 = ((u / mz.mazeW - 1 : Nat) : Int) by omega]
    rw [show (cellId ((u % mz.mazeW : Nat) : Int) ((u / mz.mazeW - 1 : Nat) : Int)
        mz.mazeW).toNat = u - mz.mazeW by
      unfold cellId
      rw [show ((u / mz.mazeW - 1 : Nat) : Int) * (mz.mazeW : Nat) + ((u % mz.mazeW : Nat) : Int)
          = (((u / mz.mazeW - 1) * mz.mazeW + u % mz.mazeW : Nat) : Int) by push_cast; ring]
      rw [Int.toNat_natCast]
      have hdist : (u / mz.mazeW - 1) * mz.mazeW = u / mz.mazeW * mz.mazeW - mz.mazeW := by
        rw [Nat.sub_mul, Nat.one_mul]
      have hge : mz.mazeW ≤ u / mz.mazeW * mz.mazeW := by
        calc mz.mazeW = 1 * mz.mazeW := (Nat.one_mul _).symm
        _ ≤ u / mz.mazeW * mz.mazeW := Nat.mul_le_mul_right _ hq
      omega]
    have hge : mz.mazeW ≤ u := by
      have hge' : mz.mazeW ≤ u / mz.mazeW * mz.mazeW := by
        calc mz.mazeW = 1 * mz.mazeW := (Nat.one_mul _).symm
        _ ≤ u / mz.mazeW * mz.mazeW := Nat.mul_le_mul_right _ hq
      omega
    constructor
    · rintro ⟨h1, ⟨h2, h3⟩, h4⟩
      exact ⟨hq, h3, by omega⟩
    · rintro ⟨h1, h2, h3⟩
      refine ⟨⟨Int.natCast_nonneg _, by exact_mod_cast hmlt,
        by exact_mod_cast hq, by exact_mod_cast Nat.lt_succ_of_lt hH⟩,
        ⟨?_, h2⟩, by omega⟩
      intro hzero
      have : u / mz.mazeW = 0 := by exact_mod_cast hzero
      omega
  · have hq0 : u / mz.mazeW = 0 := Nat.lt_one_iff.mp (Nat.lt_of_not_le hq)
    constructor
    · rintro ⟨h1, ⟨h2, h3⟩, h4⟩
      exfalso
      apply h2
      exact_mod_cast hq0
    · rintro ⟨h1, _, _⟩
      exact absurd h1 hq

theorem moveTo_three {mz : Maze} {u : Nat} (hu : u < mz.mazeW * mz.mazeH) (v : Nat) :
    (moveTo mz u 3 = some v ↔
      (1 ≤ u % mz.mazeW ∧
        mz.hasRightWall (u % mz.mazeW - 1) (u / mz.mazeW) = false ∧ v + 1 = u)) := by
  have hW : 0 < mz.mazeW := pos_width_of_lt hu
  have hH : u / mz.mazeW < mz.mazeH := div_lt_height hu
  have hmod : u / mz.mazeW * mz.mazeW + u % mz.mazeW = u := Nat.div_add_mod' u mz.mazeW
  have hmlt : u % mz.mazeW < mz.mazeW := Nat.mod_lt u hW
  simp only [moveTo, cellPt, dirDx, dirDy]
  rw [canMove_three]
  norm_num
  rw [show ((u : Int) % (mz.mazeW : Int)) = ((u % mz.mazeW : Nat) : Int) by push_cast; ring]
  rw [show ((u : Int) / (mz.mazeW : Int)) = ((u / mz.mazeW : Nat) : Int) by push_cast; ring]
  rw [Int.toNat_natCast]
  rw [Int.toNat_natCast]
  by_cases hq : 1 ≤ u % mz.mazeW
  · rw [show ((u % mz.mazeW : Nat) : Int) + -1 = ((u % mz.mazeW - 1 : Nat) : Int) by omega]
    rw [show (cellId ((u % mz.mazeW - 1 : Nat) : Int) ((u / mz.mazeW : Nat) : Int)
        mz.mazeW).toNat = u - 1 by
      unfold cellId
      rw [show ((u / mz.mazeW : Nat) : Int) * (mz.mazeW : Nat) + ((u % mz.mazeW - 1 : Nat) : Int)
          = ((u / mz.mazeW * mz.mazeW + (u % mz.mazeW - 1) : Nat) : Int) by push_cast; ring]
      rw [Int.toNat_natCast]
      omega]
    have hge : 1 ≤ u := by omega
    constructor
    · rintro ⟨h1, ⟨h2, h3⟩, h4⟩
      exact ⟨hq, h3, by omega⟩
    · rintro ⟨h1, h2, h3⟩
      refine ⟨⟨by exact_mod_cast hq, by exact_mod_cast Nat.lt_succ_of_lt hmlt,
        Int.natCast_nonneg _, by exact_mod_cast hH⟩, ⟨?_, h2⟩, by omega⟩
      intro hzero
      have : u % mz.mazeW = 0 := Nat.mod_eq_zero_of_dvd (by exact_mod_cast hzero)
      omega
  · have hq0 : u % mz.mazeW = 0 := Nat.lt_one_iff.mp (Nat.lt_of_not_le hq)
    constructor
    · rintro ⟨h1, ⟨h2, h3⟩, h4⟩
      exfalso
      apply h2
      exact_mod_cast Nat.dvd_of_mod_eq_zero hq0
    · rintro ⟨h1, _, _⟩
      exact absurd h1 hq

/-- The four movement directions in the fixed order every loop tries. -/
def dirs : List Int := [0, 1, 2, 3]

/-- Cells `u` and `v` are adjacent: some direction moves from `u` to `v`
(the wall between them has been removed and both are in range). -/
def isAdj (mz : Maze) (u v : Nat) : Bool :=
  dirs.any fun d => moveTo mz u d == some v

/-- Wall-level form of adjacency: the right wall of `u` is removed and
`v = u + 1`. -/
def rightAdj (mz : Maze) (u v : Nat) : Prop :=
  u % mz.mazeW + 1 < mz.mazeW ∧
    mz.hasRightWall (u % mz.mazeW) (u / mz.mazeW) = false ∧ v = u + 1

/-- Wall-level form of adjacency: the down wall of `u` is removed and
`v = u + W`. -/
def downAdj (mz : Maze) (u v : Nat) : Prop :=
  u / mz.mazeW + 1 < mz.mazeH ∧
    mz.hasDownWall (u % mz.mazeW) (u / mz.mazeW) = false ∧ v = u + mz.mazeW

theorem encode_mod {W : Nat} (x y : Nat) (hx : x < W) : (y * W + x) % W = x := by
  rw [Nat.mul_comm, Nat.mul_add_mod, Nat.mod_eq_of_lt hx]

theorem encode_div {W : Nat} (x y : Nat) (hx : x < W) (hW : 0 < W) : (y * W + x) / W = y := by
  rw [Nat.add_comm, Nat.add_mul_div_right _ _ hW, Nat.div_eq_of_lt hx, Nat.zero_add]

theorem moveTo_zero_iff_downAdj {mz : Maze} {u : Nat} (hu : u < mz.mazeW * mz.mazeH) (v : Nat) :
    (1 ≤ u / mz.mazeW ∧
      mz.hasDownWall (u % mz.mazeW) (u / mz.mazeW - 1) = false ∧ v + mz.mazeW = u) ↔
    downAdj mz v u := by
  have hW : 0 < mz.mazeW := pos_width_of_lt hu
  have hH : u / mz.mazeW < mz.mazeH := div_lt_height hu
  constructor
  · rintro ⟨h1, h2, h3⟩
    have hvmod : v % mz.mazeW = u % mz.mazeW := by
      rw [← h3, Nat.add_mod_right]
    have hvdiv : v / mz.mazeW + 1 = u / mz.mazeW := by
      rw [← h3, Nat.add_div_right _ hW]
    refine ⟨by rw [hvdiv]; exact hH, ?_, h3.symm⟩
    rw [hvmod, Nat.eq_sub_of_add_eq hvdiv]
    exact h2
  · rintro ⟨h1, h2, h3⟩
    have hvmod : v % mz.mazeW = u % mz.mazeW := by
      rw [h3, Nat.add_mod_right]
    have hvdiv : v / mz.mazeW + 1 = u / mz.mazeW := by
      rw [h3, Nat.add_div_right _ hW]
    refine ⟨by rw [← hvdiv]; exact Nat.le_add_left 1 _, ?_, h3.symm⟩
    rw [← hvmod, (Nat.eq_sub_of_add_eq hvdiv).symm]
    exact h2

theorem moveTo_three_iff_rightAdj {mz : Maze} {u : Nat} (hu : u < mz.mazeW * mz.mazeH) (v : Nat) :
    (1 ≤ u % mz.mazeW ∧
      mz.hasRightWall (u % mz.mazeW - 1) (u / mz.mazeW) = false ∧ v + 1 = u) ↔
    rightAdj mz v u := by
  have hW : 0 < mz.mazeW := pos_width_of_lt hu
  have hmod : u / mz.mazeW * mz.mazeW + u % mz.mazeW = u := Nat.div_add_mod' u mz.mazeW
  have hmlt : u % mz.mazeW < mz.mazeW := Nat.mod_lt u hW
  constructor
  · rintro ⟨h1, h2, h3⟩
    have hv : v = u / mz.mazeW * mz.mazeW + (u % mz.mazeW - 1) := by omega
    have hvmod : v % mz.mazeW = u % mz.mazeW - 1 := by
      rw [hv]
      exact encode_mod _ _ (by omega)
    have hvdiv : v / mz.mazeW = u / mz.mazeW := by
      rw [hv]
      exact encode_div _ _ (by omega) hW
    refine ⟨by omega, ?_, h3.symm⟩
    rw [hvmod, hvdiv]
    exact h2
  · rintro ⟨h1, h2, h3⟩
    have hmodv : v / mz.mazeW * mz.mazeW + v % mz.mazeW = v := Nat.div_add_mod' v mz.mazeW
    have hv : u = v / mz.mazeW * mz.mazeW + (v % mz.mazeW + 1) := by omega
    have humod : u % mz.mazeW = v % mz.mazeW + 1 := by
      rw [hv]
      exact encode_mod _ _ (by omega)
    have hudiv : u / mz.mazeW = v / mz.mazeW := by
      rw [hv]
      exact encode_div _ _ (by omega) hW
    refine ⟨by omega, ?_, h3.symm⟩
    rw [humod, hudiv]
    simpa using h2

/-- The loop-body adjacency equals the wall-level four-way disjunction. -/
theorem isAdj_iff {mz : Maze} {u : Nat} (hu : u < mz.mazeW * mz.mazeH) (v : Nat) :
    (isAdj mz u v = true ↔
      rightAdj mz u v ∨ rightAdj mz v u ∨ downAdj mz u v ∨ downAdj mz v u) := by
  unfold isAdj dirs
  simp only [List.any_cons, List.any_nil, Bool.or_false, Bool.or_eq_true, beq_iff_eq]
  rw [moveTo_zero hu v, moveTo_one hu v, moveTo_two hu v, moveTo_three hu v,
    moveTo_zero_iff_downAdj hu v, moveTo_three_iff_rightAdj hu v]
  unfold rightAdj downAdj
  tauto

/-- In-range adjacency is symmetric. -/
theorem isAdj_symm {mz : Maze} {u v : Nat} (hu : u < mz.mazeW * mz.mazeH)
    (hv : v < mz.mazeW * mz.mazeH) : isAdj mz u v = isAdj mz v u := by
  rw [Bool.eq_iff_iff, isAdj_iff hu v, isAdj_iff hv u]
  tauto

/-- Adjacent cells (from an in-range cell) are in range. -/
theorem isAdj_lt {mz : Maze} {u v : Nat} (hu : u < mz.mazeW * mz.mazeH)
    (h : isAdj mz u v = true) : v < mz.mazeW * mz.mazeH := by
  have hW : 0 < mz.mazeW := pos_width_of_lt hu
  have hmod : u / mz.mazeW * mz.mazeW + u % mz.mazeW = u := Nat.div_add_mod' u mz.mazeW
  have hmodv : v / mz.mazeW * mz.mazeW + v % mz.mazeW = v := Nat.div_add_mod' v mz.mazeW
  rcases (isAdj_iff hu v).mp h with ⟨h1, _, h3⟩ | ⟨h1, _, h3⟩ | ⟨h1, _, h3⟩ | ⟨h1, _, h3⟩
  · -- v = u + 1, u % W + 1 < W
    subst h3
    have : (u + 1) / mz.mazeW = u / mz.mazeW := by
      rw [show u + 1 = u / mz.mazeW * mz.mazeW + (u % mz.mazeW + 1) by omega]
      exact encode_div _ _ (by omega) hW
    have hH := div_lt_height hu
    calc u + 1 = (u + 1) / mz.mazeW * mz.mazeW + (u + 1) % mz.mazeW :=
      (Nat.div_add_mod' _ _).symm
    _ < mz.mazeW * mz.mazeH := by
      have hm : (u + 1) % mz.mazeW < mz.mazeW := Nat.mod_lt _ hW
      rw [this]
      calc u / mz.mazeW * mz.mazeW + (u + 1) % mz.mazeW
          < u / mz.mazeW * mz.mazeW + mz.mazeW := by omega
      _ = (u / mz.mazeW + 1) * mz.mazeW := by rw [Nat.add_mul, Nat.one_mul]
      _ ≤ mz.mazeH * mz.mazeW := Nat.mul_le_mul_right _ (by omega)
      _ = mz.mazeW * mz.mazeH := Nat.mul_comm _ _
  · omega
  · -- v = u + W, u / W + 1 < H
    subst h3
    calc u + mz.mazeW
        = u / mz.mazeW * mz.mazeW + u % mz.mazeW + mz.mazeW := by omega
    _ = (u / mz.mazeW + 1) * mz.mazeW + u % mz.mazeW := by
      rw [Nat.add_mul, Nat.one_mul]
      omega
    _ < (u / mz.mazeW + 1) * mz.mazeW + mz.mazeW := by
      have := Nat.mod_lt u hW
      omega
    _ = (u / mz.mazeW + 2) * mz.mazeW := by rw [Nat.add_mul (u / mz.mazeW + 1) 1, Nat.one_mul]
    _ ≤ mz.mazeH * mz.mazeW := Nat.mul_le_mul_right _ (by omega)
    _ = mz.mazeW * mz.mazeH := Nat.mul_comm _ _
  · omega

/-- The graph on the `W*H` cells whose edges are the removed walls
(adjacency = the loop-body movement test `canMove`). -/
def mazeGraph (mz : Maze) : SimpleGraph (Fin (mz.mazeW * mz.mazeH)) where
  Adj u v := isAdj mz (u : Nat) (v : Nat) = true
  symm := by
    intro u v h
    rw [← isAdj_symm u.isLt v.isLt]
    exact h
  loopless := by
    intro u h
    have hW : 0 < mz.mazeW := pos_width_of_lt u.isLt
    rcases (isAdj_iff u.isLt u).mp h with ⟨_, _, h3⟩ | ⟨_, _, h3⟩ | ⟨_, _, h3⟩ | ⟨_, _, h3⟩ <;>
      omega

instance mazeGraphAdjDecidable (mz : Maze) : DecidableRel (mazeGraph mz).Adj :=
  fun u v => Bool.decEq (isAdj mz (u : Nat) (v : Nat)) true

theorem mazeGraph_adj (mz : Maze) (u v : Fin (mz.mazeW * mz.mazeH)) :
    (mazeGraph mz).Adj u v ↔ isAdj mz (u : Nat) (v : Nat) = true := Iff.rfl

/-! #### Updating one wall adds exactly one graph edge -/

theorem rightAdj_update {mz : Maze} {ex ey : Nat} (hex : ex + 1 < mz.mazeW) :
    ∀ x y, (rightAdj { mz with hasRightWall := fun a b =>
        if a = ex ∧ b = ey then false else mz.hasRightWall a b } x y
      ↔ (rightAdj mz x y ∨
          (x = ey * mz.mazeW + ex ∧ y = ey * mz.mazeW + ex + 1))) := by
  have hW : 0 < mz.mazeW := by omega
  intro x y
  unfold rightAdj
  show x % mz.mazeW + 1 < mz.mazeW ∧
      (if x % mz.mazeW = ex ∧ x / mz.mazeW = ey then false
        else mz.hasRightWall (x % mz.mazeW) (x / mz.mazeW)) = false ∧ y = x + 1 ↔ _
  by_cases hxa : x % mz.mazeW = ex ∧ x / mz.mazeW = ey
  · have hxeq : x = ey * mz.mazeW + ex := by
      rw [← hxa.1, ← hxa.2]
      exact (Nat.div_add_mod' x mz.mazeW).symm
    rw [if_pos hxa]
    constructor
    · rintro ⟨_, _, h3⟩
      exact Or.inr ⟨hxeq, by omega⟩
    · rintro (⟨hc1, hc2, h3⟩ | ⟨_, h2⟩)
      · exact ⟨hc1, rfl, h3⟩
      · refine ⟨by rw [hxa.1]; exact hex, rfl, by omega⟩
  · rw [if_neg hxa]
    constructor
    · exact fun h => Or.inl h
    · rintro (h | ⟨h1, _⟩)
      · exact h
      · exfalso
        apply hxa
        subst h1
        exact ⟨encode_mod _ _ (by omega), encode_div _ _ (by omega) hW⟩

theorem downAdj_update {mz : Maze} {ex ey : Nat} (hex : ex < mz.mazeW) (hey : ey + 1 < mz.mazeH) :
    ∀ x y, (downAdj { mz with hasDownWall := fun a b =>
        if a = ex ∧ b = ey then false else mz.hasDownWall a b } x y
      ↔ (downAdj mz x y ∨
          (x = ey * mz.mazeW + ex ∧ y = ey * mz.mazeW + ex + mz.mazeW))) := by
  have hW : 0 < mz.mazeW := by omega
  intro x y
  unfold downAdj
  show x / mz.mazeW + 1 < mz.mazeH ∧
      (if x % mz.mazeW = ex ∧ x / mz.mazeW = ey then false
        else mz.hasDownWall (x % mz.mazeW) (x / mz.mazeW)) = false ∧ y = x + mz.mazeW ↔ _
  by_cases hxa : x % mz.mazeW = ex ∧ x / mz.mazeW = ey
  · have hxeq : x = ey * mz.mazeW + ex := by
      rw [← hxa.1, ← hxa.2]
      exact (Nat.div_add_mod' x mz.mazeW).symm
    rw [if_pos hxa]
    constructor
    · rintro ⟨_, _, h3⟩
      exact Or.inr ⟨hxeq, by omega⟩
    · rintro (⟨hc1, hc2, h3⟩ | ⟨_, h2⟩)
      · exact ⟨hc1, rfl, h3⟩
      · refine ⟨by rw [hxa.2]; exact hey, rfl, by omega⟩
  · rw [if_neg hxa]
    constructor
    · exact fun h => Or.inl h
    · rintro (h | ⟨h1, _⟩)
      · exact h
      · exfalso
        apply hxa
        subst h1
        exact ⟨encode_mod _ _ hex, encode_div _ _ hex hW⟩

/-- Removing one right wall adds exactly the adjacency `a ∼ a+1`. -/
theorem isAdj_removeRight {mz : Maze} {ex ey : Nat} (hex : ex + 1 < mz.mazeW)
    (hey : ey < mz.mazeH) {u : Nat} (hu : u < mz.mazeW * mz.mazeH) (v : Nat) :
    (isAdj { mz with hasRightWall := fun a b =>
        if a = ex ∧ b = ey then false else mz.hasRightWall a b } u v = true
      ↔ (isAdj mz u v = true ∨
          (u = ey * mz.mazeW + ex ∧ v = ey * mz.mazeW + ex + 1) ∨
          (v = ey * mz.mazeW + ex ∧ u = ey * mz.mazeW + ex + 1))) := by
  rw [@isAdj_iff { mz with hasRightWall := fun a b =>
    if a = ex ∧ b = ey then false else mz.hasRightWall a b } u hu v]
  rw [isAdj_iff hu v]
  rw [rightAdj_update hex u v, rightAdj_update hex v u]
  have hdown : ∀ x y, (downAdj { mz with hasRightWall := fun a b =>
      if a = ex ∧ b = ey then false else mz.hasRightWall a b } x y ↔ downAdj mz x y) :=
    fun x y => Iff.rfl
  rw [hdown u v, hdown v u]
  tauto

/-- Removing one down wall adds exactly the adjacency `a ∼ a+W`. -/
theorem isAdj_removeDown {mz : Maze} {ex ey : Nat} (hex : ex < mz.mazeW)
    (hey : ey + 1 < mz.mazeH) {u : Nat} (hu : u < mz.mazeW * mz.mazeH) (v : Nat) :
    (isAdj { mz with hasDownWall := fun a b =>
        if a = ex ∧ b = ey then false else mz.hasDownWall a b } u v = true
      ↔ (isAdj mz u v = true ∨
          (u = ey * mz.mazeW + ex ∧ v = ey * mz.mazeW + ex + mz.mazeW) ∨
          (v = ey * mz.mazeW + ex ∧ u = ey * mz.mazeW + ex + mz.mazeW))) := by
  rw [@isAdj_iff { mz with hasDownWall := fun a b =>
    if a = ex ∧ b = ey then false else mz.hasDownWall a b } u hu v]
  rw [isAdj_iff hu v]
  rw [downAdj_update hex hey u v, downAdj_update hex hey v u]
  have hright : ∀ x y, (rightAdj { mz with hasDownWall := fun a b =>
      if a = ex ∧ b = ey then false else mz.hasDownWall a b } x y ↔ rightAdj mz x y) :=
    fun x y => Iff.rfl
  rw [hright u v, hright v u]
  tauto

theorem canMove_new (w h : Nat) (x y d : Int) : (Maze.new w h).canMove x y d = false := by
  simp only [Maze.canMove, Maze.new]
  split_ifs <;> rfl

theorem moveTo_new (w h : Nat) (u : Nat) (d : Int) : moveTo (Maze.new w h) u d = none := by
  simp [moveTo, canMove_new]

/-- A fresh maze (all walls present) has no adjacencies. -/
theorem isAdj_new (w h : Nat) (u v : Nat) : isAdj (Maze.new w h) u v = false := by
  simp [isAdj, dirs, moveTo_new]

/-! #### Generic graph lemmas: adding a single edge between two components -/

section AddEdgeLemmas

variable {V : Type} {G G' : SimpleGraph V} {a b : V}

theorem reachable_add_edge
    (hadj : ∀ u v, G'.Adj u v ↔ (G.Adj u v ∨ (u = a ∧ v = b) ∨ (u = b ∧ v = a))) :
    ∀ u v, G'.Reachable u v ↔
      (G.Reachable u v ∨ (G.Reachable u a ∧ G.Reachable b v) ∨
        (G.Reachable u b ∧ G.Reachable a v)) := by
  intro u v
  constructor
  · rintro ⟨w⟩
    induction w with
    | nil => exact Or.inl (SimpleGraph.Reachable.refl _)
    | cons hadjstep p ih =>
      rcases (hadj _ _).mp hadjstep with hstep | ⟨h1, h2⟩ | ⟨h1, h2⟩
      · rcases ih with h | ⟨ha, hb⟩ | ⟨ha, hb⟩
        · exact Or.inl (SimpleGraph.Reachable.trans hstep.reachable h)
        · exact Or.inr (Or.inl ⟨SimpleGraph.Reachable.trans hstep.reachable ha, hb⟩)
        · exact Or.inr (Or.inr ⟨SimpleGraph.Reachable.trans hstep.reachable ha, hb⟩)
      · rw [h1]
        rw [h2] at ih
        rcases ih with h | ⟨ha, hb⟩ | ⟨ha, hb⟩
        · exact Or.inr (Or.inl ⟨SimpleGraph.Reachable.refl _, h⟩)
        · exact Or.inl (SimpleGraph.Reachable.trans ha.symm hb)
        · exact Or.inl hb
      · rw [h1]
        rw [h2] at ih
        rcases ih with h | ⟨ha, hb⟩ | ⟨ha, hb⟩
        · exact Or.inr (Or.inr ⟨SimpleGraph.Reachable.refl _, h⟩)
        · exact Or.inl hb
        · exact Or.inr (Or.inr ⟨SimpleGraph.Reachable.refl _, hb⟩)
  · have hle : ∀ x y, G.Reachable x y → G'.Reachable x y := by
      intro x y hxy
      refine SimpleGraph.Reachable.mono ?_ hxy
      intro p q hpq
      exact (hadj p q).mpr (Or.inl hpq)
    have hab' : G'.Reachable a b := by
      by_cases hab : a = b
      · exact hab ▸ SimpleGraph.Reachable.refl _
      · exact ((hadj a b).mpr (Or.inr (Or.inl ⟨rfl, rfl⟩))).reachable
    rintro (h | ⟨h1, h2⟩ | ⟨h1, h2⟩)
    · exact hle _ _ h
    · exact ((hle _ _ h1).trans hab').trans (hle _ _ h2)
    · exact ((hle _ _ h1).trans hab'.symm).trans (hle _ _ h2)

theorem graph_eq_sup_edge (hab : a ≠ b)
    (hadj : ∀ u v, G'.Adj u v ↔ (G.Adj u v ∨ (u = a ∧ v = b) ∨ (u = b ∧ v = a))) :
    G' = G ⊔ SimpleGraph.edge a b := by
  ext u v
  rw [hadj u v, SimpleGraph.sup_adj, SimpleGraph.edge_adj]
  constructor
  · rintro (h | ⟨h1, h2⟩ | ⟨h1, h2⟩)
    · exact Or.inl h
    · exact Or.inr ⟨Or.inl ⟨h1, h2⟩, by rw [h1, h2]; exact hab⟩
    · exact Or.inr ⟨Or.inr ⟨h1, h2⟩, by rw [h1, h2]; exact hab.symm⟩
  · rintro (h | ⟨h1 | h1, _⟩)
    · exact Or.inl h
    · exact Or.inr (Or.inl h1)
    · exact Or.inr (Or.inr h1)

theorem isAcyclic_add_edge [DecidableEq V] (hab : a ≠ b)
    (hnr : ¬ G.Reachable a b) (hG : G.IsAcyclic)
    (hadj : ∀ u v, G'.Adj u v ↔ (G.Adj u v ∨ (u = a ∧ v = b) ∨ (u = b ∧ v = a))) :
    G'.IsAcyclic := by
  have hnadj : ¬ G.Adj a b := fun h => hnr h.reachable
  have hG'eq := graph_eq_sup_edge hab hadj
  intro v c hc
  by_cases he : s(a, b) ∈ c.edges
  · -- the cycle uses the new edge: then a and b were already connected in G
    have hkey := (SimpleGraph.adj_and_reachable_delete_edges_iff_exists_cycle
      (G := G')).mpr ⟨v, c, hc, he⟩
    apply hnr
    have hdel : G' \ SimpleGraph.fromEdgeSet {s(a, b)} = G := by
      ext p q
      rw [SimpleGraph.sdiff_adj, SimpleGraph.fromEdgeSet_adj, hadj]
      constructor
      · rintro ⟨h | ⟨h1, h2⟩ | ⟨h1, h2⟩, hne⟩
        · exact h
        · exfalso
          apply hne
          constructor
          · rw [h1, h2]
            exact rfl
          · rw [h1, h2]
            exact hab
        · exfalso
          apply hne
          constructor
          · rw [h1, h2, Sym2.eq_swap]
            exact rfl
          · rw [h1, h2]
            exact hab.symm
      · intro h
        refine ⟨Or.inl h, ?_⟩
        rintro ⟨hmem, _⟩
        rw [Set.mem_singleton_iff, Sym2.eq_iff] at hmem
        rcases hmem with ⟨rfl, rfl⟩ | ⟨rfl, rfl⟩
        · exact hnadj h
        · exact hnadj h.symm
    rw [hdel] at hkey
    exact hkey.2
  · -- the cycle avoids the new edge: transfer it into G
    have hsub : ∀ e ∈ c.edges, e ∈ G.edgeSet := by
      intro e hmem
      have hmem' : e ∈ G'.edgeSet := c.edges_subset_edgeSet hmem
      rw [hG'eq, SimpleGraph.edgeSet_sup] at hmem'
      rcases hmem' with h | h
      · exact h
      · rw [SimpleGraph.edge_edgeSet_of_ne hab, Set.mem_singleton_iff] at h
        rw [h] at hmem
        exact absurd hmem he
    exact hG (c.transfer G hsub) (hc.transfer hsub)

theorem card_edgeFinset_add_edge [Fintype V] [DecidableEq V]
    [DecidableRel G.Adj] [DecidableRel G'.Adj] (hab : a ≠ b) (hnadj : ¬ G.Adj a b)
    (hadj : ∀ u v, G'.Adj u v ↔ (G.Adj u v ∨ (u = a ∧ v = b) ∨ (u = b ∧ v = a))) :
    G'.edgeFinset.card = G.edgeFinset.card + 1 := by
  have hset : G'.edgeFinset = insert s(a, b) G.edgeFinset := by
    ext e
    induction e with
    | _ p q =>
      rw [SimpleGraph.mem_edgeFinset, SimpleGraph.mem_edgeSet, hadj, Finset.mem_insert,
        SimpleGraph.mem_edgeFinset, SimpleGraph.mem_edgeSet, Sym2.eq_iff]
      constructor
      · rintro (h | ⟨h1, h2⟩ | ⟨h1, h2⟩)
        · exact Or.inr h
        · exact Or.inl (Or.inl ⟨h1, h2⟩)
        · exact Or.inl (Or.inr ⟨h1, h2⟩)
      · rintro ((⟨h1, h2⟩ | ⟨h1, h2⟩) | h)
        · exact Or.inr (Or.inl ⟨h1, h2⟩)
        · exact Or.inr (Or.inr ⟨h1, h2⟩)
        · exact Or.inl h
  rw [hset, Finset.card_insert_of_not_mem]
  rw [SimpleGraph.mem_edgeFinset, SimpleGraph.mem_edgeSet]
  exact hnadj

end AddEdgeLemmas

/-! ### C1: generation produces a spanning tree -/

/-- The first endpoint `a = e.y*W + e.x` of a candidate edge. -/
def aOf (e : Edge) (W : Nat) : Nat := e.y * W + e.x

/-- The second endpoint (`a+1` for a right edge, `a+W` for a down edge). -/
def bOf (e : Edge) (W : Nat) : Nat := if e.dir = 1 then aOf e W + 1 else aOf e W + W

/-- The candidate edges produced by the generator's enumeration. -/
def validEdge (W H : Nat) (e : Edge) : Prop :=
  (e.dir = 1 ∧ e.x + 1 < W ∧ e.y < H) ∨ (e.dir = 2 ∧ e.x < W ∧ e.y + 1 < H)

theorem mem_edgeList_iff {W H : Nat} {e : Edge} :
    e ∈ edgeList W H ↔ validEdge W H e := by
  unfold edgeList validEdge
  simp only [List.mem_flatMap, List.mem_range, List.mem_append]
  constructor
  · rintro ⟨y, hy, x, hx, hmem | hmem⟩
    · split_ifs at hmem with hc
      · simp only [List.mem_singleton] at hmem
        subst hmem
        exact Or.inl ⟨rfl, hc, hy⟩
      · simp at hmem
    · split_ifs at hmem with hc
      · simp only [List.mem_singleton] at hmem
        subst hmem
        exact Or.inr ⟨rfl, hx, hc⟩
      · simp at hmem
  · rintro (⟨hdir, hx, hy⟩ | ⟨hdir, hx, hy⟩)
    · refine ⟨e.y, hy, e.x, by omega, Or.inl ?_⟩
      rw [if_pos hx]
      simp only [List.mem_singleton]
      cases e
      simp_all
    · refine ⟨e.y, by omega, e.x, hx, Or.inr ?_⟩
      rw [if_pos hy]
      simp only [List.mem_singleton]
      cases e
      simp_all

theorem encode_lt {W H x y : Nat} (hx : x < W) (hy : y < H) : y * W + x < W * H := by
  calc y * W + x < y * W + W := by omega
  _ = (y + 1) * W := by rw [Nat.add_mul, Nat.one_mul]
  _ ≤ H * W := Nat.mul_le_mul_right _ (by omega)
  _ = W * H := Nat.mul_comm _ _

theorem aOf_lt {W H : Nat} {e : Edge} (hv : validEdge W H e) : aOf e W < W * H := by
  rcases hv with ⟨_, hx, hy⟩ | ⟨_, hx, hy⟩
  · exact encode_lt (by omega) hy
  · exact encode_lt hx (by omega)

theorem bOf_lt {W H : Nat} {e : Edge} (hv : validEdge W H e) : bOf e W < W * H := by
  rcases hv with ⟨hdir, hx, hy⟩ | ⟨hdir, hx, hy⟩
  · rw [bOf, if_pos hdir]
    exact encode_lt hx hy
  · rw [bOf, if_neg (by omega)]
    unfold aOf
    rw [show e.y * W + e.x + W = (e.y + 1) * W + e.x by rw [Nat.add_mul, Nat.one_mul]; omega]
    exact encode_lt hx hy

theorem aOf_ne_bOf {W H : Nat} {e : Edge} (hv : validEdge W H e) : aOf e W ≠ bOf e W := by
  rcases hv with ⟨hdir, hx, hy⟩ | ⟨hdir, hx, hy⟩
  · rw [bOf, if_pos hdir]
    omega
  · rw [bOf, if_neg (by omega)]
    omega

/-- The Kruskal loop invariant: through the fold, the union-find components
coincide with reachability in the partial maze, the partial maze is acyclic,
and (#removed walls) + (#components) = number of cells. -/
def GenInv (W H : Nat) (st : Maze × DisjointSet) : Prop :=
  st.1.mazeW = W ∧ st.1.mazeH = H ∧ DSWF st.2 ∧ st.2.n = W * H ∧
  (∀ u v : Fin (st.1.mazeW * st.1.mazeH),
    (sameRoot st.2 (u : Nat) (v : Nat) ↔ (mazeGraph st.1).Reachable u v)) ∧
  (mazeGraph st.1).IsAcyclic ∧
  (mazeGraph st.1).edgeFinset.card + rootCount st.2 = W * H

theorem follows_init {n x r : Nat} (h : Follows (DisjointSet.init n) x r) : r = x := by
  obtain ⟨_, k, hk⟩ := h
  rw [← hk]
  exact iterate_root_fixed (rfl : (DisjointSet.init n).isRoot x) k

theorem genInv_init (W H : Nat) : GenInv W H (Maze.new W H, DisjointSet.init (W * H)) := by
  have hadjF : ∀ u v : Fin (W * H), ¬ (mazeGraph (Maze.new W H)).Adj u v := by
    intro u v h
    rw [mazeGraph_adj, isAdj_new] at h
    exact Bool.false_ne_true h
  refine ⟨rfl, rfl, DSWF.init _, rfl, ?_, ?_, ?_⟩
  · intro u v
    constructor
    · rintro ⟨r, hu, hv⟩
      have h1 := follows_init hu
      have h2 := follows_init hv
      have huv : (u : Nat) = (v : Nat) := by omega
      rw [Fin.ext huv]
    · rintro ⟨w⟩
      cases w with
      | nil => exact sameRoot_refl ⟨rfl, 0, rfl⟩
      | cons h _ => exact absurd h (hadjF _ _)
  · intro v c hc
    cases c with
    | nil => exact hc.not_of_nil
    | cons h _ => exact absurd h (hadjF _ _)
  · have hempty : (mazeGraph (Maze.new W H)).edgeFinset = ∅ := by
      ext e
      induction e with
      | _ p q =>
        simp only [SimpleGraph.mem_edgeFinset, SimpleGraph.mem_edgeSet, Finset.not_mem_empty,
          iff_false]
        exact hadjF p q
    rw [hempty, Finset.card_empty, Nat.zero_add, rootCount_init]

theorem sameRoot_congr {ds ds' : DisjointSet}
    (h : ∀ y r, Follows ds' y r ↔ Follows ds y r) :
    ∀ u v, sameRoot ds' u v ↔ sameRoot ds u v :=
  fun u v => exists_congr fun r => and_congr (h u r) (h v r)

/-- Adding one edge between two cells of previously separate components
preserves the Kruskal invariant: components now match reachability in the
updated maze, the maze stays acyclic, and one edge replaces one root. -/
theorem genInv_union {mz : Maze} {ds : DisjointSet} {R D : Nat → Nat → Bool} {A B : Nat}
    (hwfds : DSWF ds) (hn : ds.n = mz.mazeW * mz.mazeH)
    (hA : A < mz.mazeW * mz.mazeH) (hB : B < mz.mazeW * mz.mazeH) (hAB : A ≠ B)
    {ra rb : Nat} (hfa : Follows ds A ra) (hfb : Follows ds B rb) (hrr : ¬ ra = rb)
    (hiff : ∀ u v : Fin (mz.mazeW * mz.mazeH),
      sameRoot ds (u : Nat) (v : Nat) ↔ (mazeGraph mz).Reachable u v)
    (hacyc : (mazeGraph mz).IsAcyclic)
    (hcount : (mazeGraph mz).edgeFinset.card + rootCount ds = mz.mazeW * mz.mazeH)
    (hadj : ∀ u : Nat, u < mz.mazeW * mz.mazeH → ∀ v : Nat,
      (isAdj (Maze.mk mz.mazeW mz.mazeH R D) u v = true ↔
        (isAdj mz u v = true ∨ (u = A ∧ v = B) ∨ (v = A ∧ u = B)))) :
    GenInv mz.mazeW mz.mazeH (Maze.mk mz.mazeW mz.mazeH R D, ds.unite A B) ∧
    (∀ u v, u < mz.mazeW * mz.mazeH → v < mz.mazeW * mz.mazeH →
      sameRoot ds u v → sameRoot (ds.unite A B) u v) ∧
    sameRoot (ds.unite A B) A B := by
  have hA' : A < ds.n := by rw [hn]; exact hA
  have hB' : B < ds.n := by rw [hn]; exact hB
  have hadjF : ∀ u v : Fin (mz.mazeW * mz.mazeH),
      ((mazeGraph (Maze.mk mz.mazeW mz.mazeH R D)).Adj u v ↔
        ((mazeGraph mz).Adj u v ∨
          (u = (⟨A, hA⟩ : Fin (mz.mazeW * mz.mazeH)) ∧ v = ⟨B, hB⟩) ∨
          (u = (⟨B, hB⟩ : Fin (mz.mazeW * mz.mazeH)) ∧ v = ⟨A, hA⟩))) := by
    intro u v
    constructor
    · intro h
      rcases (hadj u u.isLt v).mp h with h | ⟨h1, h2⟩ | ⟨h1, h2⟩
      · exact Or.inl h
      · exact Or.inr (Or.inl ⟨Fin.ext h1, Fin.ext h2⟩)
      · exact Or.inr (Or.inr ⟨Fin.ext h2, Fin.ext h1⟩)
    · rintro (h | ⟨h1, h2⟩ | ⟨h1, h2⟩)
      · exact (hadj u u.isLt v).mpr (Or.inl h)
      · rw [h1, h2]
        exact (hadj A hA B).mpr (Or.inr (Or.inl ⟨rfl, rfl⟩))
      · rw [h1, h2]
        exact (hadj B hB A).mpr (Or.inr (Or.inr ⟨rfl, rfl⟩))
  have hFAB : (⟨A, hA⟩ : Fin (mz.mazeW * mz.mazeH)) ≠ ⟨B, hB⟩ :=
    fun h => hAB (congrArg Fin.val h)
  have hnr : ¬ (mazeGraph mz).Reachable ⟨A, hA⟩ ⟨B, hB⟩ := fun h =>
    hrr ((sameRoot_iff_of_follows hfa hfb).mp ((hiff ⟨A, hA⟩ ⟨B, hB⟩).mpr h))
  have hnadj : ¬ (mazeGraph mz).Adj ⟨A, hA⟩ ⟨B, hB⟩ := fun h => hnr h.reachable
  have hacyc2 := isAcyclic_add_edge hFAB hnr hacyc hadjF
  have hreach2 := reachable_add_edge hadjF
  have hcard2 := card_edgeFinset_add_edge hFAB hnadj hadjF
  obtain ⟨w, l, hperm, _, _, _, _, _, hwf2, hn2, _, hRiff⟩ :=
    unite_spec_diff hwfds hA' hB' hfa hfb hrr
  have hmono := unite_sameRoot_diff hwfds hA' hB' hfa hfb hrr
  have hlroot : ds.isRoot l := by
    rcases hperm with ⟨_, hl⟩ | ⟨_, hl⟩
    · rw [hl]
      exact hfb.1
    · rw [hl]
      exact hfa.1
  have hlln : l < ds.n := by
    rcases hperm with ⟨_, hl⟩ | ⟨_, hl⟩
    · rw [hl]
      exact follows_lt hwfds hB' hfb
    · rw [hl]
      exact follows_lt hwfds hA' hfa
  have hrc := rootCount_erase hn2 hlroot hlln hRiff
  refine ⟨⟨rfl, rfl, hwf2, by rw [hn2, hn], ?_, hacyc2, ?_⟩, ?_, ?_⟩
  · intro u v
    have hu' : (u : Nat) < ds.n := by rw [hn]; exact u.isLt
    have hv' : (v : Nat) < ds.n := by rw [hn]; exact v.isLt
    constructor
    · intro h
      rcases (hmono _ _ hu' hv').mp h with h | ⟨h1, h2⟩ | ⟨h1, h2⟩
      · exact (hreach2 u v).mpr (Or.inl ((hiff u v).mp h))
      · exact (hreach2 u v).mpr (Or.inr (Or.inl
          ⟨(hiff u ⟨A, hA⟩).mp h1, (hiff ⟨B, hB⟩ v).mp h2⟩))
      · exact (hreach2 u v).mpr (Or.inr (Or.inr
          ⟨(hiff u ⟨B, hB⟩).mp h1, (hiff ⟨A, hA⟩ v).mp h2⟩))
    · intro h
      rcases (hreach2 u v).mp h with h | ⟨h1, h2⟩ | ⟨h1, h2⟩
      · exact (hmono _ _ hu' hv').mpr (Or.inl ((hiff u v).mpr h))
      · exact (hmono _ _ hu' hv').mpr (Or.inr (Or.inl
          ⟨(hiff u ⟨A, hA⟩).mpr h1, (hiff ⟨B, hB⟩ v).mpr h2⟩))
      · exact (hmono _ _ hu' hv').mpr (Or.inr (Or.inr
          ⟨(hiff u ⟨B, hB⟩).mpr h1, (hiff ⟨A, hA⟩ v).mpr h2⟩))
  · show (mazeGraph (Maze.mk mz.mazeW mz.mazeH R D)).edgeFinset.card
        + rootCount (ds.unite A B) = mz.mazeW * mz.mazeH
    omega
  · intro u v hu hv hs
    have hu' : u < ds.n := by rw [hn]; exact hu
    have hv' : v < ds.n := by rw [hn]; exact hv
    exact (hmono u v hu' hv').mpr (Or.inl hs)
  · exact (hmono A B hA' hB').mpr (Or.inr (Or.inl ⟨sameRoot_refl hfa, sameRoot_refl hfb⟩))

/-- One Kruskal step preserves the invariant, only ever merges components,
and leaves the two endpoints of the processed edge in one component. -/
theorem genStep_inv {W H : Nat} {st : Maze × DisjointSet} (hinv : GenInv W H st)
    {e : Edge} (hv : validEdge W H e) :
    GenInv W H (genStep st e) ∧
    (∀ u v, u < W * H → v < W * H → sameRoot st.2 u v → sameRoot (genStep st e).2 u v) ∧
    sameRoot (genStep st e).2 (aOf e W) (bOf e W) := by
  obtain ⟨mz, ds⟩ := st
  obtain ⟨hW, hH, hwf, hn, hiff, hacyc, hcount⟩ := hinv
  subst hW
  subst hH
  have ha : aOf e mz.mazeW < mz.mazeW * mz.mazeH := aOf_lt hv
  have hb : bOf e mz.mazeW < mz.mazeW * mz.mazeH := bOf_lt hv
  have hxab : aOf e mz.mazeW ≠ bOf e mz.mazeW := aOf_ne_bOf hv
  have haN : e.y * mz.mazeW + e.x < ds.n := by rw [hn]; exact ha
  have hbN : (if e.dir = 1 then e.y * mz.mazeW + e.x + 1 else e.y * mz.mazeW + e.x + mz.mazeW)
      < ds.n := by rw [hn]; exact hb
  obtain ⟨ra, hra⟩ := hwf.2.1 _ haN
  obtain ⟨rb, hrb⟩ := hwf.2.1 _ hbN
  obtain ⟨e1, e2, e3, e4, e5, e6, _, _⟩ := DisjointSet.findRoot_spec hwf haN hra
  have hb1 : (if e.dir = 1 then e.y * mz.mazeW + e.x + 1 else e.y * mz.mazeW + e.x + mz.mazeW)
      < (ds.findRoot (e.y * mz.mazeW + e.x)).2.n := by
    rw [e2, hn]
    exact hb
  have hrb1 := (e5 _ _).mpr hrb
  obtain ⟨f1, f2, f3, f4, f5, f6, _, _⟩ := DisjointSet.findRoot_spec e4 hb1 hrb1
  have hfol2 : ∀ y r, Follows ((ds.findRoot (e.y * mz.mazeW + e.x)).2.findRoot
      (if e.dir = 1 then e.y * mz.mazeW + e.x + 1 else e.y * mz.mazeW + e.x + mz.mazeW)).2 y r
      ↔ Follows ds y r := by
    intro y r
    rw [f5, e5]
  have hsame2 := sameRoot_congr hfol2
  have hn2 : ((ds.findRoot (e.y * mz.mazeW + e.x)).2.findRoot
      (if e.dir = 1 then e.y * mz.mazeW + e.x + 1 else e.y * mz.mazeW + e.x + mz.mazeW)).2.n
      = mz.mazeW * mz.mazeH := by
    rw [f2, e2, hn]
  have hra2 := (hfol2 _ _).mpr hra
  have hrb2 := (hfol2 _ _).mpr hrb
  have hroot2 : ∀ y, ((ds.findRoot (e.y * mz.mazeW + e.x)).2.findRoot
      (if e.dir = 1 then e.y * mz.mazeW + e.x + 1 else e.y * mz.mazeW + e.x + mz.mazeW)).2.isRoot y
      ↔ ds.isRoot y := by
    intro y
    rw [f6, e6]
  have hiff2 : ∀ u v : Fin (mz.mazeW * mz.mazeH),
      sameRoot ((ds.findRoot (e.y * mz.mazeW + e.x)).2.findRoot
        (if e.dir = 1 then e.y * mz.mazeW + e.x + 1 else e.y * mz.mazeW + e.x + mz.mazeW)).2
        (u : Nat) (v : Nat) ↔ (mazeGraph mz).Reachable u v :=
    fun u v => (hsame2 _ _).trans (hiff u v)
  have hcount2 : (mazeGraph mz).edgeFinset.card
      + rootCount ((ds.findRoot (e.y * mz.mazeW + e.x)).2.findRoot
        (if e.dir = 1 then e.y * mz.mazeW + e.x + 1 else e.y * mz.mazeW + e.x + mz.mazeW)).2
      = mz.mazeW * mz.mazeH := by
    rw [rootCount_congr (by rw [hn2, hn]) hroot2]
    exact hcount
  by_cases hrr : ra = rb
  · -- the endpoints already share a component: the edge is skipped
    have hgs : genStep (mz, ds) e =
        (mz, ((ds.findRoot (e.y * mz.mazeW + e.x)).2.findRoot
          (if e.dir = 1 then e.y * mz.mazeW + e.x + 1 else e.y * mz.mazeW + e.x + mz.mazeW)).2) := by
      simp only [genStep]
      rw [e1, f1, if_neg (fun hne => hne hrr)]
    rw [hgs]
    refine ⟨⟨rfl, rfl, f4, hn2, fun u v => (hsame2 _ _).trans (hiff u v), hacyc, hcount2⟩,
      ?_, ?_⟩
    · intro u v _ _ hs
      exact (hsame2 u v).mpr hs
    · refine (hsame2 _ _).mpr ⟨ra, hra, ?_⟩
      rw [hrr]
      exact hrb
  · -- different components: remove the wall and unite
    rcases hv with ⟨hd, hx, hy⟩ | ⟨hd, hx, hy⟩
    · -- right edge
      simp only [hd, reduceIte] at f1 f4 hn2 hra2 hrb2 hsame2 hiff2 hcount2
      simp only [aOf, bOf, hd, reduceIte] at ha hb hxab
      simp only [aOf, bOf, hd, reduceIte]
      have hgs : genStep (mz, ds) e =
          ({ mz with hasRightWall := fun x' y' =>
              if x' = e.x ∧ y' = e.y then false else mz.hasRightWall x' y' },
           ((ds.findRoot (e.y * mz.mazeW + e.x)).2.findRoot (e.y * mz.mazeW + e.x + 1)).2.unite
            (e.y * mz.mazeW + e.x) (e.y * mz.mazeW + e.x + 1)) := by
        simp only [genStep, hd, reduceIte]
        rw [e1, f1, if_pos hrr]
      rw [hgs]
      have hadjR : ∀ u : Nat, u < mz.mazeW * mz.mazeH → ∀ v : Nat,
          (isAdj { mz with hasRightWall := fun x' y' =>
              if x' = e.x ∧ y' = e.y then false else mz.hasRightWall x' y' } u v = true ↔
            (isAdj mz u v = true ∨
              (u = e.y * mz.mazeW + e.x ∧ v = e.y * mz.mazeW + e.x + 1) ∨
              (v = e.y * mz.mazeW + e.x ∧ u = e.y * mz.mazeW + e.x + 1))) :=
        fun u hu v => isAdj_removeRight hx hy hu v
      have hg := genInv_union f4 hn2 ha hb hxab hra2 hrb2 hrr hiff2 hacyc hcount2 hadjR
      exact ⟨hg.1, fun u v hu hv hs => hg.2.1 u v hu hv ((hsame2 u v).mpr hs), hg.2.2⟩
    · -- down edge
      have hd1 : ¬ e.dir = 1 := by omega
      simp only [hd1, reduceIte] at f1 f4 hn2 hra2 hrb2 hsame2 hiff2 hcount2
      simp only [aOf, bOf, hd1, reduceIte] at ha hb hxab
      simp only [aOf, bOf, hd1, reduceIte]
      have hgs : genStep (mz, ds) e =
          ({ mz with hasDownWall := fun x' y' =>
              if x' = e.x ∧ y' = e.y then false else mz.hasDownWall x' y' },
           ((ds.findRoot (e.y * mz.mazeW + e.x)).2.findRoot
              (e.y * mz.mazeW + e.x + mz.mazeW)).2.unite
            (e.y * mz.mazeW + e.x) (e.y * mz.mazeW + e.x + mz.mazeW)) := by
        simp only [genStep, hd1, reduceIte]
        rw [e1, f1, if_pos hrr]
      rw [hgs]
      have hadjD : ∀ u : Nat, u < mz.mazeW * mz.mazeH → ∀ v : Nat,
          (isAdj { mz with hasDownWall := fun x' y' =>
              if x' = e.x ∧ y' = e.y then false else mz.hasDownWall x' y' } u v = true ↔
            (isAdj mz u v = true ∨
              (u = e.y * mz.mazeW + e.x ∧ v = e.y * mz.mazeW + e.x + mz.mazeW) ∨
              (v = e.y * mz.mazeW + e.x ∧ u = e.y * mz.mazeW + e.x + mz.mazeW))) :=
        fun u hu v => isAdj_removeDown hx hy hu v
      have hg := genInv_union f4 hn2 ha hb hxab hra2 hrb2 hrr hiff2 hacyc hcount2 hadjD
      exact ⟨hg.1, fun u v hu hv hs => hg.2.1 u v hu hv ((hsame2 u v).mpr hs), hg.2.2⟩

/-- Folding the Kruskal body over any list of valid candidate edges preserves
the invariant, never splits components, and joins the endpoints of every
processed edge. -/
theorem genFold_inv {W H : Nat} (es : List Edge) (hes : ∀ e ∈ es, validEdge W H e)
    {st : Maze × DisjointSet} (hinv : GenInv W H st) :
    GenInv W H (es.foldl genStep st) ∧
    (∀ u v, u < W * H → v < W * H →
      sameRoot st.2 u v → sameRoot (es.foldl genStep st).2 u v) ∧
    (∀ e ∈ es, sameRoot (es.foldl genStep st).2 (aOf e W) (bOf e W)) := by
  induction es generalizing st with
  | nil =>
    exact ⟨hinv, fun u v _ _ h => h, fun e he => absurd he (List.not_mem_nil e)⟩
  | cons e es ih =>
    have hve : validEdge W H e := hes e (List.mem_cons_self e es)
    obtain ⟨h1, h2, h3⟩ := genStep_inv hinv hve
    obtain ⟨g1, g2, g3⟩ := ih (fun e' he' => hes e' (List.mem_cons_of_mem e he')) h1
    refine ⟨g1, ?_, ?_⟩
    · intro u v hu hv hs
      exact g2 u v hu hv (h2 u v hu hv hs)
    · intro e' he'
      rcases List.mem_cons.mp he' with heq | he'
      · rw [heq]
        exact g2 _ _ (aOf_lt hve) (bOf_lt hve) h3
      · exact g3 e' he'

/-- After processing every grid edge (in any order), all cells are in one
union-find component: each cell is linked to its left or upper neighbour. -/
theorem genFold_connected {W H : Nat} {es : List Edge} (hperm : es.Perm (edgeList W H))
    {st : Maze × DisjointSet} (hinv : GenInv W H st) :
    ∀ u, u < W * H → sameRoot (es.foldl genStep st).2 0 u := by
  obtain ⟨g1, _, g3⟩ :=
    genFold_inv es (fun e he => mem_edgeList_iff.mp (hperm.mem_iff.mp he)) hinv
  obtain ⟨_, _, hwf, hn, _, _, _⟩ := g1
  have hedge : ∀ e, validEdge W H e →
      sameRoot (es.foldl genStep st).2 (aOf e W) (bOf e W) :=
    fun e hve => g3 e (hperm.mem_iff.mpr (mem_edgeList_iff.mpr hve))
  intro u
  induction u using Nat.strong_induction_on with
  | _ u ih =>
    intro hu
    have hW : 0 < W := by
      rcases Nat.eq_zero_or_pos W with h | h
      · rw [h, Nat.zero_mul] at hu
        exact absurd hu (Nat.not_lt_zero u)
      · exact h
    have hmod : u / W * W + u % W = u := Nat.div_add_mod' u W
    have hdivH : u / W < H := Nat.div_lt_of_lt_mul hu
    by_cases h0 : u = 0
    · rw [h0]
      obtain ⟨r, hr⟩ := hwf.2.1 0 (by rw [hn]; omega)
      exact sameRoot_refl hr
    · by_cases hx : 0 < u % W
      · have he : validEdge W H ⟨u % W - 1, u / W, 1⟩ := by
          refine Or.inl ⟨rfl, ?_, hdivH⟩
          show u % W - 1 + 1 < W
          have := Nat.mod_lt u hW
          omega
        have hstep := hedge _ he
        have haof : aOf ⟨u % W - 1, u / W, 1⟩ W = u - 1 := by
          show u / W * W + (u % W - 1) = u - 1
          omega
        have hbof : bOf ⟨u % W - 1, u / W, 1⟩ W = u := by
          show (if (1 : Nat) = 1 then u / W * W + (u % W - 1) + 1
            else u / W * W + (u % W - 1) + W) = u
          rw [if_pos rfl]
          omega
        rw [haof, hbof] at hstep
        exact sameRoot_trans (ih (u - 1) (by omega) (by omega)) hstep
      · have hy : 0 < u / W := by
          rcases Nat.eq_zero_or_pos (u / W) with hq | hq
          · rw [hq, Nat.zero_mul] at hmod
            omega
          · exact hq
        have he : validEdge W H ⟨u % W, u / W - 1, 2⟩ := by
          refine Or.inr ⟨rfl, Nat.mod_lt u hW, ?_⟩
          show u / W - 1 + 1 < H
          rw [Nat.sub_add_cancel hy]
          exact hdivH
        have hstep := hedge _ he
        have haof : aOf ⟨u % W, u / W - 1, 2⟩ W = u - W := by
          show (u / W - 1) * W + u % W = u - W
          rw [Nat.sub_mul, Nat.one_mul]
          omega
        have hbof : bOf ⟨u % W, u / W - 1, 2⟩ W = u := by
          show (if (2 : Nat) = 1 then (u / W - 1) * W + u % W + 1
            else (u / W - 1) * W + u % W + W) = u
          rw [if_neg (by omega), Nat.sub_mul, Nat.one_mul]
          have hge : W ≤ u / W * W := by
            calc W = 1 * W := (Nat.one_mul W).symm
            _ ≤ u / W * W := Nat.mul_le_mul_right W hy
          omega
        rw [haof, hbof] at hstep
        exact sameRoot_trans (ih (u - W) (by omega) (by omega)) hstep

/-- The generated maze's removed-wall graph is connected and acyclic with
`W*H - 1` edges (stated on the fold directly). -/
theorem generate_tree_fold {W H : Nat} (hW : 0 < W) (hH : 0 < H)
    {es : List Edge} (hperm : es.Perm (edgeList W H)) :
    (mazeGraph (es.foldl genStep (Maze.new W H, DisjointSet.init (W * H))).1).Connected ∧
    (mazeGraph (es.foldl genStep (Maze.new W H, DisjointSet.init (W * H))).1).IsAcyclic ∧
    (mazeGraph (es.foldl genStep (Maze.new W H, DisjointSet.init (W * H))).1).edgeFinset.card
      = W * H - 1 := by
  have hes : ∀ e ∈ es, validEdge W H e :=
    fun e he => mem_edgeList_iff.mp (hperm.mem_iff.mp he)
  obtain ⟨g1, _, _⟩ := genFold_inv es hes (genInv_init W H)
  have hconn0 := genFold_connected hperm (genInv_init W H)
  obtain ⟨hW1, hH1, hwf, hn, hiff, hacyc, hcount⟩ := g1
  have hNpos : 0 < (es.foldl genStep (Maze.new W H, DisjointSet.init (W * H))).1.mazeW
      * (es.foldl genStep (Maze.new W H, DisjointSet.init (W * H))).1.mazeH := by
    rw [hW1, hH1]
    exact Nat.mul_pos hW hH
  have hreach0 : ∀ u : Fin ((es.foldl genStep (Maze.new W H, DisjointSet.init (W * H))).1.mazeW
      * (es.foldl genStep (Maze.new W H, DisjointSet.init (W * H))).1.mazeH),
      (mazeGraph (es.foldl genStep (Maze.new W H, DisjointSet.init (W * H))).1).Reachable
        ⟨0, hNpos⟩ u := by
    intro u
    refine (hiff ⟨0, hNpos⟩ u).mp (hconn0 (u : Nat) ?_)
    exact lt_of_lt_of_eq u.isLt (by rw [hW1, hH1])
  have hconn : (mazeGraph (es.foldl genStep (Maze.new W H, DisjointSet.init (W * H))).1).Connected :=
    (SimpleGraph.connected_iff_exists_forall_reachable _).mpr ⟨⟨0, hNpos⟩, hreach0⟩
  have hrc1 : rootCount (es.foldl genStep (Maze.new W H, DisjointSet.init (W * H))).2 = 1 := by
    refine rootCount_eq_one hwf (by rw [hn]; exact Nat.mul_pos hW hH) ?_
    intro u v hu hv
    rw [hn] at hu hv
    exact sameRoot_trans (sameRoot_symm (hconn0 u hu)) (hconn0 v hv)
  refine ⟨hconn, hacyc, ?_⟩
  omega

/-- C1: for positive dimensions, the maze produced by generation (Kruskal over
any shuffle of the candidate edge list) satisfies the spanning-tree invariant:
the graph of the removed walls on the `W*H` cells is connected, acyclic, has
exactly `W*H - 1` edges, and admits exactly one simple path between any two
cells. -/
theorem generation_spanning_tree (W H : Nat) (hW : 0 < W) (hH : 0 < H)
    (es : List Edge) (hperm : es.Perm (edgeList W H)) :
    (mazeGraph (generateRandom (Maze.new W H) es)).Connected ∧
    (mazeGraph (generateRandom (Maze.new W H) es)).IsAcyclic ∧
    (mazeGraph (generateRandom (Maze.new W H) es)).edgeFinset.card = W * H - 1 ∧
    ∀ u v : Fin ((generateRandom (Maze.new W H) es).mazeW
        * (generateRandom (Maze.new W H) es).mazeH),
      ∃! p : (mazeGraph (generateRandom (Maze.new W H) es)).Walk u v, p.IsPath := by
  obtain ⟨hconn, hacyc, hcard⟩ := generate_tree_fold hW hH hperm
  exact ⟨hconn, hacyc, hcard,
    SimpleGraph.IsTree.existsUnique_path ⟨hconn, hacyc⟩⟩

theorem generation_spanning_tree_witness :
    0 < 2 ∧ 0 < 1 ∧
    ((mazeGraph (generateRandom (Maze.new 2 1) (edgeList 2 1))).Connected ∧
     (mazeGraph (generateRandom (Maze.new 2 1) (edgeList 2 1))).IsAcyclic ∧
     (mazeGraph (generateRandom (Maze.new 2 1) (edgeList 2 1))).edgeFinset.card = 2 * 1 - 1 ∧
     ∀ u v : Fin ((generateRandom (Maze.new 2 1) (edgeList 2 1)).mazeW
         * (generateRandom (Maze.new 2 1) (edgeList 2 1)).mazeH),
       ∃! p : (mazeGraph (generateRandom (Maze.new 2 1) (edgeList 2 1))).Walk u v, p.IsPath) :=
  ⟨by decide, by decide,
    generation_spanning_tree 2 1 (by decide) (by decide) (edgeList 2 1) (List.Perm.refl _)⟩

/-! ### The search engines

`runDFS`, `runBFS` and `runPQ` (the latter instantiated with the zero
heuristic for Dijkstra and the Manhattan heuristic for A*) share a frame: a
frontier of cell ids, a visited set, a `parentOf` array (`-1` becomes
`none`), and a final call to `drawFinalPath` that follows `parentOf` from
the goal cell `cellId(W-1, H-1, W)`.  Each loop is modelled as a step
function iterated `fuel` times; `done` records that the loop broke because
the goal was taken from the frontier. -/

def goalId (W H : Nat) : Int := cellId ((W : Int) - 1) ((H : Int) - 1) W

/-- The goal cell as a cell index (equals `goalId` for positive dims). -/
def goalCell (W H : Nat) : Nat := (H - 1) * W + (W - 1)

def INTMAX : Nat := 2147483647

structure DFSState where
  parentOf : Nat → Option Nat
  visited : List Nat
  stk : List Nat
  done : Bool

def dfsInit : DFSState := ⟨fun _ => none, [0], [0], false⟩

/-- The first direction (scanned in order 0,1,2,3) whose target is movable
and unvisited, as in the `nextCell` scan of `runDFS`. -/
def dfsPick (mz : Maze) (visited : List Nat) (u : Nat) : Option Nat :=
  dirs.findSome? fun d =>
    match moveTo mz u d with
    | some v => if v ∈ visited then none else some v
    | none => none

def dfsStep (mz : Maze) (s : DFSState) : DFSState :=
  if s.done then s
  else
    match s.stk with
    | [] => s
    | u :: rest =>
      if (u : Int) = goalId mz.mazeW mz.mazeH then { s with done := true }
      else
        match dfsPick mz s.visited u with
        | some v =>
          { parentOf := fun x => if x = v then some u else s.parentOf x,
            visited := v :: s.visited,
            stk := v :: s.stk,
            done := false }
        | none => { s with stk := rest }

def dfsRun (mz : Maze) (fuel : Nat) : DFSState := (dfsStep mz)^[fuel] dfsInit

def DFSState.stopped (s : DFSState) : Prop := s.done = true ∨ s.stk = []

structure BFSState where
  parentOf : Nat → Option Nat
  visited : List Nat
  que : List Nat
  done : Bool

def bfsInit : BFSState := ⟨fun _ => none, [0], [0], false⟩

/-- One direction of the BFS neighbour scan over the accumulator
`(parentOf, visited, queue)`. -/
def bfsExpand (mz : Maze) (u : Nat)
    (acc : (Nat → Option Nat) × List Nat × List Nat) (d : Int) :
    (Nat → Option Nat) × List Nat × List Nat :=
  match moveTo mz u d with
  | some v =>
    if v ∈ acc.2.1 then acc
    else (fun x => if x = v then some u else acc.1 x, v :: acc.2.1, acc.2.2 ++ [v])
  | none => acc

def bfsStep (mz : Maze) (s : BFSState) : BFSState :=
  if s.done then s
  else
    match s.que with
    | [] => s
    | u :: rest =>
      if (u : Int) = goalId mz.mazeW mz.mazeH then
        { s with que := rest, done := true }
      else
        let acc := dirs.foldl (bfsExpand mz u) (s.parentOf, s.visited, rest)
        ⟨acc.1, acc.2.1, acc.2.2, false⟩

def bfsRun (mz : Maze) (fuel : Nat) : BFSState := (bfsStep mz)^[fuel] bfsInit

def BFSState.stopped (s : BFSState) : Prop := s.done = true ∨ s.que = []

/-- Strict lexicographic order on `(key, cell)` pairs: the order of
`priority_queue<pair<int,int>, vector<...>, greater<...>>`. -/
def pairLt (p q : Nat × Nat) : Bool :=
  p.1 < q.1 || (p.1 = q.1 && p.2 < q.2)

/-- The minimal pair of the queue (`pq.top()` of the min-heap). -/
def pqTop : List (Nat × Nat) → Option (Nat × Nat)
  | [] => none
  | p :: ps => some (ps.foldl (fun m q => if pairLt q m then q else m) p)

structure PQState where
  dist : Nat → Nat
  parentOf : Nat → Option Nat
  visited : List Nat
  pq : List (Nat × Nat)
  done : Bool

def pqInit (h : Nat → Nat) : PQState :=
  ⟨fun x => if x = 0 then 0 else INTMAX, fun _ => none, [0], [(h 0, 0)], false⟩

/-- One direction of the relaxation scan over `(dist, parentOf, pq)`. -/
def pqRelax (mz : Maze) (h : Nat → Nat) (u : Nat)
    (acc : (Nat → Nat) × (Nat → Option Nat) × List (Nat × Nat)) (d : Int) :
    (Nat → Nat) × (Nat → Option Nat) × List (Nat × Nat) :=
  match moveTo mz u d with
  | some v =>
    if acc.1 u + 1 < acc.1 v then
      (fun x => if x = v then acc.1 u + 1 else acc.1 x,
       fun x => if x = v then some u else acc.2.1 x,
       (acc.1 u + 1 + h v, v) :: acc.2.2)
    else acc
  | none => acc

def pqStep (mz : Maze) (h : Nat → Nat) (s : PQState) : PQState :=
  if s.done then s
  else
    match pqTop s.pq with
    | none => s
    | some t =>
      if (t.2 : Int) = goalId mz.mazeW mz.mazeH then
        { s with pq := s.pq.erase t, done := true }
      else
        let visited' := if t.2 ∈ s.visited then s.visited else t.2 :: s.visited
        let acc := dirs.foldl (pqRelax mz h t.2) (s.dist, s.parentOf, s.pq.erase t)
        ⟨acc.1, acc.2.1, visited', acc.2.2, false⟩

def pqRun (mz : Maze) (h : Nat → Nat) (fuel : Nat) : PQState :=
  (pqStep mz h)^[fuel] (pqInit h)

def PQState.stopped (s : PQState) : Prop := s.done = true ∨ s.pq = []

/-- Dijkstra's heuristic (`zeroH` in `main`). -/
def zeroH : Nat → Nat := fun _ => 0

/-- The A* Manhattan heuristic `abs(p.x-(W-1)) + abs(p.y-(H-1))`. -/
def manH (W H : Nat) (v : Nat) : Nat :=
  (((v % W : Nat) : Int) - ((W : Int) - 1)).natAbs
    + (((v / W : Nat) : Int) - ((H : Int) - 1)).natAbs

/-- `drawFinalPath`: follow `parentOf` from a cell until the `-1` sentinel
(the loop in the code has no fuel; the invariants below show the chain is
finite, so a sufficiently large `fuel` reproduces it). -/
def followParent (pa : Nat → Option Nat) : Nat → Nat → List Nat
  | v, 0 => [v]
  | v, fuel + 1 =>
    match pa v with
    | none => [v]
    | some w => v :: followParent pa w fuel

/-- The final path as drawn, read from the start towards the goal. -/
def finalPath (pa : Nat → Option Nat) (endCell fuel : Nat) : List Nat :=
  (followParent pa endCell fuel).reverse

/-! #### Generic facts about the parent-chain walk -/

theorem followParent_cons (pa : Nat → Option Nat) (v fuel : Nat) :
    ∃ t, followParent pa v fuel = v :: t := by
  cases fuel with
  | zero => exact ⟨[], rfl⟩
  | succ n =>
    cases hpa : pa v with
    | none => exact ⟨[], by simp only [followParent, hpa]⟩
    | some w => exact ⟨followParent pa w n, by simp only [followParent, hpa]⟩

theorem followParent_chain (pa : Nat → Option Nat) :
    ∀ fuel v, List.Chain' (fun a b => pa a = some b) (followParent pa v fuel) := by
  intro fuel
  induction fuel with
  | zero => intro v; exact List.chain'_singleton v
  | succ n ih =>
    intro v
    cases hpa : pa v with
    | none =>
      simp only [followParent, hpa]
      exact List.chain'_singleton v
    | some w =>
      simp only [followParent, hpa]
      obtain ⟨t, ht⟩ := followParent_cons pa w n
      rw [ht, List.chain'_cons, ← ht]
      exact ⟨hpa, ih w⟩

theorem followParent_mem (pa : Nat → Option Nat) :
    ∀ fuel v x, x ∈ followParent pa v fuel → x = v ∨ ∃ y, pa y = some x := by
  intro fuel
  induction fuel with
  | zero =>
    intro v x hx
    exact Or.inl (List.mem_singleton.mp hx)
  | succ n ih =>
    intro v x hx
    cases hpa : pa v with
    | none =>
      simp only [followParent, hpa, List.mem_singleton] at hx
      exact Or.inl hx
    | some w =>
      simp only [followParent, hpa, List.mem_cons] at hx
      rcases hx with h | h
      · exact Or.inl h
      · rcases ih w x h with h' | h'
        · exact Or.inr ⟨v, by rw [h']; exact hpa⟩
        · exact Or.inr h'

theorem followParent_le {pa : Nat → Option Nat} {meas : Nat → Nat}
    (hdec : ∀ v w, pa v = some w → meas w < meas v) :
    ∀ fuel v x, x ∈ followParent pa v fuel → meas x ≤ meas v := by
  intro fuel
  induction fuel with
  | zero =>
    intro v x hx
    have h := List.mem_singleton.mp hx
    rw [h]
  | succ n ih =>
    intro v x hx
    cases hpa : pa v with
    | none =>
      simp only [followParent, hpa, List.mem_singleton] at hx
      rw [hx]
    | some w =>
      simp only [followParent, hpa, List.mem_cons] at hx
      rcases hx with h | h
      · rw [h]
      · exact Nat.le_of_lt (Nat.lt_of_le_of_lt (ih w x h) (hdec v w hpa))

theorem followParent_nodup {pa : Nat → Option Nat} {meas : Nat → Nat}
    (hdec : ∀ v w, pa v = some w → meas w < meas v) :
    ∀ fuel v, (followParent pa v fuel).Nodup := by
  intro fuel
  induction fuel with
  | zero => intro v; exact List.nodup_singleton v
  | succ n ih =>
    intro v
    cases hpa : pa v with
    | none =>
      simp only [followParent, hpa]
      exact List.nodup_singleton v
    | some w =>
      simp only [followParent, hpa]
      refine List.Nodup.cons ?_ (ih w)
      intro hmem
      have h1 := followParent_le hdec n w v hmem
      have h2 := hdec v w hpa
      omega

theorem followParent_last {pa : Nat → Option Nat} {meas : Nat → Nat}
    (hdec : ∀ v w, pa v = some w → meas w < meas v) :
    ∀ fuel v, meas v < fuel →
      ∃ r, (followParent pa v fuel).getLast? = some r ∧ pa r = none := by
  intro fuel
  induction fuel with
  | zero =>
    intro v h
    exact absurd h (Nat.not_lt_zero _)
  | succ n ih =>
    intro v hv
    cases hpa : pa v with
    | none =>
      refine ⟨v, ?_, hpa⟩
      simp only [followParent, hpa]
      rfl
    | some w =>
      obtain ⟨r, hr, hnone⟩ :=
        ih w (Nat.lt_of_lt_of_le (hdec v w hpa) (Nat.lt_succ_iff.mp hv))
      refine ⟨r, ?_, hnone⟩
      simp only [followParent, hpa]
      obtain ⟨t, ht⟩ := followParent_cons pa w n
      rw [ht, List.getLast?_cons_cons, ← ht]
      exact hr

theorem followParent_head (pa : Nat → Option Nat) (v fuel : Nat) :
    (followParent pa v fuel).head? = some v := by
  obtain ⟨t, ht⟩ := followParent_cons pa v fuel
  rw [ht]
  rfl

/-! #### A hand-rolled index function for the visited-order measure -/

def idxOf : List Nat → Nat → Nat
  | [], _ => 0
  | a :: t, v => if a = v then 0 else idxOf t v + 1

theorem idxOf_append_self {v : Nat} :
    ∀ l2 : List Nat, v ∉ l2 → ∀ rest, idxOf (l2 ++ v :: rest) v = l2.length := by
  intro l2
  induction l2 with
  | nil =>
    intro _ rest
    simp [idxOf]
  | cons a t ih =>
    intro hv rest
    have hav : ¬ a = v := fun h => hv (h ▸ List.mem_cons_self a t)
    simp only [List.cons_append, idxOf, if_neg hav, List.length_cons]
    exact congrArg (fun n => n + 1) (ih (fun h => hv (List.mem_cons_of_mem a h)) rest)

theorem idxOf_append_lt {w : Nat} :
    ∀ l2 : List Nat, w ∈ l2 → ∀ rest, idxOf (l2 ++ rest) w < l2.length := by
  intro l2
  induction l2 with
  | nil =>
    intro h
    exact absurd h (List.not_mem_nil w)
  | cons a t ih =>
    intro hw rest
    by_cases haw : a = w
    · simp only [List.cons_append, idxOf, if_pos haw, List.length_cons]
      exact Nat.succ_pos _
    · simp only [List.cons_append, idxOf, if_neg haw, List.length_cons]
      have hw' : w ∈ t := by
        rcases List.mem_cons.mp hw with h | h
        · exact absurd h.symm haw
        · exact h
      exact Nat.succ_lt_succ (ih hw' rest)

/-! #### Shared parent-array invariant -/

/-- The parent pointers form a forest: the start is a root, every parent
edge is a `canMove` adjacency, and every child was visited strictly after
its parent (so chains are finite and repetition-free). -/
def ParentInv (mz : Maze) (pa : Nat → Option Nat) (visited : List Nat) : Prop :=
  pa 0 = none ∧
  (∀ v w, pa v = some w → isAdj mz w v = true ∧
    ∃ l1 l2, visited = l1 ++ v :: l2 ∧ w ∈ l2) ∧
  (∀ v ∈ visited, v ≠ 0 → pa v ≠ none)

theorem parentInv_dec {mz : Maze} {pa : Nat → Option Nat} {visited : List Nat}
    (hnd : visited.Nodup) (hinv : ParentInv mz pa visited) :
    ∀ v w, pa v = some w → idxOf visited.reverse w < idxOf visited.reverse v := by
  intro v w hpw
  obtain ⟨l1, l2, hv, hw⟩ := (hinv.2.1 v w hpw).2
  have hrev : visited.reverse = l2.reverse ++ v :: l1.reverse := by
    rw [hv]
    simp [List.reverse_append]
  have hvnotin : v ∉ l2.reverse := by
    rw [List.mem_reverse]
    rw [hv] at hnd
    have h2 := (List.nodup_append.mp hnd).2.1
    exact (List.nodup_cons.mp h2).1
  rw [hrev, idxOf_append_self l2.reverse hvnotin l1.reverse]
  exact idxOf_append_lt l2.reverse (List.mem_reverse.mpr hw) _

/-! #### Bridging movement and graph adjacency -/

theorem moveTo_isAdj {mz : Maze} {u : Nat} {d : Int} {v : Nat}
    (hd : d ∈ dirs) (h : moveTo mz u d = some v) : isAdj mz u v = true := by
  unfold isAdj
  rw [List.any_eq_true]
  refine ⟨d, hd, ?_⟩
  rw [h]
  exact beq_self_eq_true _

theorem isAdj_exists_dir {mz : Maze} {u v : Nat} (h : isAdj mz u v = true) :
    ∃ d ∈ dirs, moveTo mz u d = some v := by
  unfold isAdj at h
  rw [List.any_eq_true] at h
  obtain ⟨d, hd, hbeq⟩ := h
  exact ⟨d, hd, eq_of_beq hbeq⟩

theorem moveTo_lt {mz : Maze} {u : Nat} {d : Int} {v : Nat}
    (h : moveTo mz u d = some v) : v < mz.mazeW * mz.mazeH := by
  simp only [moveTo, cellId] at h
  split at h
  next => exact absurd h (by simp)
  next hc =>
    split at h
    next hm =>
      have hX := Option.some.inj h
      push_neg at hc
      obtain ⟨h1, h2, h3, h4⟩ := hc
      obtain ⟨p, hp⟩ := Int.eq_ofNat_of_zero_le h1
      obtain ⟨q, hq⟩ := Int.eq_ofNat_of_zero_le h3
      rw [hp] at h2
      rw [hq] at h4
      have hpW : p < mz.mazeW := by exact_mod_cast h2
      have hqH : q < mz.mazeH := by exact_mod_cast h4
      rw [← hX, hp, hq]
      have hcast : ((q : Int)) * (mz.mazeW : Int) + (p : Int)
          = ((q * mz.mazeW + p : Nat) : Int) := by
        push_cast
        ring
      rw [hcast, Int.toNat_natCast]
      exact encode_lt hpW hqH
    next => exact absurd h (by simp)

/-- Reachability propagates through any `moveTo`-closed set. -/
theorem closed_reach {mz : Maze} {S : Nat → Prop}
    (hclosed : ∀ u, u < mz.mazeW * mz.mazeH → S u →
      ∀ d ∈ dirs, ∀ v, moveTo mz u d = some v → S v)
    {a b : Fin (mz.mazeW * mz.mazeH)} (hreach : (mazeGraph mz).Reachable a b)
    (ha : S (a : Nat)) : S (b : Nat) := by
  suffices hgen : ∀ (x y : Fin (mz.mazeW * mz.mazeH)) (w : (mazeGraph mz).Walk x y),
      S (x : Nat) → S (y : Nat) by
    obtain ⟨w⟩ := hreach
    exact hgen a b w ha
  intro x y w
  induction w with
  | nil => exact id
  | cons hadj p ih =>
    intro hx
    obtain ⟨d, hd, hm⟩ := isAdj_exists_dir hadj
    exact ih (hclosed _ (Fin.isLt _) hx d hd _ hm)

/-! #### Termination by measure -/

theorem iterate_fixed_of_stopped {α : Type} {f : α → α} {stopped : α → Prop}
    (hstop : ∀ s, stopped s → f s = s) :
    ∀ (k : Nat) (s), stopped s → stopped (f^[k] s) := by
  intro k
  induction k with
  | zero => intro s h; exact h
  | succ n ih =>
    intro s h
    rw [Function.iterate_succ_apply, hstop s h]
    exact ih s h

theorem stopped_of_measure {α : Type} {f : α → α} {P stopped : α → Prop} {meas : α → Nat}
    (hstop : ∀ s, stopped s → f s = s)
    (hpres : ∀ s, P s → P (f s))
    (hdec : ∀ s, P s → ¬ stopped s → stopped (f s) ∨ meas (f s) < meas s) :
    ∀ (k : Nat) (s), P s → meas s < k → stopped (f^[k] s) := by
  intro k
  induction k with
  | zero =>
    intro s _ h
    exact absurd h (Nat.not_lt_zero _)
  | succ n ih =>
    intro s hP hm
    by_cases hs : stopped s
    · exact iterate_fixed_of_stopped hstop (n + 1) s hs
    · rw [Function.iterate_succ_apply]
      rcases hdec s hP hs with h | h
      · exact iterate_fixed_of_stopped hstop n (f s) h
      · exact ih (f s) (hpres s hP) (Nat.lt_of_lt_of_le h (Nat.lt_succ_iff.mp hm))

theorem pqTop_mem : ∀ {l : List (Nat × Nat)} {t}, pqTop l = some t → t ∈ l := by
  have hfold : ∀ (ps : List (Nat × Nat)) (p : Nat × Nat),
      ps.foldl (fun m q => if pairLt q m then q else m) p ∈ p :: ps := by
    intro ps
    induction ps with
    | nil => intro p; exact List.mem_singleton.mpr rfl
    | cons q t ih =>
      intro p
      rw [List.foldl_cons]
      by_cases hpq : pairLt q p = true
      · rw [if_pos hpq]
        rcases List.mem_cons.mp (ih q) with h | h
        · rw [h]
          exact List.mem_cons_of_mem _ (List.mem_cons_self q t)
        · exact List.mem_cons_of_mem _ (List.mem_cons_of_mem q h)
      · rw [if_neg hpq]
        rcases List.mem_cons.mp (ih p) with h | h
        · rw [h]
          exact List.mem_cons_self _ _
        · exact List.mem_cons_of_mem _ (List.mem_cons_of_mem q h)
  intro l t h
  cases l with
  | nil => exact absurd h (by simp [pqTop])
  | cons p ps =>
    simp only [pqTop, Option.some_inj] at h
    rw [← h]
    exact hfold ps p

theorem pqTop_none : ∀ {l : List (Nat × Nat)}, pqTop l = none → l = [] := by
  intro l h
  cases l with
  | nil => rfl
  | cons p ps => exact absurd h (by simp [pqTop])

/-! #### Step-case characterizations -/

theorem dfsStep_stopped {mz : Maze} {s : DFSState} (h : s.stopped) : dfsStep mz s = s := by
  rcases h with h | h
  · simp only [dfsStep, h, reduceIte]
  · cases hdone : s.done with
    | true => simp only [dfsStep, hdone, reduceIte]
    | false => simp only [dfsStep, hdone, h, Bool.false_eq_true, if_false]

theorem bfsStep_stopped {mz : Maze} {s : BFSState} (h : s.stopped) : bfsStep mz s = s := by
  rcases h with h | h
  · simp only [bfsStep, h, reduceIte]
  · cases hdone : s.done with
    | true => simp only [bfsStep, hdone, reduceIte]
    | false => simp only [bfsStep, hdone, h, Bool.false_eq_true, if_false]

theorem pqStep_stopped {mz : Maze} {h : Nat → Nat} {s : PQState} (hs : s.stopped) :
    pqStep mz h s = s := by
  rcases hs with hs | hs
  · simp only [pqStep, hs, reduceIte]
  · cases hdone : s.done with
    | true => simp only [pqStep, hdone, reduceIte]
    | false => simp only [pqStep, hdone, hs, pqTop, Bool.false_eq_true, if_false]

theorem dfsStep_cases (mz : Maze) (s : DFSState) :
    (s.stopped ∧ dfsStep mz s = s) ∨
    (∃ u rest, s.done = false ∧ s.stk = u :: rest ∧
      (((u : Int) = goalId mz.mazeW mz.mazeH ∧
          dfsStep mz s = ⟨s.parentOf, s.visited, u :: rest, true⟩) ∨
       (¬ (u : Int) = goalId mz.mazeW mz.mazeH ∧
        ((∃ v, dfsPick mz s.visited u = some v ∧
            dfsStep mz s = ⟨fun x => if x = v then some u else s.parentOf x,
              v :: s.visited, v :: u :: rest, false⟩) ∨
         (dfsPick mz s.visited u = none ∧
            dfsStep mz s = ⟨s.parentOf, s.visited, rest, false⟩))))) := by
  cases hdone : s.done with
  | true => exact Or.inl ⟨Or.inl hdone, dfsStep_stopped (Or.inl hdone)⟩
  | false =>
    cases hstk : s.stk with
    | nil => exact Or.inl ⟨Or.inr hstk, dfsStep_stopped (Or.inr hstk)⟩
    | cons u rest =>
      refine Or.inr ⟨u, rest, rfl, rfl, ?_⟩
      by_cases hg : (u : Int) = goalId mz.mazeW mz.mazeH
      · refine Or.inl ⟨hg, ?_⟩
        simp only [dfsStep, hdone, hstk, Bool.false_eq_true, if_false, if_pos hg]
      · refine Or.inr ⟨hg, ?_⟩
        cases hpick : dfsPick mz s.visited u with
        | some v =>
          refine Or.inl ⟨v, rfl, ?_⟩
          simp only [dfsStep, hdone, hstk, Bool.false_eq_true, if_false, if_neg hg, hpick]
        | none =>
          refine Or.inr ⟨rfl, ?_⟩
          simp only [dfsStep, hdone, hstk, Bool.false_eq_true, if_false, if_neg hg, hpick]

theorem bfsStep_cases (mz : Maze) (s : BFSState) :
    (s.stopped ∧ bfsStep mz s = s) ∨
    (∃ u rest, s.done = false ∧ s.que = u :: rest ∧
      (((u : Int) = goalId mz.mazeW mz.mazeH ∧
          bfsStep mz s = ⟨s.parentOf, s.visited, rest, true⟩) ∨
       (¬ (u : Int) = goalId mz.mazeW mz.mazeH ∧
          bfsStep mz s =
            ⟨(dirs.foldl (bfsExpand mz u) (s.parentOf, s.visited, rest)).1,
             (dirs.foldl (bfsExpand mz u) (s.parentOf, s.visited, rest)).2.1,
             (dirs.foldl (bfsExpand mz u) (s.parentOf, s.visited, rest)).2.2, false⟩))) := by
  cases hdone : s.done with
  | true => exact Or.inl ⟨Or.inl hdone, bfsStep_stopped (Or.inl hdone)⟩
  | false =>
    cases hq : s.que with
    | nil => exact Or.inl ⟨Or.inr hq, bfsStep_stopped (Or.inr hq)⟩
    | cons u rest =>
      refine Or.inr ⟨u, rest, rfl, rfl, ?_⟩
      by_cases hg : (u : Int) = goalId mz.mazeW mz.mazeH
      · refine Or.inl ⟨hg, ?_⟩
        simp only [bfsStep, hdone, hq, Bool.false_eq_true, if_false, if_pos hg]
      · refine Or.inr ⟨hg, ?_⟩
        simp only [bfsStep, hdone, hq, Bool.false_eq_true, if_false, if_neg hg]

theorem pqStep_cases (mz : Maze) (h : Nat → Nat) (s : PQState) :
    (s.stopped ∧ pqStep mz h s = s) ∨
    (∃ t, s.done = false ∧ pqTop s.pq = some t ∧
      (((t.2 : Int) = goalId mz.mazeW mz.mazeH ∧
          pqStep mz h s = ⟨s.dist, s.parentOf, s.visited, s.pq.erase t, true⟩) ∨
       (¬ (t.2 : Int) = goalId mz.mazeW mz.mazeH ∧
          pqStep mz h s =
            ⟨(dirs.foldl (pqRelax mz h t.2) (s.dist, s.parentOf, s.pq.erase t)).1,
             (dirs.foldl (pqRelax mz h t.2) (s.dist, s.parentOf, s.pq.erase t)).2.1,
             (if t.2 ∈ s.visited then s.visited else t.2 :: s.visited),
             (dirs.foldl (pqRelax mz h t.2) (s.dist, s.parentOf, s.pq.erase t)).2.2,
             false⟩))) := by
  cases hdone : s.done with
  | true => exact Or.inl ⟨Or.inl hdone, pqStep_stopped (Or.inl hdone)⟩
  | false =>
    cases htop : pqTop s.pq with
    | none => exact Or.inl ⟨Or.inr (pqTop_none htop), pqStep_stopped (Or.inr (pqTop_none htop))⟩
    | some t =>
      refine Or.inr ⟨t, rfl, rfl, ?_⟩
      by_cases hg : (t.2 : Int) = goalId mz.mazeW mz.mazeH
      · refine Or.inl ⟨hg, ?_⟩
        simp only [pqStep, hdone, htop, Bool.false_eq_true, if_false, if_pos hg]
      · refine Or.inr ⟨hg, ?_⟩
        simp only [pqStep, hdone, htop, Bool.false_eq_true, if_false, if_neg hg]

/-! #### The frontier scans -/

theorem dfsPick_some {mz : Maze} {visited : List Nat} {u v : Nat}
    (h : dfsPick mz visited u = some v) :
    (∃ d ∈ dirs, moveTo mz u d = some v) ∧ v ∉ visited := by
  unfold dfsPick at h
  obtain ⟨d, hd, hf⟩ := List.exists_of_findSome?_eq_some h
  cases hmv : moveTo mz u d with
  | none =>
    simp only [hmv] at hf
    exact absurd hf (by simp)
  | some w =>
    simp only [hmv] at hf
    by_cases hw : w ∈ visited
    · rw [if_pos hw] at hf
      exact absurd hf (by simp)
    · rw [if_neg hw] at hf
      have hwv : w = v := Option.some.inj hf
      subst hwv
      exact ⟨⟨d, hd, hmv⟩, hw⟩

theorem dfsPick_none {mz : Maze} {visited : List Nat} {u : Nat}
    (h : dfsPick mz visited u = none) :
    ∀ d ∈ dirs, ∀ w, moveTo mz u d = some w → w ∈ visited := by
  unfold dfsPick at h
  intro d hd w hmv
  have hf := List.findSome?_eq_none_iff.mp h d hd
  simp only [hmv] at hf
  by_cases hw : w ∈ visited
  · exact hw
  · rw [if_neg hw] at hf
    exact absurd hf (by simp)

/-! #### Termination measures -/

theorem nodup_bounded_length {N : Nat} {l : List Nat} (hnd : l.Nodup)
    (hb : ∀ v ∈ l, v = 0 ∨ v < N) : l.length ≤ N + 1 := by
  have hsub : l.toFinset ⊆ insert 0 (Finset.range N) := by
    intro x hx
    rw [List.mem_toFinset] at hx
    rcases hb x hx with h | h
    · rw [h]
      exact Finset.mem_insert_self _ _
    · exact Finset.mem_insert_of_mem (Finset.mem_range.mpr h)
  calc l.length = l.toFinset.card := (List.toFinset_card_of_nodup hnd).symm
  _ ≤ (insert 0 (Finset.range N)).card := Finset.card_le_card hsub
  _ ≤ (Finset.range N).card + 1 := Finset.card_insert_le _ _
  _ = N + 1 := by rw [Finset.card_range]

def dfsLight (mz : Maze) (s : DFSState) : Prop :=
  s.visited.Nodup ∧ ∀ v ∈ s.visited, v = 0 ∨ v < mz.mazeW * mz.mazeH

def bfsLight (mz : Maze) (s : BFSState) : Prop :=
  s.visited.Nodup ∧ ∀ v ∈ s.visited, v = 0 ∨ v < mz.mazeW * mz.mazeH

def measDFS (mz : Maze) (s : DFSState) : Nat :=
  2 * (mz.mazeW * mz.mazeH + 1 - s.visited.length) + s.stk.length

def measBFS (mz : Maze) (s : BFSState) : Nat :=
  2 * (mz.mazeW * mz.mazeH + 1 - s.visited.length) + s.que.length

def measPQ (mz : Maze) (s : PQState) : Nat :=
  (∑ v ∈ Finset.range (mz.mazeW * mz.mazeH), s.dist v) + s.pq.length

def lightAcc (mz : Maze) (acc : (Nat → Option Nat) × List Nat × List Nat) : Prop :=
  acc.2.1.Nodup ∧ ∀ v ∈ acc.2.1, v = 0 ∨ v < mz.mazeW * mz.mazeH

def measAcc (mz : Maze) (acc : (Nat → Option Nat) × List Nat × List Nat) : Nat :=
  2 * (mz.mazeW * mz.mazeH + 1 - acc.2.1.length) + acc.2.2.length

def measPQAcc (mz : Maze) (acc : (Nat → Nat) × (Nat → Option Nat) × List (Nat × Nat)) : Nat :=
  (∑ v ∈ Finset.range (mz.mazeW * mz.mazeH), acc.1 v) + acc.2.2.length

theorem sum_update_lt {N v a : Nat} {f : Nat → Nat} (hv : v < N) (ha : a < f v) :
    (∑ x ∈ Finset.range N, if x = v then a else f x) < ∑ x ∈ Finset.range N, f x := by
  have hvmem : v ∈ Finset.range N := Finset.mem_range.mpr hv
  rw [Finset.sum_eq_sum_diff_singleton_add hvmem (fun x => if x = v then a else f x),
    Finset.sum_eq_sum_diff_singleton_add hvmem f]
  have hcongr : (∑ x ∈ Finset.range N \ {v}, if x = v then a else f x)
      = ∑ x ∈ Finset.range N \ {v}, f x := by
    apply Finset.sum_congr rfl
    intro x hx
    exact if_neg (Finset.not_mem_singleton.mp (Finset.mem_sdiff.mp hx).2)
  rw [hcongr, if_pos rfl]
  exact Nat.add_lt_add_left ha _

theorem dfsStep_term {mz : Maze} {s : DFSState} (hl : dfsLight mz s) :
    dfsLight mz (dfsStep mz s) ∧
    (¬ s.stopped → (dfsStep mz s).stopped ∨ measDFS mz (dfsStep mz s) < measDFS mz s) := by
  rcases dfsStep_cases mz s with ⟨hstop, heq⟩ | ⟨u, rest, hdone, hstk, hcase⟩
  · rw [heq]
    exact ⟨hl, fun hn => absurd hstop hn⟩
  · rcases hcase with ⟨hg, heq⟩ | ⟨hg, hcase⟩
    · rw [heq]
      exact ⟨⟨hl.1, hl.2⟩, fun _ => Or.inl (Or.inl rfl)⟩
    · rcases hcase with ⟨v, hpick, heq⟩ | ⟨hpick, heq⟩
      · obtain ⟨⟨d, hd, hmv⟩, hvnot⟩ := dfsPick_some hpick
        have hvN := moveTo_lt hmv
        have hnd' : (v :: s.visited).Nodup := List.Nodup.cons hvnot hl.1
        have hb' : ∀ x ∈ v :: s.visited, x = 0 ∨ x < mz.mazeW * mz.mazeH := by
          intro x hx
          rcases List.mem_cons.mp hx with hx | hx
          · exact Or.inr (hx ▸ hvN)
          · exact hl.2 x hx
        have hbound := nodup_bounded_length hnd' hb'
        rw [List.length_cons] at hbound
        rw [heq]
        refine ⟨⟨hnd', hb'⟩, fun _ => Or.inr ?_⟩
        simp only [measDFS, hstk, List.length_cons]
        omega
      · rw [heq]
        refine ⟨⟨hl.1, hl.2⟩, fun _ => Or.inr ?_⟩
        simp only [measDFS, hstk, List.length_cons]
        omega

theorem bfsExpand_term (mz : Maze) (u : Nat) (d : Int)
    (acc : (Nat → Option Nat) × List Nat × List Nat) (hl : lightAcc mz acc) :
    lightAcc mz (bfsExpand mz u acc d) ∧
    measAcc mz (bfsExpand mz u acc d) ≤ measAcc mz acc := by
  cases hmv : moveTo mz u d with
  | none =>
    simp only [bfsExpand, hmv]
    exact ⟨hl, Nat.le_refl _⟩
  | some v =>
    simp only [bfsExpand, hmv]
    by_cases hv : v ∈ acc.2.1
    · rw [if_pos hv]
      exact ⟨hl, Nat.le_refl _⟩
    · rw [if_neg hv]
      have hvN := moveTo_lt hmv
      have hnd' : (v :: acc.2.1).Nodup := List.Nodup.cons hv hl.1
      have hb' : ∀ x ∈ v :: acc.2.1, x = 0 ∨ x < mz.mazeW * mz.mazeH := by
        intro x hx
        rcases List.mem_cons.mp hx with hx | hx
        · exact Or.inr (hx ▸ hvN)
        · exact hl.2 x hx
      have hbound := nodup_bounded_length hnd' hb'
      rw [List.length_cons] at hbound
      refine ⟨⟨hnd', hb'⟩, ?_⟩
      simp only [measAcc, List.length_cons, List.length_append, List.length_singleton,
        List.length_nil]
      omega

theorem bfsExpand_fold_term (mz : Maze) (u : Nat) :
    ∀ (ds : List Int) (acc), lightAcc mz acc →
      lightAcc mz (ds.foldl (bfsExpand mz u) acc) ∧
      measAcc mz (ds.foldl (bfsExpand mz u) acc) ≤ measAcc mz acc := by
  intro ds
  induction ds with
  | nil =>
    intro acc hl
    exact ⟨hl, Nat.le_refl _⟩
  | cons d t ih =>
    intro acc hl
    rw [List.foldl_cons]
    obtain ⟨hl1, hm1⟩ := bfsExpand_term mz u d acc hl
    obtain ⟨hl2, hm2⟩ := ih _ hl1
    exact ⟨hl2, Nat.le_trans hm2 hm1⟩

theorem bfsStep_term {mz : Maze} {s : BFSState} (hl : bfsLight mz s) :
    bfsLight mz (bfsStep mz s) ∧
    (¬ s.stopped → (bfsStep mz s).stopped ∨ measBFS mz (bfsStep mz s) < measBFS mz s) := by
  rcases bfsStep_cases mz s with ⟨hstop, heq⟩ | ⟨u, rest, hdone, hq, hcase⟩
  · rw [heq]
    exact ⟨hl, fun hn => absurd hstop hn⟩
  · rcases hcase with ⟨hg, heq⟩ | ⟨hg, heq⟩
    · rw [heq]
      refine ⟨⟨hl.1, hl.2⟩, fun _ => Or.inr ?_⟩
      simp only [measBFS, hq, List.length_cons]
      omega
    · obtain ⟨hl2, hm2⟩ :=
        bfsExpand_fold_term mz u dirs (s.parentOf, s.visited, rest) ⟨hl.1, hl.2⟩
      rw [heq]
      refine ⟨⟨hl2.1, hl2.2⟩, fun _ => Or.inr ?_⟩
      show measAcc mz (dirs.foldl (bfsExpand mz u) (s.parentOf, s.visited, rest))
        < measBFS mz s
      refine Nat.lt_of_le_of_lt hm2 ?_
      simp only [measAcc, measBFS, hq, List.length_cons]
      omega

theorem pqRelax_meas (mz : Maze) (h : Nat → Nat) (u : Nat) (d : Int)
    (acc : (Nat → Nat) × (Nat → Option Nat) × List (Nat × Nat)) :
    measPQAcc mz (pqRelax mz h u acc d) ≤ measPQAcc mz acc := by
  cases hmv : moveTo mz u d with
  | none =>
    simp only [pqRelax, hmv]
    exact Nat.le_refl _
  | some v =>
    simp only [pqRelax, hmv]
    by_cases hlt : acc.1 u + 1 < acc.1 v
    · rw [if_pos hlt]
      have hvN := moveTo_lt hmv
      have hsum := sum_update_lt hvN hlt
      show (∑ x ∈ Finset.range (mz.mazeW * mz.mazeH), if x = v then acc.1 u + 1 else acc.1 x)
          + ((acc.1 u + 1 + h v, v) :: acc.2.2).length
        ≤ (∑ x ∈ Finset.range (mz.mazeW * mz.mazeH), acc.1 x) + acc.2.2.length
      rw [List.length_cons]
      omega
    · rw [if_neg hlt]

theorem pqRelax_fold_meas (mz : Maze) (h : Nat → Nat) (u : Nat) :
    ∀ (ds : List Int) (acc),
      measPQAcc mz (ds.foldl (pqRelax mz h u) acc) ≤ measPQAcc mz acc := by
  intro ds
  induction ds with
  | nil =>
    intro acc
    exact Nat.le_refl _
  | cons d t ih =>
    intro acc
    rw [List.foldl_cons]
    exact Nat.le_trans (ih _) (pqRelax_meas mz h u d acc)

theorem pqStep_term (mz : Maze) (h : Nat → Nat) (s : PQState) :
    ¬ s.stopped → (pqStep mz h s).stopped ∨ measPQ mz (pqStep mz h s) < measPQ mz s := by
  intro hns
  rcases pqStep_cases mz h s with ⟨hstop, _⟩ | ⟨t, hdone, htop, hcase⟩
  · exact absurd hstop hns
  · have htmem := pqTop_mem htop
    have hlen := List.length_erase_of_mem htmem
    have hpos := List.length_pos_of_mem htmem
    rcases hcase with ⟨hg, heq⟩ | ⟨hg, heq⟩
    · rw [heq]
      refine Or.inr ?_
      simp only [measPQ]
      omega
    · rw [heq]
      refine Or.inr ?_
      show measPQAcc mz (dirs.foldl (pqRelax mz h t.2) (s.dist, s.parentOf, s.pq.erase t))
        < measPQ mz s
      refine Nat.lt_of_le_of_lt (pqRelax_fold_meas mz h t.2 dirs _) ?_
      simp only [measPQAcc, measPQ]
      omega

/-! ### C9: the search loops terminate -/

theorem dfs_reaches_stopped (mz : Maze) :
    ∀ k, measDFS mz dfsInit < k → (dfsRun mz k).stopped := by
  intro k hk
  unfold dfsRun
  exact @stopped_of_measure DFSState (dfsStep mz) (dfsLight mz) DFSState.stopped (measDFS mz)
    (fun s hs => dfsStep_stopped hs) (fun s hs => (dfsStep_term hs).1)
    (fun s hs hn => (dfsStep_term hs).2 hn) k dfsInit
    ⟨List.nodup_singleton 0, fun v hv => Or.inl (List.mem_singleton.mp hv)⟩ hk

theorem bfs_reaches_stopped (mz : Maze) :
    ∀ k, measBFS mz bfsInit < k → (bfsRun mz k).stopped := by
  intro k hk
  unfold bfsRun
  exact @stopped_of_measure BFSState (bfsStep mz) (bfsLight mz) BFSState.stopped (measBFS mz)
    (fun s hs => bfsStep_stopped hs) (fun s hs => (bfsStep_term hs).1)
    (fun s hs hn => (bfsStep_term hs).2 hn) k bfsInit
    ⟨List.nodup_singleton 0, fun v hv => Or.inl (List.mem_singleton.mp hv)⟩ hk

theorem pq_reaches_stopped (mz : Maze) (h : Nat → Nat) :
    ∀ k, measPQ mz (pqInit h) < k → (pqRun mz h k).stopped := by
  intro k hk
  unfold pqRun
  exact @stopped_of_measure PQState (pqStep mz h) (fun _ => True) PQState.stopped (measPQ mz)
    (fun s hs => pqStep_stopped hs) (fun s _ => trivial)
    (fun s _ hn => pqStep_term mz h s hn) k (pqInit h) trivial hk

/-- C9: on every finite grid maze each search loop terminates after finitely
many iterations, either by taking the goal from its frontier (`done`) or by
exhausting the frontier. -/
theorem searches_terminate (mz : Maze) :
    (∃ k, (dfsRun mz k).stopped) ∧ (∃ k, (bfsRun mz k).stopped) ∧
    (∃ k, (pqRun mz zeroH k).stopped) ∧
    (∃ k, (pqRun mz (manH mz.mazeW mz.mazeH) k).stopped) :=
  ⟨⟨measDFS mz dfsInit + 1, dfs_reaches_stopped mz _ (Nat.lt_succ_self _)⟩,
   ⟨measBFS mz bfsInit + 1, bfs_reaches_stopped mz _ (Nat.lt_succ_self _)⟩,
   ⟨measPQ mz (pqInit zeroH) + 1, pq_reaches_stopped mz zeroH _ (Nat.lt_succ_self _)⟩,
   ⟨measPQ mz (pqInit (manH mz.mazeW mz.mazeH)) + 1,
     pq_reaches_stopped mz (manH mz.mazeW mz.mazeH) _ (Nat.lt_succ_self _)⟩⟩

/-! #### The goal cell -/

theorem goalId_eq_cast {W H : Nat} (hW : 0 < W) (hH : 0 < H) :
    goalId W H = ((goalCell W H : Nat) : Int) := by
  unfold goalId goalCell cellId
  have hH1 : (H : Int) - 1 = ((H - 1 : Nat) : Int) := by omega
  have hW1 : (W : Int) - 1 = ((W - 1 : Nat) : Int) := by omega
  rw [hH1, hW1]
  push_cast
  ring

theorem goalId_eq {W H : Nat} (hW : 0 < W) (hH : 0 < H) (u : Nat) :
    ((u : Int) = goalId W H ↔ u = goalCell W H) := by
  rw [goalId_eq_cast hW hH]
  exact Int.natCast_inj

theorem goalCell_lt {W H : Nat} (hW : 0 < W) (hH : 0 < H) :
    goalCell W H < W * H :=
  encode_lt (by omega) (by omega)

theorem idxOf_lt_of_mem {w : Nat} {l : List Nat} (h : w ∈ l) : idxOf l w < l.length := by
  have h2 := idxOf_append_lt l h []
  rwa [List.append_nil] at h2

/-! #### Extending and reading back a parent forest -/

theorem parentInv_extend {mz : Maze} {pa : Nat → Option Nat} {visited : List Nat}
    (hpinv : ParentInv mz pa visited) (h0 : 0 ∈ visited)
    {u v : Nat} (hu : u ∈ visited) (hv : v ∉ visited)
    (hadj : isAdj mz u v = true) :
    ParentInv mz (fun x => if x = v then some u else pa x) (v :: visited) := by
  obtain ⟨hp0, hpar, hnn⟩ := hpinv
  refine ⟨?_, ?_, ?_⟩
  · have h0v : ¬ (0 : Nat) = v := fun h => hv (h ▸ h0)
    simp only [if_neg h0v]
    exact hp0
  · intro x w hxw
    by_cases hxv : x = v
    · subst hxv
      simp only [if_pos rfl] at hxw
      have hw : w = u := (Option.some.inj hxw).symm
      subst hw
      exact ⟨hadj, [], visited, rfl, hu⟩
    · simp only [if_neg hxv] at hxw
      obtain ⟨hadj', l1, l2, hsp, hw⟩ := hpar x w hxw
      exact ⟨hadj', v :: l1, l2, by rw [hsp, List.cons_append], hw⟩
  · intro x hx hx0
    rcases List.mem_cons.mp hx with hxv | hxv
    · subst hxv
      simp only [if_pos rfl]
      exact fun h => Option.noConfusion h
    · have hxv' : ¬ x = v := fun h => hv (h ▸ hxv)
      simp only [if_neg hxv']
      exact hnn x hxv hx0

theorem parentInv_parent_mem {mz : Maze} {pa : Nat → Option Nat} {visited : List Nat}
    (hinv : ParentInv mz pa visited) :
    ∀ y x, pa y = some x → x ∈ visited := by
  intro y x h
  obtain ⟨_, l1, l2, hsp, hx⟩ := hinv.2.1 y x h
  rw [hsp]
  exact List.mem_append.mpr (Or.inr (List.mem_cons_of_mem _ hx))

/-- The path drawn by `drawFinalPath` from any cell whose parent chain is
decreasing and rooted at the start: it runs from `0` to the cell, every
consecutive pair is `canMove`-adjacent, and no cell repeats. -/
theorem parent_path_generic {mz : Maze} {pa : Nat → Option Nat} {meas : Nat → Nat}
    (hadj : ∀ v w, pa v = some w → isAdj mz w v = true)
    (hdec : ∀ v w, pa v = some w → meas w < meas v)
    {g fuel : Nat} (hfuel : meas g < fuel)
    (hroot : ∀ r, pa r = none → (r = g ∨ ∃ y, pa y = some r) → r = 0) :
    (finalPath pa g fuel).head? = some 0 ∧
    (finalPath pa g fuel).getLast? = some g ∧
    List.Chain' (fun a b => isAdj mz a b = true) (finalPath pa g fuel) ∧
    (finalPath pa g fuel).Nodup ∧
    (∀ x ∈ finalPath pa g fuel, x = g ∨ ∃ y, pa y = some x) := by
  obtain ⟨r, hlast, hnone⟩ := followParent_last hdec fuel g hfuel
  have hrmem : r ∈ followParent pa g fuel := List.mem_of_getLast?_eq_some hlast
  have hr0 : r = 0 := hroot r hnone (followParent_mem pa fuel g r hrmem)
  refine ⟨?_, ?_, ?_, ?_, ?_⟩
  · show (followParent pa g fuel).reverse.head? = some 0
    rw [List.head?_reverse, hlast, hr0]
  · show (followParent pa g fuel).reverse.getLast? = some g
    rw [List.getLast?_reverse]
    exact followParent_head pa g fuel
  · show List.Chain' _ (followParent pa g fuel).reverse
    exact List.chain'_reverse.mpr ((followParent_chain pa fuel g).imp (fun a b h => hadj a b h))
  · exact List.nodup_reverse.mpr (followParent_nodup hdec fuel g)
  · intro x hx
    exact followParent_mem pa fuel g x (List.mem_reverse.mp hx)

/-! #### The DFS loop invariant -/

structure DFSInv (mz : Maze) (s : DFSState) : Prop where
  nodup : s.visited.Nodup
  start_mem : 0 ∈ s.visited
  bounds : ∀ v ∈ s.visited, v = 0 ∨ v < mz.mazeW * mz.mazeH
  stk_sub : ∀ v ∈ s.stk, v ∈ s.visited
  par : ParentInv mz s.parentOf s.visited
  closure : s.done = false → ∀ v ∈ s.visited,
    v ∈ s.stk ∨ ∀ d ∈ dirs, ∀ w, moveTo mz v d = some w → w ∈ s.visited
  goal_stk : s.done = false → ∀ g ∈ s.visited,
    (g : Int) = goalId mz.mazeW mz.mazeH → g ∈ s.stk
  goal_done : s.done = true → ∃ g ∈ s.visited, (g : Int) = goalId mz.mazeW mz.mazeH

theorem dfsInv_init (mz : Maze) : DFSInv mz dfsInit :=
  { nodup := List.nodup_singleton 0
    start_mem := List.mem_singleton.mpr rfl
    bounds := fun v hv => Or.inl (List.mem_singleton.mp hv)
    stk_sub := fun v hv => hv
    par := ⟨rfl, fun v w h => Option.noConfusion h, fun v hv hv0 =>
      absurd (List.mem_singleton.mp hv) hv0⟩
    closure := fun _ v hv => Or.inl hv
    goal_stk := fun _ g hg _ => hg
    goal_done := fun h => Bool.noConfusion h }

theorem dfsInv_step {mz : Maze} {s : DFSState} (hinv : DFSInv mz s) :
    DFSInv mz (dfsStep mz s) := by
  rcases dfsStep_cases mz s with ⟨_, heq⟩ | ⟨u, rest, hdone, hstk, hcase⟩
  · rwa [heq]
  · have humem : u ∈ s.visited :=
      hinv.stk_sub u (by rw [hstk]; exact List.mem_cons_self u rest)
    rcases hcase with ⟨hg, heq⟩ | ⟨hg, hcase⟩
    · rw [heq]
      exact
        { nodup := hinv.nodup
          start_mem := hinv.start_mem
          bounds := hinv.bounds
          stk_sub := fun v hv => hinv.stk_sub v (by rw [hstk]; exact hv)
          par := hinv.par
          closure := fun hfalse => absurd hfalse (by simp)
          goal_stk := fun hfalse => absurd hfalse (by simp)
          goal_done := fun _ => ⟨u, humem, hg⟩ }
    · rcases hcase with ⟨v, hpick, heq⟩ | ⟨hpick, heq⟩
      · obtain ⟨⟨d, hd, hmv⟩, hvnot⟩ := dfsPick_some hpick
        have hvN := moveTo_lt hmv
        have hadj := moveTo_isAdj hd hmv
        rw [heq]
        refine
          { nodup := List.Nodup.cons hvnot hinv.nodup
            start_mem := List.mem_cons_of_mem v hinv.start_mem
            bounds := ?_
            stk_sub := ?_
            par := parentInv_extend hinv.par hinv.start_mem humem hvnot hadj
            closure := ?_
            goal_stk := ?_
            goal_done := fun h => absurd h (by simp) }
        · intro x hx
          rcases List.mem_cons.mp hx with hx | hx
          · exact Or.inr (hx ▸ hvN)
          · exact hinv.bounds x hx
        · intro x hx
          rcases List.mem_cons.mp hx with hx | hx
          · rw [hx]
            exact List.mem_cons_self v _
          · exact List.mem_cons_of_mem v (hinv.stk_sub x (by rw [hstk]; exact hx))
        · intro _ x hx
          rcases List.mem_cons.mp hx with hx | hx
          · exact Or.inl (by rw [hx]; exact List.mem_cons_self v _)
          · rcases hinv.closure hdone x hx with hxs | hexp
            · rw [hstk] at hxs
              exact Or.inl (List.mem_cons_of_mem v hxs)
            · exact Or.inr fun d' hd' w hw => List.mem_cons_of_mem v (hexp d' hd' w hw)
        · intro _ x hx hxid
          rcases List.mem_cons.mp hx with hx | hx
          · rw [hx]
            exact List.mem_cons_self v _
          · have hxs := hinv.goal_stk hdone x hx hxid
            rw [hstk] at hxs
            exact List.mem_cons_of_mem v hxs
      · rw [heq]
        refine
          { nodup := hinv.nodup
            start_mem := hinv.start_mem
            bounds := hinv.bounds
            stk_sub := ?_
            par := hinv.par
            closure := ?_
            goal_stk := ?_
            goal_done := fun h => absurd h (by simp) }
        · intro x hx
          exact hinv.stk_sub x (by rw [hstk]; exact List.mem_cons_of_mem u hx)
        · intro _ x hx
          rcases hinv.closure hdone x hx with hxs | hexp
          · rw [hstk] at hxs
            rcases List.mem_cons.mp hxs with hxu | hxr
            · subst hxu
              exact Or.inr (dfsPick_none hpick)
            · exact Or.inl hxr
          · exact Or.inr hexp
        · intro _ x hx hxid
          have hxs := hinv.goal_stk hdone x hx hxid
          rw [hstk] at hxs
          rcases List.mem_cons.mp hxs with hxu | hxr
          · exact absurd (hxu ▸ hxid) hg
          · exact hxr

theorem dfsInv_run (mz : Maze) : ∀ k, DFSInv mz (dfsRun mz k) := by
  intro k
  induction k with
  | zero => exact dfsInv_init mz
  | succ n ih =>
    rw [dfsRun, Function.iterate_succ_apply']
    exact dfsInv_step ih

theorem dfs_done_of_connected {mz : Maze} (hW : 0 < mz.mazeW) (hH : 0 < mz.mazeH)
    (hconn : (mazeGraph mz).Connected) {k : Nat} (hstop : (dfsRun mz k).stopped) :
    (dfsRun mz k).done = true := by
  have hinv := dfsInv_run mz k
  by_cases hdone : (dfsRun mz k).done = true
  · exact hdone
  · have hdf : (dfsRun mz k).done = false := by
      revert hdone
      cases (dfsRun mz k).done <;> simp
    rcases hstop with h | h
    · exact h
    · exfalso
      have hclosed : ∀ u, u < mz.mazeW * mz.mazeH → u ∈ (dfsRun mz k).visited →
          ∀ d ∈ dirs, ∀ w, moveTo mz u d = some w → w ∈ (dfsRun mz k).visited := by
        intro u _ hu d hd w hmv
        rcases hinv.closure hdf u hu with hstk | hexp
        · rw [h] at hstk
          exact absurd hstk (List.not_mem_nil u)
        · exact hexp d hd w hmv
      have hN : 0 < mz.mazeW * mz.mazeH := Nat.mul_pos hW hH
      have hgl : goalCell mz.mazeW mz.mazeH < mz.mazeW * mz.mazeH := goalCell_lt hW hH
      have hreach : (mazeGraph mz).Reachable ⟨0, hN⟩ ⟨goalCell mz.mazeW mz.mazeH, hgl⟩ :=
        hconn.preconnected _ _
      have hgvis : goalCell mz.mazeW mz.mazeH ∈ (dfsRun mz k).visited :=
        @closed_reach mz (fun x => x ∈ (dfsRun mz k).visited) hclosed ⟨0, hN⟩
          ⟨goalCell mz.mazeW mz.mazeH, hgl⟩ hreach hinv.start_mem
      have hgid : ((goalCell mz.mazeW mz.mazeH : Nat) : Int) = goalId mz.mazeW mz.mazeH :=
        (goalId_eq hW hH _).mpr rfl
      have hgstk := hinv.goal_stk hdf _ hgvis hgid
      rw [h] at hgstk
      exact absurd hgstk (List.not_mem_nil _)

theorem dfs_final_path {mz : Maze} (hW : 0 < mz.mazeW) (hH : 0 < mz.mazeH)
    (hconn : (mazeGraph mz).Connected) {k : Nat} (hstop : (dfsRun mz k).stopped) :
    (finalPath (dfsRun mz k).parentOf (goalCell mz.mazeW mz.mazeH)
        (mz.mazeW * mz.mazeH + 1)).head? = some 0 ∧
    (finalPath (dfsRun mz k).parentOf (goalCell mz.mazeW mz.mazeH)
        (mz.mazeW * mz.mazeH + 1)).getLast? = some (goalCell mz.mazeW mz.mazeH) ∧
    List.Chain' (fun a b => isAdj mz a b = true)
      (finalPath (dfsRun mz k).parentOf (goalCell mz.mazeW mz.mazeH)
        (mz.mazeW * mz.mazeH + 1)) ∧
    (finalPath (dfsRun mz k).parentOf (goalCell mz.mazeW mz.mazeH)
        (mz.mazeW * mz.mazeH + 1)).Nodup ∧
    (∀ x ∈ finalPath (dfsRun mz k).parentOf (goalCell mz.mazeW mz.mazeH)
        (mz.mazeW * mz.mazeH + 1), x < mz.mazeW * mz.mazeH) := by
  have hinv := dfsInv_run mz k
  have hdone := dfs_done_of_connected hW hH hconn hstop
  obtain ⟨g0, hg0v, hg0id⟩ := hinv.goal_done hdone
  have hg0 : g0 = goalCell mz.mazeW mz.mazeH := (goalId_eq hW hH g0).mp hg0id
  rw [hg0] at hg0v
  have hdecs := parentInv_dec hinv.nodup hinv.par
  have hlen := nodup_bounded_length hinv.nodup hinv.bounds
  have hmeasg : idxOf (dfsRun mz k).visited.reverse (goalCell mz.mazeW mz.mazeH)
      < mz.mazeW * mz.mazeH + 1 := by
    have h1 := idxOf_lt_of_mem (List.mem_reverse.mpr hg0v)
    rw [List.length_reverse] at h1
    exact Nat.lt_of_lt_of_le h1 hlen
  have hroot : ∀ r, (dfsRun mz k).parentOf r = none →
      (r = goalCell mz.mazeW mz.mazeH ∨ ∃ y, (dfsRun mz k).parentOf y = some r) → r = 0 := by
    intro r hnone hcases
    have hrv : r ∈ (dfsRun mz k).visited := by
      rcases hcases with h | ⟨y, hy⟩
      · rw [h]
        exact hg0v
      · exact parentInv_parent_mem hinv.par y r hy
    by_contra hr0
    exact (hinv.par.2.2 r hrv hr0) hnone
  obtain ⟨h1, h2, h3, h4, h5⟩ :=
    parent_path_generic (fun v w hh => (hinv.par.2.1 v w hh).1) hdecs hmeasg hroot
  refine ⟨h1, h2, h3, h4, ?_⟩
  intro x hx
  have hxvis : x ∈ (dfsRun mz k).visited := by
    rcases h5 x hx with hxg | ⟨y, hy⟩
    · rw [hxg]
      exact hg0v
    · exact parentInv_parent_mem hinv.par y x hy
  rcases hinv.bounds x hxvis with hx0 | hxN
  · rw [hx0]
    exact Nat.mul_pos hW hH
  · exact hxN

/-! #### The BFS loop invariant -/

structure BFSAcc (mz : Maze) (u : Nat)
    (acc : (Nat → Option Nat) × List Nat × List Nat) : Prop where
  nodup : acc.2.1.Nodup
  start_mem : 0 ∈ acc.2.1
  u_mem : u ∈ acc.2.1
  bounds : ∀ v ∈ acc.2.1, v = 0 ∨ v < mz.mazeW * mz.mazeH
  que_sub : ∀ v ∈ acc.2.2, v ∈ acc.2.1
  par : ParentInv mz acc.1 acc.2.1
  goal_que : ∀ g ∈ acc.2.1, (g : Int) = goalId mz.mazeW mz.mazeH → g ∈ acc.2.2

theorem bfsExpand_inv {mz : Maze} {u : Nat} {d : Int} (hd : d ∈ dirs)
    {acc : (Nat → Option Nat) × List Nat × List Nat} (hi : BFSAcc mz u acc) :
    BFSAcc mz u (bfsExpand mz u acc d) := by
  cases hmv : moveTo mz u d with
  | none =>
    simp only [bfsExpand, hmv]
    exact hi
  | some v =>
    simp only [bfsExpand, hmv]
    by_cases hv : v ∈ acc.2.1
    · rw [if_pos hv]
      exact hi
    · rw [if_neg hv]
      have hvN := moveTo_lt hmv
      have hadj := moveTo_isAdj hd hmv
      refine
        { nodup := List.Nodup.cons hv hi.nodup
          start_mem := List.mem_cons_of_mem v hi.start_mem
          u_mem := List.mem_cons_of_mem v hi.u_mem
          bounds := ?_
          que_sub := ?_
          par := parentInv_extend hi.par hi.start_mem hi.u_mem hv hadj
          goal_que := ?_ }
      · intro x hx
        rcases List.mem_cons.mp hx with hx | hx
        · exact Or.inr (hx ▸ hvN)
        · exact hi.bounds x hx
      · intro x hx
        rcases List.mem_append.mp hx with hx | hx
        · exact List.mem_cons_of_mem v (hi.que_sub x hx)
        · rw [List.mem_singleton.mp hx]
          exact List.mem_cons_self v _
      · intro x hx hxid
        rcases List.mem_cons.mp hx with hx | hx
        · rw [hx]
          exact List.mem_append.mpr (Or.inr (List.mem_singleton.mpr rfl))
        · exact List.mem_append.mpr (Or.inl (hi.goal_que x hx hxid))

theorem bfsExpand_fold_inv {mz : Maze} {u : Nat} :
    ∀ ds : List Int, (∀ d ∈ ds, d ∈ dirs) →
      ∀ acc, BFSAcc mz u acc → BFSAcc mz u (ds.foldl (bfsExpand mz u) acc) := by
  intro ds
  induction ds with
  | nil =>
    intro _ acc hi
    exact hi
  | cons d t ih =>
    intro hds acc hi
    rw [List.foldl_cons]
    exact ih (fun d' hd' => hds d' (List.mem_cons_of_mem d hd'))
      _ (bfsExpand_inv (hds d (List.mem_cons_self d t)) hi)

theorem bfsExpand_vis_mono (mz : Maze) (u : Nat) (d : Int)
    (acc : (Nat → Option Nat) × List Nat × List Nat) :
    ∀ x ∈ acc.2.1, x ∈ (bfsExpand mz u acc d).2.1 := by
  intro x hx
  cases hmv : moveTo mz u d with
  | none =>
    simp only [bfsExpand, hmv]
    exact hx
  | some v =>
    simp only [bfsExpand, hmv]
    by_cases hv : v ∈ acc.2.1
    · rw [if_pos hv]
      exact hx
    · rw [if_neg hv]
      exact List.mem_cons_of_mem v hx

theorem bfsExpand_que_mono (mz : Maze) (u : Nat) (d : Int)
    (acc : (Nat → Option Nat) × List Nat × List Nat) :
    ∀ x ∈ acc.2.2, x ∈ (bfsExpand mz u acc d).2.2 := by
  intro x hx
  cases hmv : moveTo mz u d with
  | none =>
    simp only [bfsExpand, hmv]
    exact hx
  | some v =>
    simp only [bfsExpand, hmv]
    by_cases hv : v ∈ acc.2.1
    · rw [if_pos hv]
      exact hx
    · rw [if_neg hv]
      exact List.mem_append.mpr (Or.inl hx)

theorem bfsExpand_fold_vis_mono (mz : Maze) (u : Nat) :
    ∀ (ds : List Int) acc, ∀ x ∈ acc.2.1, x ∈ (ds.foldl (bfsExpand mz u) acc).2.1 := by
  intro ds
  induction ds with
  | nil =>
    intro acc x hx
    exact hx
  | cons d t ih =>
    intro acc x hx
    rw [List.foldl_cons]
    exact ih _ x (bfsExpand_vis_mono mz u d acc x hx)

theorem bfsExpand_fold_que_mono (mz : Maze) (u : Nat) :
    ∀ (ds : List Int) acc, ∀ x ∈ acc.2.2, x ∈ (ds.foldl (bfsExpand mz u) acc).2.2 := by
  intro ds
  induction ds with
  | nil =>
    intro acc x hx
    exact hx
  | cons d t ih =>
    intro acc x hx
    rw [List.foldl_cons]
    exact ih _ x (bfsExpand_que_mono mz u d acc x hx)

theorem bfsExpand_fold_closure (mz : Maze) (u : Nat) :
    ∀ (ds : List Int) acc, ∀ d ∈ ds, ∀ w, moveTo mz u d = some w →
      w ∈ (ds.foldl (bfsExpand mz u) acc).2.1 := by
  intro ds
  induction ds with
  | nil =>
    intro _ d hd
    exact absurd hd (List.not_mem_nil d)
  | cons d t ih =>
    intro acc e he w hmv
    rw [List.foldl_cons]
    rcases List.mem_cons.mp he with he | he
    · subst he
      refine bfsExpand_fold_vis_mono mz u t _ w ?_
      simp only [bfsExpand, hmv]
      by_cases hw : w ∈ acc.2.1
      · rw [if_pos hw]
        exact hw
      · rw [if_neg hw]
        exact List.mem_cons_self w _
    · exact ih _ e he w hmv

theorem bfsExpand_fold_new_in_que (mz : Maze) (u : Nat) :
    ∀ (ds : List Int) acc, ∀ x ∈ (ds.foldl (bfsExpand mz u) acc).2.1,
      x ∈ acc.2.1 ∨ x ∈ (ds.foldl (bfsExpand mz u) acc).2.2 := by
  intro ds
  induction ds with
  | nil =>
    intro acc x hx
    exact Or.inl hx
  | cons d t ih =>
    intro acc x hx
    rw [List.foldl_cons] at hx ⊢
    rcases ih _ x hx with hx1 | hx1
    · cases hmv : moveTo mz u d with
      | none =>
        simp only [bfsExpand, hmv] at hx1
        exact Or.inl hx1
      | some v =>
        simp only [bfsExpand, hmv] at hx1
        by_cases hv : v ∈ acc.2.1
        · rw [if_pos hv] at hx1
          exact Or.inl hx1
        · rw [if_neg hv] at hx1
          rcases List.mem_cons.mp hx1 with hxv | hxv
          · subst hxv
            refine Or.inr (bfsExpand_fold_que_mono mz u t _ x ?_)
            simp only [bfsExpand, hmv, if_neg hv]
            exact List.mem_append.mpr (Or.inr (List.mem_singleton.mpr rfl))
          · exact Or.inl hxv
    · exact Or.inr hx1

structure BFSInv (mz : Maze) (s : BFSState) : Prop where
  nodup : s.visited.Nodup
  start_mem : 0 ∈ s.visited
  bounds : ∀ v ∈ s.visited, v = 0 ∨ v < mz.mazeW * mz.mazeH
  que_sub : ∀ v ∈ s.que, v ∈ s.visited
  par : ParentInv mz s.parentOf s.visited
  closure : s.done = false → ∀ v ∈ s.visited,
    v ∈ s.que ∨ ∀ d ∈ dirs, ∀ w, moveTo mz v d = some w → w ∈ s.visited
  goal_que : s.done = false → ∀ g ∈ s.visited,
    (g : Int) = goalId mz.mazeW mz.mazeH → g ∈ s.que
  goal_done : s.done = true → ∃ g ∈ s.visited, (g : Int) = goalId mz.mazeW mz.mazeH

theorem bfsInv_init (mz : Maze) : BFSInv mz bfsInit :=
  { nodup := List.nodup_singleton 0
    start_mem := List.mem_singleton.mpr rfl
    bounds := fun v hv => Or.inl (List.mem_singleton.mp hv)
    que_sub := fun v hv => hv
    par := ⟨rfl, fun v w h => Option.noConfusion h, fun v hv hv0 =>
      absurd (List.mem_singleton.mp hv) hv0⟩
    closure := fun _ v hv => Or.inl hv
    goal_que := fun _ g hg _ => hg
    goal_done := fun h => Bool.noConfusion h }

theorem bfsInv_step {mz : Maze} {s : BFSState} (hinv : BFSInv mz s) :
    BFSInv mz (bfsStep mz s) := by
  rcases bfsStep_cases mz s with ⟨_, heq⟩ | ⟨u, rest, hdone, hq, hcase⟩
  · rwa [heq]
  · have humem : u ∈ s.visited :=
      hinv.que_sub u (by rw [hq]; exact List.mem_cons_self u rest)
    rcases hcase with ⟨hg, heq⟩ | ⟨hg, heq⟩
    · rw [heq]
      exact
        { nodup := hinv.nodup
          start_mem := hinv.start_mem
          bounds := hinv.bounds
          que_sub := fun v hv =>
            hinv.que_sub v (by rw [hq]; exact List.mem_cons_of_mem u hv)
          par := hinv.par
          closure := fun hfalse => absurd hfalse (by simp)
          goal_que := fun hfalse => absurd hfalse (by simp)
          goal_done := fun _ => ⟨u, humem, hg⟩ }
    · have hacc0 : BFSAcc mz u (s.parentOf, s.visited, rest) :=
        { nodup := hinv.nodup
          start_mem := hinv.start_mem
          u_mem := humem
          bounds := hinv.bounds
          que_sub := fun v hv =>
            hinv.que_sub v (by rw [hq]; exact List.mem_cons_of_mem u hv)
          par := hinv.par
          goal_que := by
            intro x hx hxid
            have hxq := hinv.goal_que hdone x hx hxid
            rw [hq] at hxq
            rcases List.mem_cons.mp hxq with hxu | hxr
            · exact absurd (hxu ▸ hxid) hg
            · exact hxr }
      have hacc := bfsExpand_fold_inv dirs (fun d hd => hd) _ hacc0
      rw [heq]
      refine
        { nodup := hacc.nodup
          start_mem := hacc.start_mem
          bounds := hacc.bounds
          que_sub := hacc.que_sub
          par := hacc.par
          closure := ?_
          goal_que := fun _ => hacc.goal_que
          goal_done := fun h => absurd h (by simp) }
      intro _ x hx
      rcases bfsExpand_fold_new_in_que mz u dirs (s.parentOf, s.visited, rest) x hx
        with hxold | hxque
      · rcases hinv.closure hdone x hxold with hxq | hexp
        · rw [hq] at hxq
          rcases List.mem_cons.mp hxq with hxu | hxr
          · subst hxu
            exact Or.inr fun d hd w hw =>
              bfsExpand_fold_closure mz x dirs (s.parentOf, s.visited, rest) d hd w hw
          · exact Or.inl
              (bfsExpand_fold_que_mono mz u dirs (s.parentOf, s.visited, rest) x hxr)
        · exact Or.inr fun d hd w hw =>
            bfsExpand_fold_vis_mono mz u dirs (s.parentOf, s.visited, rest) w
              (hexp d hd w hw)
      · exact Or.inl hxque

theorem bfsInv_run (mz : Maze) : ∀ k, BFSInv mz (bfsRun mz k) := by
  intro k
  induction k with
  | zero => exact bfsInv_init mz
  | succ n ih =>
    rw [bfsRun, Function.iterate_succ_apply']
    exact bfsInv_step ih

theorem bfs_done_of_connected {mz : Maze} (hW : 0 < mz.mazeW) (hH : 0 < mz.mazeH)
    (hconn : (mazeGraph mz).Connected) {k : Nat} (hstop : (bfsRun mz k).stopped) :
    (bfsRun mz k).done = true := by
  have hinv := bfsInv_run mz k
  by_cases hdone : (bfsRun mz k).done = true
  · exact hdone
  · have hdf : (bfsRun mz k).done = false := by
      revert hdone
      cases (bfsRun mz k).done <;> simp
    rcases hstop with h | h
    · exact h
    · exfalso
      have hclosed : ∀ u, u < mz.mazeW * mz.mazeH → u ∈ (bfsRun mz k).visited →
          ∀ d ∈ dirs, ∀ w, moveTo mz u d = some w → w ∈ (bfsRun mz k).visited := by
        intro u _ hu d hd w hmv
        rcases hinv.closure hdf u hu with hque | hexp
        · rw [h] at hque
          exact absurd hque (List.not_mem_nil u)
        · exact hexp d hd w hmv
      have hN : 0 < mz.mazeW * mz.mazeH := Nat.mul_pos hW hH
      have hgl : goalCell mz.mazeW mz.mazeH < mz.mazeW * mz.mazeH := goalCell_lt hW hH
      have hreach : (mazeGraph mz).Reachable ⟨0, hN⟩ ⟨goalCell mz.mazeW mz.mazeH, hgl⟩ :=
        hconn.preconnected _ _
      have hgvis : goalCell mz.mazeW mz.mazeH ∈ (bfsRun mz k).visited :=
        @closed_reach mz (fun x => x ∈ (bfsRun mz k).visited) hclosed ⟨0, hN⟩
          ⟨goalCell mz.mazeW mz.mazeH, hgl⟩ hreach hinv.start_mem
      have hgid : ((goalCell mz.mazeW mz.mazeH : Nat) : Int) = goalId mz.mazeW mz.mazeH :=
        (goalId_eq hW hH _).mpr rfl
      have hgque := hinv.goal_que hdf _ hgvis hgid
      rw [h] at hgque
      exact absurd hgque (List.not_mem_nil _)

theorem bfs_final_path {mz : Maze} (hW : 0 < mz.mazeW) (hH : 0 < mz.mazeH)
    (hconn : (mazeGraph mz).Connected) {k : Nat} (hstop : (bfsRun mz k).stopped) :
    (finalPath (bfsRun mz k).parentOf (goalCell mz.mazeW mz.mazeH)
        (mz.mazeW * mz.mazeH + 1)).head? = some 0 ∧
    (finalPath (bfsRun mz k).parentOf (goalCell mz.mazeW mz.mazeH)
        (mz.mazeW * mz.mazeH + 1)).getLast? = some (goalCell mz.mazeW mz.mazeH) ∧
    List.Chain' (fun a b => isAdj mz a b = true)
      (finalPath (bfsRun mz k).parentOf (goalCell mz.mazeW mz.mazeH)
        (mz.mazeW * mz.mazeH + 1)) ∧
    (finalPath (bfsRun mz k).parentOf (goalCell mz.mazeW mz.mazeH)
        (mz.mazeW * mz.mazeH + 1)).Nodup ∧
    (∀ x ∈ finalPath (bfsRun mz k).parentOf (goalCell mz.mazeW mz.mazeH)
        (mz.mazeW * mz.mazeH + 1), x < mz.mazeW * mz.mazeH) := by
  have hinv := bfsInv_run mz k
  have hdone := bfs_done_of_connected hW hH hconn hstop
  obtain ⟨g0, hg0v, hg0id⟩ := hinv.goal_done hdone
  have hg0 : g0 = goalCell mz.mazeW mz.mazeH := (goalId_eq hW hH g0).mp hg0id
  rw [hg0] at hg0v
  have hdecs := parentInv_dec hinv.nodup hinv.par
  have hlen := nodup_bounded_length hinv.nodup hinv.bounds
  have hmeasg : idxOf (bfsRun mz k).visited.reverse (goalCell mz.mazeW mz.mazeH)
      < mz.mazeW * mz.mazeH + 1 := by
    have h1 := idxOf_lt_of_mem (List.mem_reverse.mpr hg0v)
    rw [List.length_reverse] at h1
    exact Nat.lt_of_lt_of_le h1 hlen
  have hroot : ∀ r, (bfsRun mz k).parentOf r = none →
      (r = goalCell mz.mazeW mz.mazeH ∨ ∃ y, (bfsRun mz k).parentOf y = some r) → r = 0 := by
    intro r hnone hcases
    have hrv : r ∈ (bfsRun mz k).visited := by
      rcases hcases with h | ⟨y, hy⟩
      · rw [h]
        exact hg0v
      · exact parentInv_parent_mem hinv.par y r hy
    by_contra hr0
    exact (hinv.par.2.2 r hrv hr0) hnone
  obtain ⟨h1, h2, h3, h4, h5⟩ :=
    parent_path_generic (fun v w hh => (hinv.par.2.1 v w hh).1) hdecs hmeasg hroot
  refine ⟨h1, h2, h3, h4, ?_⟩
  intro x hx
  have hxvis : x ∈ (bfsRun mz k).visited := by
    rcases h5 x hx with hxg | ⟨y, hy⟩
    · rw [hxg]
      exact hg0v
    · exact parentInv_parent_mem hinv.par y x hy
  rcases hinv.bounds x hxvis with hx0 | hxN
  · rw [hx0]
    exact Nat.mul_pos hW hH
  · exact hxN

/-! #### The Dijkstra / A* loop invariant

The `visitedSet` of `runPQ` plays no algorithmic role (it only feeds the
animation), so the invariant tracks the `dist` array instead: a cell is
*reached* when its tentative distance has left `INT_MAX`. -/

def reachedSet (N : Nat) (dist : Nat → Nat) : Finset Nat :=
  (Finset.range N).filter fun x => dist x < INTMAX

theorem reachedSet_card_le (N : Nat) (f : Nat → Nat) : (reachedSet N f).card ≤ N := by
  calc (reachedSet N f).card ≤ (Finset.range N).card :=
        Finset.card_le_card (Finset.filter_subset _ _)
  _ = N := Finset.card_range N

theorem reachedSet_not_mem {N v : Nat} {f : Nat → Nat} (hfv : ¬ f v < INTMAX) :
    v ∉ reachedSet N f := by
  intro hv
  rw [reachedSet, Finset.mem_filter] at hv
  exact hfv hv.2

theorem reachedSet_update_same {N v a : Nat} {f : Nat → Nat} (hfv : f v < INTMAX)
    (ha : a < INTMAX) :
    reachedSet N (fun x => if x = v then a else f x) = reachedSet N f := by
  unfold reachedSet
  apply Finset.filter_congr
  intro x _
  show ((if x = v then a else f x) < INTMAX ↔ f x < INTMAX)
  by_cases hxv : x = v
  · rw [if_pos hxv]
    rw [hxv]
    exact iff_of_true ha hfv
  · rw [if_neg hxv]

theorem reachedSet_insert {N v a : Nat} {f : Nat → Nat} (hvN : v < N)
    (hfv : ¬ f v < INTMAX) (ha : a < INTMAX) :
    reachedSet N (fun x => if x = v then a else f x) = insert v (reachedSet N f) := by
  unfold reachedSet
  ext x
  rw [Finset.mem_insert, Finset.mem_filter, Finset.mem_filter, Finset.mem_range]
  show (x < N ∧ (if x = v then a else f x) < INTMAX ↔ x = v ∨ x < N ∧ f x < INTMAX)
  by_cases hxv : x = v
  · rw [if_pos hxv]
    constructor
    · intro _
      exact Or.inl hxv
    · intro _
      rw [hxv]
      exact ⟨hvN, ha⟩
  · rw [if_neg hxv]
    constructor
    · intro hx
      exact Or.inr hx
    · intro hx
      rcases hx with hx | hx
      · exact absurd hx hxv
      · exact hx

theorem pqRelax_dist_le (mz : Maze) (hh : Nat → Nat) (u : Nat) (d : Int)
    (acc : (Nat → Nat) × (Nat → Option Nat) × List (Nat × Nat)) :
    ∀ x, (pqRelax mz hh u acc d).1 x ≤ acc.1 x := by
  intro x
  cases hmv : moveTo mz u d with
  | none =>
    simp only [pqRelax, hmv]
    exact Nat.le_refl _
  | some v =>
    simp only [pqRelax, hmv]
    by_cases hlt : acc.1 u + 1 < acc.1 v
    · rw [if_pos hlt]
      show (if x = v then acc.1 u + 1 else acc.1 x) ≤ acc.1 x
      by_cases hxv : x = v
      · subst hxv
        rw [if_pos rfl]
        exact Nat.le_of_lt hlt
      · rw [if_neg hxv]
    · rw [if_neg hlt]

theorem pqRelax_fold_dist_le (mz : Maze) (hh : Nat → Nat) (u : Nat) :
    ∀ (ds : List Int) acc x, (ds.foldl (pqRelax mz hh u) acc).1 x ≤ acc.1 x := by
  intro ds
  induction ds with
  | nil =>
    intro acc x
    exact Nat.le_refl _
  | cons d t ih =>
    intro acc x
    rw [List.foldl_cons]
    exact Nat.le_trans (ih _ x) (pqRelax_dist_le mz hh u d acc x)

theorem pqRelax_pq_mono (mz : Maze) (hh : Nat → Nat) (u : Nat) (d : Int)
    (acc : (Nat → Nat) × (Nat → Option Nat) × List (Nat × Nat)) :
    ∀ kv ∈ acc.2.2, kv ∈ (pqRelax mz hh u acc d).2.2 := by
  intro kv hkv
  cases hmv : moveTo mz u d with
  | none =>
    simp only [pqRelax, hmv]
    exact hkv
  | some v =>
    simp only [pqRelax, hmv]
    by_cases hlt : acc.1 u + 1 < acc.1 v
    · rw [if_pos hlt]
      exact List.mem_cons_of_mem _ hkv
    · rw [if_neg hlt]
      exact hkv

theorem pqRelax_fold_pq_mono (mz : Maze) (hh : Nat → Nat) (u : Nat) :
    ∀ (ds : List Int) acc, ∀ kv ∈ acc.2.2, kv ∈ (ds.foldl (pqRelax mz hh u) acc).2.2 := by
  intro ds
  induction ds with
  | nil =>
    intro acc kv hkv
    exact hkv
  | cons d t ih =>
    intro acc kv hkv
    rw [List.foldl_cons]
    exact ih _ kv (pqRelax_pq_mono mz hh u d acc kv hkv)

structure PQAcc (mz : Maze) (s : PQState)
    (acc : (Nat → Nat) × (Nat → Option Nat) × List (Nat × Nat)) : Prop where
  dist0 : acc.1 0 = 0
  par0 : acc.2.1 0 = none
  par : ∀ v w, acc.2.1 v = some w → isAdj mz w v = true ∧
    acc.1 w < acc.1 v ∧ acc.1 v < INTMAX ∧
    v < mz.mazeW * mz.mazeH ∧ w < mz.mazeW * mz.mazeH
  nopar : ∀ v, acc.1 v < INTMAX → v ≠ 0 → acc.2.1 v ≠ none
  pq_mem : ∀ kv ∈ acc.2.2, kv.2 < mz.mazeW * mz.mazeH ∧ acc.1 kv.2 < INTMAX
  dist_card : ∀ v, v < mz.mazeW * mz.mazeH → acc.1 v < INTMAX →
    acc.1 v ≤ (reachedSet (mz.mazeW * mz.mazeH) acc.1).card
  mono : ∀ v, acc.1 v ≤ s.dist v
  fresh_pq : ∀ v, acc.1 v < INTMAX → ¬ s.dist v < INTMAX → ∃ kv ∈ acc.2.2, kv.2 = v

theorem pqRelax_inv {mz : Maze} {hh : Nat → Nat} {s : PQState} {u : Nat} {d : Int}
    (hd : d ∈ dirs) (hbig : mz.mazeW * mz.mazeH + 1 < INTMAX)
    (huN : u < mz.mazeW * mz.mazeH) (hsu : s.dist u < INTMAX)
    {acc : (Nat → Nat) × (Nat → Option Nat) × List (Nat × Nat)}
    (hi : PQAcc mz s acc) : PQAcc mz s (pqRelax mz hh u acc d) := by
  cases hmv : moveTo mz u d with
  | none =>
    simp only [pqRelax, hmv]
    exact hi
  | some v =>
    simp only [pqRelax, hmv]
    by_cases hlt : acc.1 u + 1 < acc.1 v
    · rw [if_pos hlt]
      have hvN := moveTo_lt hmv
      have hures : acc.1 u < INTMAX := Nat.lt_of_le_of_lt (hi.mono u) hsu
      have hucard : acc.1 u ≤ (reachedSet (mz.mazeW * mz.mazeH) acc.1).card :=
        hi.dist_card u huN hures
      have hcardN := reachedSet_card_le (mz.mazeW * mz.mazeH) acc.1
      have haltmax : acc.1 u + 1 < INTMAX := by omega
      have hv0 : ¬ v = 0 := by
        intro h
        rw [h, hi.dist0] at hlt
        exact Nat.not_lt_zero _ hlt
      have huv : ¬ u = v := by
        intro h
        rw [← h] at hlt
        omega
      refine
        { dist0 := ?_
          par0 := ?_
          par := ?_
          nopar := ?_
          pq_mem := ?_
          dist_card := ?_
          mono := ?_
          fresh_pq := ?_ }
      · show (if (0 : Nat) = v then acc.1 u + 1 else acc.1 0) = 0
        rw [if_neg (fun h => hv0 h.symm)]
        exact hi.dist0
      · show (if (0 : Nat) = v then some u else acc.2.1 0) = none
        rw [if_neg (fun h => hv0 h.symm)]
        exact hi.par0
      · intro x w hxw
        by_cases hxv : x = v
        · subst hxv
          have hxw' : (if x = x then some u else acc.2.1 x) = some w := hxw
          rw [if_pos rfl] at hxw'
          have hwu : w = u := (Option.some.inj hxw').symm
          refine ⟨?_, ?_, ?_, hvN, ?_⟩
          · rw [hwu]
            exact moveTo_isAdj hd hmv
          · show (if w = x then acc.1 u + 1 else acc.1 w)
              < (if x = x then acc.1 u + 1 else acc.1 x)
            rw [hwu, if_neg (fun h => huv h), if_pos rfl]
            exact Nat.lt_succ_self _
          · show (if x = x then acc.1 u + 1 else acc.1 x) < INTMAX
            rw [if_pos rfl]
            exact haltmax
          · rw [hwu]
            exact huN
        · have hxw' : (if x = v then some u else acc.2.1 x) = some w := hxw
          rw [if_neg hxv] at hxw'
          obtain ⟨ha1, ha2, ha3, ha4, ha5⟩ := hi.par x w hxw'
          refine ⟨ha1, ?_, ?_, ha4, ha5⟩
          · show (if w = v then acc.1 u + 1 else acc.1 w)
              < (if x = v then acc.1 u + 1 else acc.1 x)
            rw [if_neg hxv]
            by_cases hwv : w = v
            · rw [if_pos hwv]
              rw [hwv] at ha2
              omega
            · rw [if_neg hwv]
              exact ha2
          · show (if x = v then acc.1 u + 1 else acc.1 x) < INTMAX
            rw [if_neg hxv]
            exact ha3
      · intro x hx hx0
        by_cases hxv : x = v
        · subst hxv
          show (if x = x then some u else acc.2.1 x) ≠ none
          rw [if_pos rfl]
          exact fun h => Option.noConfusion h
        · have hx' : (if x = v then acc.1 u + 1 else acc.1 x) < INTMAX := hx
          rw [if_neg hxv] at hx'
          show (if x = v then some u else acc.2.1 x) ≠ none
          rw [if_neg hxv]
          exact hi.nopar x hx' hx0
      · intro kv hkv
        rcases List.mem_cons.mp hkv with hkv | hkv
        · rw [hkv]
          refine ⟨hvN, ?_⟩
          show (if v = v then acc.1 u + 1 else acc.1 v) < INTMAX
          rw [if_pos rfl]
          exact haltmax
        · obtain ⟨h1, h2⟩ := hi.pq_mem kv hkv
          refine ⟨h1, ?_⟩
          show (if kv.2 = v then acc.1 u + 1 else acc.1 kv.2) < INTMAX
          by_cases hkvv : kv.2 = v
          · rw [if_pos hkvv]
            exact haltmax
          · rw [if_neg hkvv]
            exact h2
      · intro x hxN hx
        by_cases hvres : acc.1 v < INTMAX
        · have hsets : reachedSet (mz.mazeW * mz.mazeH)
              (fun y => if y = v then acc.1 u + 1 else acc.1 y)
              = reachedSet (mz.mazeW * mz.mazeH) acc.1 :=
            reachedSet_update_same hvres haltmax
          show (if x = v then acc.1 u + 1 else acc.1 x)
            ≤ (reachedSet (mz.mazeW * mz.mazeH)
                (fun y => if y = v then acc.1 u + 1 else acc.1 y)).card
          rw [hsets]
          by_cases hxv : x = v
          · rw [if_pos hxv]
            have := hi.dist_card v hvN hvres
            omega
          · rw [if_neg hxv]
            have hx' : (if x = v then acc.1 u + 1 else acc.1 x) < INTMAX := hx
            rw [if_neg hxv] at hx'
            exact hi.dist_card x hxN hx'
        · have hsets : reachedSet (mz.mazeW * mz.mazeH)
              (fun y => if y = v then acc.1 u + 1 else acc.1 y)
              = insert v (reachedSet (mz.mazeW * mz.mazeH) acc.1) :=
            reachedSet_insert hvN hvres haltmax
          show (if x = v then acc.1 u + 1 else acc.1 x)
            ≤ (reachedSet (mz.mazeW * mz.mazeH)
                (fun y => if y = v then acc.1 u + 1 else acc.1 y)).card
          rw [hsets, Finset.card_insert_of_not_mem (reachedSet_not_mem hvres)]
          by_cases hxv : x = v
          · rw [if_pos hxv]
            omega
          · rw [if_neg hxv]
            have hx' : (if x = v then acc.1 u + 1 else acc.1 x) < INTMAX := hx
            rw [if_neg hxv] at hx'
            have := hi.dist_card x hxN hx'
            omega
      · intro x
        show (if x = v then acc.1 u + 1 else acc.1 x) ≤ s.dist x
        by_cases hxv : x = v
        · rw [if_pos hxv]
          rw [hxv]
          exact Nat.le_trans (Nat.le_of_lt hlt) (hi.mono v)
        · rw [if_neg hxv]
          exact hi.mono x
      · intro x hx hsx
        by_cases hxv : x = v
        · subst hxv
          exact ⟨(acc.1 u + 1 + hh x, x), List.mem_cons_self _ _, rfl⟩
        · have hx' : (if x = v then acc.1 u + 1 else acc.1 x) < INTMAX := hx
          rw [if_neg hxv] at hx'
          obtain ⟨kv, hkv, hkv2⟩ := hi.fresh_pq x hx' hsx
          exact ⟨kv, List.mem_cons_of_mem _ hkv, hkv2⟩
    · rw [if_neg hlt]
      exact hi

theorem pqRelax_fold_inv {mz : Maze} {hh : Nat → Nat} {s : PQState} {u : Nat}
    (hbig : mz.mazeW * mz.mazeH + 1 < INTMAX)
    (huN : u < mz.mazeW * mz.mazeH) (hsu : s.dist u < INTMAX) :
    ∀ ds : List Int, (∀ d ∈ ds, d ∈ dirs) →
      ∀ acc, PQAcc mz s acc → PQAcc mz s (ds.foldl (pqRelax mz hh u) acc) := by
  intro ds
  induction ds with
  | nil =>
    intro _ acc hi
    exact hi
  | cons d t ih =>
    intro hds acc hi
    rw [List.foldl_cons]
    exact ih (fun d' hd' => hds d' (List.mem_cons_of_mem d hd'))
      _ (pqRelax_inv (hds d (List.mem_cons_self d t)) hbig huN hsu hi)

theorem pqRelax_fold_closure {mz : Maze} {hh : Nat → Nat} {s : PQState} {u : Nat}
    (hbig : mz.mazeW * mz.mazeH + 1 < INTMAX)
    (huN : u < mz.mazeW * mz.mazeH) (hsu : s.dist u < INTMAX) :
    ∀ ds : List Int, (∀ d ∈ ds, d ∈ dirs) →
      ∀ acc, PQAcc mz s acc → ∀ d ∈ ds, ∀ w, moveTo mz u d = some w →
        (ds.foldl (pqRelax mz hh u) acc).1 w < INTMAX := by
  intro ds
  induction ds with
  | nil =>
    intro _ _ _ d hd
    exact absurd hd (List.not_mem_nil d)
  | cons d t ih =>
    intro hds acc hi e he w hmv
    rw [List.foldl_cons]
    have hures : acc.1 u < INTMAX := Nat.lt_of_le_of_lt (hi.mono u) hsu
    have hucard : acc.1 u ≤ (reachedSet (mz.mazeW * mz.mazeH) acc.1).card :=
      hi.dist_card u huN hures
    have hcardN := reachedSet_card_le (mz.mazeW * mz.mazeH) acc.1
    rcases List.mem_cons.mp he with he | he
    · subst he
      have hstep : (pqRelax mz hh u acc e).1 w < INTMAX := by
        simp only [pqRelax, hmv]
        by_cases hlt : acc.1 u + 1 < acc.1 w
        · rw [if_pos hlt]
          show (if w = w then acc.1 u + 1 else acc.1 w) < INTMAX
          rw [if_pos rfl]
          omega
        · rw [if_neg hlt]
          omega
      exact Nat.lt_of_le_of_lt (pqRelax_fold_dist_le mz hh u t _ w) hstep
    · exact ih (fun d' hd' => hds d' (List.mem_cons_of_mem d hd'))
        _ (pqRelax_inv (hds d (List.mem_cons_self d t)) hbig huN hsu hi) e he w hmv

structure PQInv (mz : Maze) (s : PQState) : Prop where
  dist0 : s.dist 0 = 0
  par0 : s.parentOf 0 = none
  par : ∀ v w, s.parentOf v = some w → isAdj mz w v = true ∧
    s.dist w < s.dist v ∧ s.dist v < INTMAX ∧
    v < mz.mazeW * mz.mazeH ∧ w < mz.mazeW * mz.mazeH
  nopar : ∀ v, s.dist v < INTMAX → v ≠ 0 → s.parentOf v ≠ none
  pq_mem : ∀ kv ∈ s.pq, kv.2 < mz.mazeW * mz.mazeH ∧ s.dist kv.2 < INTMAX
  dist_card : ∀ v, v < mz.mazeW * mz.mazeH → s.dist v < INTMAX →
    s.dist v ≤ (reachedSet (mz.mazeW * mz.mazeH) s.dist).card
  closure : s.done = false → ∀ v, v < mz.mazeW * mz.mazeH → s.dist v < INTMAX →
    ((∃ kv ∈ s.pq, kv.2 = v) ∨
      ∀ d ∈ dirs, ∀ w, moveTo mz v d = some w → s.dist w < INTMAX)
  goal_pq : s.done = false → ∀ v, v < mz.mazeW * mz.mazeH → s.dist v < INTMAX →
    (v : Int) = goalId mz.mazeW mz.mazeH → ∃ kv ∈ s.pq, kv.2 = v
  goal_done : s.done = true → ∃ g, g < mz.mazeW * mz.mazeH ∧ s.dist g < INTMAX ∧
    (g : Int) = goalId mz.mazeW mz.mazeH

theorem pqInv_init (mz : Maze) (hh : Nat → Nat) (hN : 0 < mz.mazeW * mz.mazeH) :
    PQInv mz (pqInit hh) := by
  have hd : ∀ v : Nat, (pqInit hh).dist v < INTMAX → v = 0 := by
    intro v hv
    by_contra hv0
    have heq : (pqInit hh).dist v = INTMAX := if_neg hv0
    rw [heq] at hv
    exact Nat.lt_irrefl _ hv
  refine
    { dist0 := (if_pos rfl : (if (0 : Nat) = 0 then 0 else INTMAX) = 0)
      par0 := rfl
      par := fun v w h => Option.noConfusion h
      nopar := ?_
      pq_mem := ?_
      dist_card := ?_
      closure := ?_
      goal_pq := ?_
      goal_done := fun h => Bool.noConfusion h }
  · intro v hv hv0
    exact absurd (hd v hv) hv0
  · intro kv hkv
    have hkv' : kv = (hh 0, 0) := List.mem_singleton.mp hkv
    rw [hkv']
    refine ⟨hN, ?_⟩
    show (if (0 : Nat) = 0 then 0 else INTMAX) < INTMAX
    rw [if_pos rfl]
    decide
  · intro v hvN hv
    have hv0 := hd v hv
    rw [hv0]
    show (if (0 : Nat) = 0 then 0 else INTMAX) ≤ _
    rw [if_pos rfl]
    exact Nat.zero_le _
  · intro _ v hvN hv
    exact Or.inl ⟨(hh 0, 0), List.mem_singleton.mpr rfl, (hd v hv).symm⟩
  · intro _ v hvN hv _
    exact ⟨(hh 0, 0), List.mem_singleton.mpr rfl, (hd v hv).symm⟩

theorem pqInv_step {mz : Maze} {hh : Nat → Nat} {s : PQState}
    (hbig : mz.mazeW * mz.mazeH + 1 < INTMAX) (hinv : PQInv mz s) :
    PQInv mz (pqStep mz hh s) := by
  rcases pqStep_cases mz hh s with ⟨_, heq⟩ | ⟨t, hdone, htop, hcase⟩
  · rwa [heq]
  · have htmem := pqTop_mem htop
    obtain ⟨htN, htres⟩ := hinv.pq_mem t htmem
    rcases hcase with ⟨hg, heq⟩ | ⟨hg, heq⟩
    · rw [heq]
      exact
        { dist0 := hinv.dist0
          par0 := hinv.par0
          par := hinv.par
          nopar := hinv.nopar
          pq_mem := fun kv hkv => hinv.pq_mem kv (List.mem_of_mem_erase hkv)
          dist_card := hinv.dist_card
          closure := fun hfalse => absurd hfalse (by simp)
          goal_pq := fun hfalse => absurd hfalse (by simp)
          goal_done := fun _ => ⟨t.2, htN, htres, hg⟩ }
    · have hacc0 : PQAcc mz s (s.dist, s.parentOf, s.pq.erase t) :=
        { dist0 := hinv.dist0
          par0 := hinv.par0
          par := hinv.par
          nopar := hinv.nopar
          pq_mem := fun kv hkv => hinv.pq_mem kv (List.mem_of_mem_erase hkv)
          dist_card := hinv.dist_card
          mono := fun v => Nat.le_refl _
          fresh_pq := fun v hv hsv => absurd hv hsv }
      have hacc := @pqRelax_fold_inv mz hh s t.2 hbig htN htres dirs
        (fun d hd => hd) (s.dist, s.parentOf, s.pq.erase t) hacc0
      have hclos := @pqRelax_fold_closure mz hh s t.2 hbig htN htres dirs
        (fun d hd => hd) (s.dist, s.parentOf, s.pq.erase t) hacc0
      rw [heq]
      refine
        { dist0 := hacc.dist0
          par0 := hacc.par0
          par := hacc.par
          nopar := hacc.nopar
          pq_mem := hacc.pq_mem
          dist_card := hacc.dist_card
          closure := ?_
          goal_pq := ?_
          goal_done := fun h => absurd h (by simp) }
      · intro _ v hvN hvres
        by_cases hsres : s.dist v < INTMAX
        · rcases hinv.closure hdone v hvN hsres with ⟨kv, hkv, hkv2⟩ | hexp
          · by_cases hkvt : kv = t
            · have hvu : v = t.2 := by rw [← hkv2, hkvt]
              refine Or.inr fun d hd w hmv => ?_
              refine hclos d hd w ?_
              rw [← hvu]
              exact hmv
            · have hkv' : kv ∈ s.pq.erase t := (List.mem_erase_of_ne hkvt).mpr hkv
              exact Or.inl ⟨kv,
                pqRelax_fold_pq_mono mz hh t.2 dirs (s.dist, s.parentOf, s.pq.erase t) kv hkv',
                hkv2⟩
          · refine Or.inr fun d hd w hmv => ?_
            exact Nat.lt_of_le_of_lt
              (pqRelax_fold_dist_le mz hh t.2 dirs (s.dist, s.parentOf, s.pq.erase t) w)
              (hexp d hd w hmv)
        · obtain ⟨kv, hkv, hkv2⟩ := hacc.fresh_pq v hvres hsres
          exact Or.inl ⟨kv, hkv, hkv2⟩
      · intro _ v hvN hvres hvid
        by_cases hsres : s.dist v < INTMAX
        · obtain ⟨kv, hkv, hkv2⟩ := hinv.goal_pq hdone v hvN hsres hvid
          have hkvt : ¬ kv = t := by
            intro h
            rw [h] at hkv2
            rw [hkv2] at hg
            exact hg hvid
          have hkv' : kv ∈ s.pq.erase t := (List.mem_erase_of_ne hkvt).mpr hkv
          exact ⟨kv,
            pqRelax_fold_pq_mono mz hh t.2 dirs (s.dist, s.parentOf, s.pq.erase t) kv hkv',
            hkv2⟩
        · obtain ⟨kv, hkv, hkv2⟩ := hacc.fresh_pq v hvres hsres
          exact ⟨kv, hkv, hkv2⟩

theorem pqInv_run (mz : Maze) (hh : Nat → Nat) (hN : 0 < mz.mazeW * mz.mazeH)
    (hbig : mz.mazeW * mz.mazeH + 1 < INTMAX) :
    ∀ k, PQInv mz (pqRun mz hh k) := by
  intro k
  induction k with
  | zero => exact pqInv_init mz hh hN
  | succ n ih =>
    rw [pqRun, Function.iterate_succ_apply']
    exact pqInv_step hbig ih

theorem pq_done_of_connected {mz : Maze} {hh : Nat → Nat} (hW : 0 < mz.mazeW)
    (hH : 0 < mz.mazeH) (hbig : mz.mazeW * mz.mazeH + 1 < INTMAX)
    (hconn : (mazeGraph mz).Connected) {k : Nat} (hstop : (pqRun mz hh k).stopped) :
    (pqRun mz hh k).done = true := by
  have hN : 0 < mz.mazeW * mz.mazeH := Nat.mul_pos hW hH
  have hinv := pqInv_run mz hh hN hbig k
  by_cases hdone : (pqRun mz hh k).done = true
  · exact hdone
  · have hdf : (pqRun mz hh k).done = false := by
      revert hdone
      cases (pqRun mz hh k).done <;> simp
    rcases hstop with h | h
    · exact h
    · exfalso
      have hclosed : ∀ u, u < mz.mazeW * mz.mazeH → (pqRun mz hh k).dist u < INTMAX →
          ∀ d ∈ dirs, ∀ w, moveTo mz u d = some w → (pqRun mz hh k).dist w < INTMAX := by
        intro u huN hu d hd w hmv
        rcases hinv.closure hdf u huN hu with ⟨kv, hkv, _⟩ | hexp
        · rw [h] at hkv
          exact absurd hkv (List.not_mem_nil kv)
        · exact hexp d hd w hmv
      have hgl : goalCell mz.mazeW mz.mazeH < mz.mazeW * mz.mazeH := goalCell_lt hW hH
      have hreach : (mazeGraph mz).Reachable ⟨0, hN⟩ ⟨goalCell mz.mazeW mz.mazeH, hgl⟩ :=
        hconn.preconnected _ _
      have h0res : (pqRun mz hh k).dist 0 < INTMAX := by
        rw [hinv.dist0]
        decide
      have hgres : (pqRun mz hh k).dist (goalCell mz.mazeW mz.mazeH) < INTMAX :=
        @closed_reach mz (fun x => (pqRun mz hh k).dist x < INTMAX) hclosed ⟨0, hN⟩
          ⟨goalCell mz.mazeW mz.mazeH, hgl⟩ hreach h0res
      have hgid : ((goalCell mz.mazeW mz.mazeH : Nat) : Int) = goalId mz.mazeW mz.mazeH :=
        (goalId_eq hW hH _).mpr rfl
      obtain ⟨kv, hkv, _⟩ := hinv.goal_pq hdf _ hgl hgres hgid
      rw [h] at hkv
      exact absurd hkv (List.not_mem_nil kv)

theorem pq_final_path {mz : Maze} {hh : Nat → Nat} (hW : 0 < mz.mazeW)
    (hH : 0 < mz.mazeH) (hbig : mz.mazeW * mz.mazeH + 1 < INTMAX)
    (hconn : (mazeGraph mz).Connected) {k : Nat} (hstop : (pqRun mz hh k).stopped) :
    (finalPath (pqRun mz hh k).parentOf (goalCell mz.mazeW mz.mazeH)
        (mz.mazeW * mz.mazeH + 1)).head? = some 0 ∧
    (finalPath (pqRun mz hh k).parentOf (goalCell mz.mazeW mz.mazeH)
        (mz.mazeW * mz.mazeH + 1)).getLast? = some (goalCell mz.mazeW mz.mazeH) ∧
    List.Chain' (fun a b => isAdj mz a b = true)
      (finalPath (pqRun mz hh k).parentOf (goalCell mz.mazeW mz.mazeH)
        (mz.mazeW * mz.mazeH + 1)) ∧
    (finalPath (pqRun mz hh k).parentOf (goalCell mz.mazeW mz.mazeH)
        (mz.mazeW * mz.mazeH + 1)).Nodup ∧
    (∀ x ∈ finalPath (pqRun mz hh k).parentOf (goalCell mz.mazeW mz.mazeH)
        (mz.mazeW * mz.mazeH + 1), x < mz.mazeW * mz.mazeH) := by
  have hN : 0 < mz.mazeW * mz.mazeH := Nat.mul_pos hW hH
  have hinv := pqInv_run mz hh hN hbig k
  have hdone := pq_done_of_connected hW hH hbig hconn hstop
  obtain ⟨g0, hg0N, hg0res, hg0id⟩ := hinv.goal_done hdone
  have hg0 : g0 = goalCell mz.mazeW mz.mazeH := (goalId_eq hW hH g0).mp hg0id
  rw [hg0] at hg0res
  have hdec : ∀ v w, (pqRun mz hh k).parentOf v = some w →
      (pqRun mz hh k).dist w < (pqRun mz hh k).dist v :=
    fun v w h => (hinv.par v w h).2.1
  have hmeasg : (pqRun mz hh k).dist (goalCell mz.mazeW mz.mazeH)
      < mz.mazeW * mz.mazeH + 1 := by
    have h1 := hinv.dist_card _ (goalCell_lt hW hH) hg0res
    have h2 := reachedSet_card_le (mz.mazeW * mz.mazeH) (pqRun mz hh k).dist
    omega
  have hroot : ∀ r, (pqRun mz hh k).parentOf r = none →
      (r = goalCell mz.mazeW mz.mazeH ∨ ∃ y, (pqRun mz hh k).parentOf y = some r) →
      r = 0 := by
    intro r hnone hcases
    have hrres : (pqRun mz hh k).dist r < INTMAX := by
      rcases hcases with h | ⟨y, hy⟩
      · rw [h]
        exact hg0res
      · obtain ⟨_, hlt, hmax, _, _⟩ := hinv.par y r hy
        exact Nat.lt_trans hlt hmax
    by_contra hr0
    exact (hinv.nopar r hrres hr0) hnone
  obtain ⟨h1, h2, h3, h4, h5⟩ :=
    parent_path_generic (fun v w h => (hinv.par v w h).1) hdec hmeasg hroot
  refine ⟨h1, h2, h3, h4, ?_⟩
  intro x hx
  rcases h5 x hx with hxg | ⟨y, hy⟩
  · rw [hxg]
    exact goalCell_lt hW hH
  · exact (hinv.par y x hy).2.2.2.2

/-! ### From cell-number lists back to graph walks

The final-path lemmas speak about `List Nat`; the spanning-tree facts speak
about `SimpleGraph.Walk`.  `chain_to_walk` converts an `isAdj`-chained list
into a walk whose support projects back to the list. -/

theorem generate_dims (W H : Nat) (es : List Edge)
    (hes : ∀ e ∈ es, validEdge W H e) :
    (generateRandom (Maze.new W H) es).mazeW = W ∧
    (generateRandom (Maze.new W H) es).mazeH = H := by
  obtain ⟨g1, _, _⟩ := genFold_inv es hes (genInv_init W H)
  exact ⟨g1.1, g1.2.1⟩

theorem chain_to_walk {mz : Maze} :
    ∀ (rest : List Nat) (a : Fin (mz.mazeW * mz.mazeH)),
      List.Chain' (fun x y => isAdj mz x y = true) ((a : Nat) :: rest) →
      (∀ x ∈ rest, x < mz.mazeW * mz.mazeH) →
      ∃ (b : Fin (mz.mazeW * mz.mazeH)) (w : (mazeGraph mz).Walk a b),
        w.support.map Fin.val = (a : Nat) :: rest ∧
        ((a : Nat) :: rest).getLast? = some (b : Nat) := by
  intro rest
  induction rest with
  | nil =>
    intro a _ _
    exact ⟨a, SimpleGraph.Walk.nil, by simp, rfl⟩
  | cons y rest ih =>
    intro a hchain hbnd
    have hy : y < mz.mazeW * mz.mazeH := hbnd y (List.mem_cons_self y rest)
    have hsplit := List.chain'_cons.mp hchain
    have hadj : (mazeGraph mz).Adj a ⟨y, hy⟩ := hsplit.1
    obtain ⟨b, w, hsupp, hlast⟩ := ih ⟨y, hy⟩ hsplit.2
      (fun x hx => hbnd x (List.mem_cons_of_mem y hx))
    refine ⟨b, SimpleGraph.Walk.cons hadj w, ?_, ?_⟩
    · rw [SimpleGraph.Walk.support_cons, List.map_cons, hsupp]
    · rw [List.getLast?_cons_cons]
      exact hlast

theorem list_to_walk {mz : Maze} (hN : 0 < mz.mazeW * mz.mazeH)
    (hgl : goalCell mz.mazeW mz.mazeH < mz.mazeW * mz.mazeH) {l : List Nat}
    (h1 : l.head? = some 0)
    (h2 : l.getLast? = some (goalCell mz.mazeW mz.mazeH))
    (h3 : List.Chain' (fun a b => isAdj mz a b = true) l)
    (h5 : ∀ x ∈ l, x < mz.mazeW * mz.mazeH) :
    ∃ w : (mazeGraph mz).Walk ⟨0, hN⟩ ⟨goalCell mz.mazeW mz.mazeH, hgl⟩,
      w.support.map Fin.val = l := by
  cases l with
  | nil => exact absurd h1 (by simp)
  | cons x rest =>
    have hx : x = 0 := by
      rw [List.head?_cons, Option.some.injEq] at h1
      exact h1
    subst hx
    obtain ⟨b, w, hsupp, hlast⟩ :=
      chain_to_walk rest ⟨0, hN⟩ h3 (fun z hz => h5 z (List.mem_cons_of_mem _ hz))
    have hb : b = ⟨goalCell mz.mazeW mz.mazeH, hgl⟩ := by
      apply Fin.ext
      have hbg : some (b : Nat) = some (goalCell mz.mazeW mz.mazeH) := by
        rw [← hlast]
        exact h2
      exact Option.some.inj hbg
    subst hb
    exact ⟨w, hsupp⟩

theorem list_to_path {mz : Maze} (hN : 0 < mz.mazeW * mz.mazeH)
    (hgl : goalCell mz.mazeW mz.mazeH < mz.mazeW * mz.mazeH) {l : List Nat}
    (h1 : l.head? = some 0)
    (h2 : l.getLast? = some (goalCell mz.mazeW mz.mazeH))
    (h3 : List.Chain' (fun a b => isAdj mz a b = true) l)
    (h4 : l.Nodup)
    (h5 : ∀ x ∈ l, x < mz.mazeW * mz.mazeH) :
    ∃ w : (mazeGraph mz).Walk ⟨0, hN⟩ ⟨goalCell mz.mazeW mz.mazeH, hgl⟩,
      w.IsPath ∧ w.support.map Fin.val = l := by
  obtain ⟨w, hws⟩ := list_to_walk hN hgl h1 h2 h3 h5
  refine ⟨w, ?_, hws⟩
  apply SimpleGraph.Walk.IsPath.mk'
  exact List.Nodup.of_map Fin.val (by rw [hws]; exact h4)

/-- On an acyclic maze graph there is at most one simple `isAdj`-chained cell
list from the start to the goal. -/
theorem tree_path_eq {mz : Maze} (hacyc : (mazeGraph mz).IsAcyclic)
    (hN : 0 < mz.mazeW * mz.mazeH)
    (hgl : goalCell mz.mazeW mz.mazeH < mz.mazeW * mz.mazeH) {l1 l2 : List Nat}
    (h11 : l1.head? = some 0)
    (h12 : l1.getLast? = some (goalCell mz.mazeW mz.mazeH))
    (h13 : List.Chain' (fun a b => isAdj mz a b = true) l1)
    (h14 : l1.Nodup)
    (h15 : ∀ x ∈ l1, x < mz.mazeW * mz.mazeH)
    (h21 : l2.head? = some 0)
    (h22 : l2.getLast? = some (goalCell mz.mazeW mz.mazeH))
    (h23 : List.Chain' (fun a b => isAdj mz a b = true) l2)
    (h24 : l2.Nodup)
    (h25 : ∀ x ∈ l2, x < mz.mazeW * mz.mazeH) :
    l1 = l2 := by
  obtain ⟨w1, hp1, hs1⟩ := list_to_path hN hgl h11 h12 h13 h14 h15
  obtain ⟨w2, hp2, hs2⟩ := list_to_path hN hgl h21 h22 h23 h24 h25
  have hw : w1 = w2 :=
    congrArg Subtype.val (hacyc.path_unique ⟨w1, hp1⟩ ⟨w2, hp2⟩)
  rw [← hs1, ← hs2, hw]

/-- On an acyclic maze graph the simple start-goal list is at most as long as
any `isAdj`-chained start-goal list (simple or not). -/
theorem tree_path_min {mz : Maze} (hacyc : (mazeGraph mz).IsAcyclic)
    (hN : 0 < mz.mazeW * mz.mazeH)
    (hgl : goalCell mz.mazeW mz.mazeH < mz.mazeW * mz.mazeH) {l l' : List Nat}
    (h11 : l.head? = some 0)
    (h12 : l.getLast? = some (goalCell mz.mazeW mz.mazeH))
    (h13 : List.Chain' (fun a b => isAdj mz a b = true) l)
    (h14 : l.Nodup)
    (h15 : ∀ x ∈ l, x < mz.mazeW * mz.mazeH)
    (h21 : l'.head? = some 0)
    (h22 : l'.getLast? = some (goalCell mz.mazeW mz.mazeH))
    (h23 : List.Chain' (fun a b => isAdj mz a b = true) l')
    (h25 : ∀ x ∈ l', x < mz.mazeW * mz.mazeH) :
    l.length ≤ l'.length := by
  obtain ⟨w, hp, hs⟩ := list_to_path hN hgl h11 h12 h13 h14 h15
  obtain ⟨q, hqs⟩ := list_to_walk hN hgl h21 h22 h23 h25
  have hb : q.bypass.IsPath := SimpleGraph.Walk.bypass_isPath q
  have hw : w = q.bypass :=
    congrArg Subtype.val (hacyc.path_unique ⟨w, hp⟩ ⟨q.bypass, hb⟩)
  have hl : l.length = w.length + 1 := by
    rw [← hs, List.length_map, SimpleGraph.Walk.length_support]
  have hl2 : l'.length = q.length + 1 := by
    rw [← hqs, List.length_map, SimpleGraph.Walk.length_support]
  have hbl := SimpleGraph.Walk.length_bypass_le q
  rw [hl, hl2, hw]
  omega

instance (s : DFSState) : Decidable s.stopped :=
  inferInstanceAs (Decidable (s.done = true ∨ s.stk = []))

instance (s : BFSState) : Decidable s.stopped :=
  inferInstanceAs (Decidable (s.done = true ∨ s.que = []))

instance (s : PQState) : Decidable s.stopped :=
  inferInstanceAs (Decidable (s.done = true ∨ s.pq = []))

/-- **C7**: for every generated maze (positive dimensions, candidate edges a
permutation of the full interior wall list, grid small enough that `int`
distances cannot overflow) and every strategy among DFS, BFS, Dijkstra
(`zeroH`) and A* (`manH`), once the search loop has stopped the reconstructed
final path is a simple sequence: consecutive cells are adjacent through a
removed wall (`isAdj`, i.e. `canMove` succeeds between them), no cell occurs
twice, the first element is the start cell `0`, and the last element is the
goal cell `goalCell W H = W*H - 1`. -/
theorem final_paths_simple (W H : Nat) (hW : 0 < W) (hH : 0 < H)
    (es : List Edge) (hperm : es.Perm (edgeList W H)) (hbig : W * H + 1 < INTMAX)
    (k1 k2 k3 k4 : Nat)
    (h1 : (dfsRun (generateRandom (Maze.new W H) es) k1).stopped)
    (h2 : (bfsRun (generateRandom (Maze.new W H) es) k2).stopped)
    (h3 : (pqRun (generateRandom (Maze.new W H) es) zeroH k3).stopped)
    (h4 : (pqRun (generateRandom (Maze.new W H) es) (manH W H) k4).stopped) :
    ((finalPath (dfsRun (generateRandom (Maze.new W H) es) k1).parentOf
        (goalCell W H) (W * H + 1)).head? = some 0 ∧
      (finalPath (dfsRun (generateRandom (Maze.new W H) es) k1).parentOf
        (goalCell W H) (W * H + 1)).getLast? = some (goalCell W H) ∧
      List.Chain' (fun a b => isAdj (generateRandom (Maze.new W H) es) a b = true)
        (finalPath (dfsRun (generateRandom (Maze.new W H) es) k1).parentOf
        (goalCell W H) (W * H + 1)) ∧
      (finalPath (dfsRun (generateRandom (Maze.new W H) es) k1).parentOf
        (goalCell W H) (W * H + 1)).Nodup) ∧
    ((finalPath (bfsRun (generateRandom (Maze.new W H) es) k2).parentOf
        (goalCell W H) (W * H + 1)).head? = some 0 ∧
      (finalPath (bfsRun (generateRandom (Maze.new W H) es) k2).parentOf
        (goalCell W H) (W * H + 1)).getLast? = some (goalCell W H) ∧
      List.Chain' (fun a b => isAdj (generateRandom (Maze.new W H) es) a b = true)
        (finalPath (bfsRun (generateRandom (Maze.new W H) es) k2).parentOf
        (goalCell W H) (W * H + 1)) ∧
      (finalPath (bfsRun (generateRandom (Maze.new W H) es) k2).parentOf
        (goalCell W H) (W * H + 1)).Nodup) ∧
    ((finalPath (pqRun (generateRandom (Maze.new W H) es) zeroH k3).parentOf
        (goalCell W H) (W * H + 1)).head? = some 0 ∧
      (finalPath (pqRun (generateRandom (Maze.new W H) es) zeroH k3).parentOf
        (goalCell W H) (W * H + 1)).getLast? = some (goalCell W H) ∧
      List.Chain' (fun a b => isAdj (generateRandom (Maze.new W H) es) a b = true)
        (finalPath (pqRun (generateRandom (Maze.new W H) es) zeroH k3).parentOf
        (goalCell W H) (W * H + 1)) ∧
      (finalPath (pqRun (generateRandom (Maze.new W H) es) zeroH k3).parentOf
        (goalCell W H) (W * H + 1)).Nodup) ∧
    ((finalPath (pqRun (generateRandom (Maze.new W H) es) (manH W H) k4).parentOf
        (goalCell W H) (W * H + 1)).head? = some 0 ∧
      (finalPath (pqRun (generateRandom (Maze.new W H) es) (manH W H) k4).parentOf
        (goalCell W H) (W * H + 1)).getLast? = some (goalCell W H) ∧
      List.Chain' (fun a b => isAdj (generateRandom (Maze.new W H) es) a b = true)
        (finalPath (pqRun (generateRandom (Maze.new W H) es) (manH W H) k4).parentOf
        (goalCell W H) (W * H + 1)) ∧
      (finalPath (pqRun (generateRandom (Maze.new W H) es) (manH W H) k4).parentOf
        (goalCell W H) (W * H + 1)).Nodup) := by
  obtain ⟨hdW, hdH⟩ :=
    generate_dims W H es (fun e he => mem_edgeList_iff.mp (hperm.mem_iff.mp he))
  obtain ⟨hconn, hacyc, _, _⟩ := generation_spanning_tree W H hW hH es hperm
  have hW2 : 0 < (generateRandom (Maze.new W H) es).mazeW := by rw [hdW]; exact hW
  have hH2 : 0 < (generateRandom (Maze.new W H) es).mazeH := by rw [hdH]; exact hH
  have hbig2 : (generateRandom (Maze.new W H) es).mazeW * (generateRandom (Maze.new W H) es).mazeH + 1 < INTMAX := by
    rw [hdW, hdH]; exact hbig
  obtain ⟨d1, d2, d3, d4, _⟩ := dfs_final_path hW2 hH2 hconn h1
  obtain ⟨b1, b2, b3, b4, _⟩ := bfs_final_path hW2 hH2 hconn h2
  obtain ⟨z1, z2, z3, z4, _⟩ := pq_final_path hW2 hH2 hbig2 hconn h3
  obtain ⟨m1, m2, m3, m4, _⟩ := pq_final_path hW2 hH2 hbig2 hconn h4
  rw [hdW, hdH] at d1 d2 d3 d4 b1 b2 b3 b4 z1 z2 z3 z4 m1 m2 m3 m4
  exact ⟨⟨d1, d2, d3, d4⟩, ⟨b1, b2, b3, b4⟩, ⟨z1, z2, z3, z4⟩, ⟨m1, m2, m3, m4⟩⟩

/-- Witness for `final_paths_simple` on the 2×1 maze with the identity edge
order and fuel 5 for each search. -/
theorem final_paths_simple_witness :
    ((dfsRun (generateRandom (Maze.new 2 1) (edgeList 2 1)) 5).stopped ∧
    (bfsRun (generateRandom (Maze.new 2 1) (edgeList 2 1)) 5).stopped ∧
    (pqRun (generateRandom (Maze.new 2 1) (edgeList 2 1)) zeroH 5).stopped ∧
    (pqRun (generateRandom (Maze.new 2 1) (edgeList 2 1)) (manH 2 1) 5).stopped) ∧
    ((finalPath (dfsRun (generateRandom (Maze.new 2 1) (edgeList 2 1)) 5).parentOf
        (goalCell 2 1) (2 * 1 + 1)).head? = some 0 ∧
      (finalPath (dfsRun (generateRandom (Maze.new 2 1) (edgeList 2 1)) 5).parentOf
        (goalCell 2 1) (2 * 1 + 1)).getLast? = some (goalCell 2 1) ∧
      List.Chain' (fun a b => isAdj (generateRandom (Maze.new 2 1) (edgeList 2 1)) a b = true)
        (finalPath (dfsRun (generateRandom (Maze.new 2 1) (edgeList 2 1)) 5).parentOf
        (goalCell 2 1) (2 * 1 + 1)) ∧
      (finalPath (dfsRun (generateRandom (Maze.new 2 1) (edgeList 2 1)) 5).parentOf
        (goalCell 2 1) (2 * 1 + 1)).Nodup) ∧
    ((finalPath (bfsRun (generateRandom (Maze.new 2 1) (edgeList 2 1)) 5).parentOf
        (goalCell 2 1) (2 * 1 + 1)).head? = some 0 ∧
      (finalPath (bfsRun (generateRandom (Maze.new 2 1) (edgeList 2 1)) 5).parentOf
        (goalCell 2 1) (2 * 1 + 1)).getLast? = some (goalCell 2 1) ∧
      List.Chain' (fun a b => isAdj (generateRandom (Maze.new 2 1) (edgeList 2 1)) a b = true)
        (finalPath (bfsRun (generateRandom (Maze.new 2 1) (edgeList 2 1)) 5).parentOf
        (goalCell 2 1) (2 * 1 + 1)) ∧
      (finalPath (bfsRun (generateRandom (Maze.new 2 1) (edgeList 2 1)) 5).parentOf
        (goalCell 2 1) (2 * 1 + 1)).Nodup) ∧
    ((finalPath (pqRun (generateRandom (Maze.new 2 1) (edgeList 2 1)) zeroH 5).parentOf
        (goalCell 2 1) (2 * 1 + 1)).head? = some 0 ∧
      (finalPath (pqRun (generateRandom (Maze.new 2 1) (edgeList 2 1)) zeroH 5).parentOf
        (goalCell 2 1) (2 * 1 + 1)).getLast? = some (goalCell 2 1) ∧
      List.Chain' (fun a b => isAdj (generateRandom (Maze.new 2 1) (edgeList 2 1)) a b = true)
        (finalPath (pqRun (generateRandom (Maze.new 2 1) (edgeList 2 1)) zeroH 5).parentOf
        (goalCell 2 1) (2 * 1 + 1)) ∧
      (finalPath (pqRun (generateRandom (Maze.new 2 1) (edgeList 2 1)) zeroH 5).parentOf
        (goalCell 2 1) (2 * 1 + 1)).Nodup) ∧
    ((finalPath (pqRun (generateRandom (Maze.new 2 1) (edgeList 2 1)) (manH 2 1) 5).parentOf
        (goalCell 2 1) (2 * 1 + 1)).head? = some 0 ∧
      (finalPath (pqRun (generateRandom (Maze.new 2 1) (edgeList 2 1)) (manH 2 1) 5).parentOf
        (goalCell 2 1) (2 * 1 + 1)).getLast? = some (goalCell 2 1) ∧
      List.Chain' (fun a b => isAdj (generateRandom (Maze.new 2 1) (edgeList 2 1)) a b = true)
        (finalPath (pqRun (generateRandom (Maze.new 2 1) (edgeList 2 1)) (manH 2 1) 5).parentOf
        (goalCell 2 1) (2 * 1 + 1)) ∧
      (finalPath (pqRun (generateRandom (Maze.new 2 1) (edgeList 2 1)) (manH 2 1) 5).parentOf
        (goalCell 2 1) (2 * 1 + 1)).Nodup) := by
  have h := final_paths_simple 2 1 (by decide) (by decide) (edgeList 2 1)
    (List.Perm.refl _) (by decide) 5 5 5 5 (by decide) (by decide) (by decide) (by decide)
  exact ⟨⟨by decide, by decide, by decide, by decide⟩, h⟩

/-- **C2**: on a generated maze (a spanning tree) with start `0` and goal
`goalCell W H`, the final paths of BFS, Dijkstra (`zeroH`) and A* (`manH`)
have equal length; that length is minimal among all `isAdj`-chained cell
sequences from start to goal (shortest possible in edge count); and the DFS
path length is greater than or equal to it. -/
theorem solver_shortest_paths (W H : Nat) (hW : 0 < W) (hH : 0 < H)
    (es : List Edge) (hperm : es.Perm (edgeList W H)) (hbig : W * H + 1 < INTMAX)
    (k1 k2 k3 k4 : Nat)
    (h1 : (bfsRun (generateRandom (Maze.new W H) es) k1).stopped)
    (h2 : (pqRun (generateRandom (Maze.new W H) es) zeroH k2).stopped)
    (h3 : (pqRun (generateRandom (Maze.new W H) es) (manH W H) k3).stopped)
    (h4 : (dfsRun (generateRandom (Maze.new W H) es) k4).stopped) :
    (finalPath (bfsRun (generateRandom (Maze.new W H) es) k1).parentOf (goalCell W H) (W * H + 1)).length
      = (finalPath (pqRun (generateRandom (Maze.new W H) es) zeroH k2).parentOf (goalCell W H) (W * H + 1)).length ∧
    (finalPath (bfsRun (generateRandom (Maze.new W H) es) k1).parentOf (goalCell W H) (W * H + 1)).length
      = (finalPath (pqRun (generateRandom (Maze.new W H) es) (manH W H) k3).parentOf (goalCell W H) (W * H + 1)).length ∧
    (∀ l : List Nat, l.head? = some 0 → l.getLast? = some (goalCell W H) →
      List.Chain' (fun a b => isAdj (generateRandom (Maze.new W H) es) a b = true) l →
      (∀ x ∈ l, x < W * H) →
      (finalPath (bfsRun (generateRandom (Maze.new W H) es) k1).parentOf (goalCell W H) (W * H + 1)).length ≤ l.length) ∧
    (finalPath (bfsRun (generateRandom (Maze.new W H) es) k1).parentOf (goalCell W H) (W * H + 1)).length
      ≤ (finalPath (dfsRun (generateRandom (Maze.new W H) es) k4).parentOf (goalCell W H) (W * H + 1)).length := by
  obtain ⟨hdW, hdH⟩ :=
    generate_dims W H es (fun e he => mem_edgeList_iff.mp (hperm.mem_iff.mp he))
  obtain ⟨hconn, hacyc, _, _⟩ := generation_spanning_tree W H hW hH es hperm
  have hW2 : 0 < (generateRandom (Maze.new W H) es).mazeW := by rw [hdW]; exact hW
  have hH2 : 0 < (generateRandom (Maze.new W H) es).mazeH := by rw [hdH]; exact hH
  have hbig2 : (generateRandom (Maze.new W H) es).mazeW * (generateRandom (Maze.new W H) es).mazeH + 1 < INTMAX := by
    rw [hdW, hdH]; exact hbig
  have hN : 0 < (generateRandom (Maze.new W H) es).mazeW * (generateRandom (Maze.new W H) es).mazeH := Nat.mul_pos hW2 hH2
  have hgl := goalCell_lt hW2 hH2
  obtain ⟨b1, b2, b3, b4, b5⟩ := bfs_final_path hW2 hH2 hconn h1
  obtain ⟨z1, z2, z3, z4, z5⟩ := pq_final_path hW2 hH2 hbig2 hconn h2
  obtain ⟨m1, m2, m3, m4, m5⟩ := pq_final_path hW2 hH2 hbig2 hconn h3
  obtain ⟨d1, d2, d3, d4, d5⟩ := dfs_final_path hW2 hH2 hconn h4
  have hbz := tree_path_eq hacyc hN hgl b1 b2 b3 b4 b5 z1 z2 z3 z4 z5
  have hbm := tree_path_eq hacyc hN hgl b1 b2 b3 b4 b5 m1 m2 m3 m4 m5
  have hbd := tree_path_eq hacyc hN hgl b1 b2 b3 b4 b5 d1 d2 d3 d4 d5
  have c1 := congrArg List.length hbz
  have c2 := congrArg List.length hbm
  have c4 := Nat.le_of_eq (congrArg List.length hbd)
  have c3 : ∀ l : List Nat, l.head? = some 0 →
      l.getLast? = some (goalCell (generateRandom (Maze.new W H) es).mazeW (generateRandom (Maze.new W H) es).mazeH) →
      List.Chain' (fun a b => isAdj (generateRandom (Maze.new W H) es) a b = true) l →
      (∀ x ∈ l, x < (generateRandom (Maze.new W H) es).mazeW * (generateRandom (Maze.new W H) es).mazeH) →
      (finalPath (bfsRun (generateRandom (Maze.new W H) es) k1).parentOf
        (goalCell (generateRandom (Maze.new W H) es).mazeW (generateRandom (Maze.new W H) es).mazeH)
        ((generateRandom (Maze.new W H) es).mazeW * (generateRandom (Maze.new W H) es).mazeH + 1)).length ≤ l.length :=
    fun l hl1 hl2 hl3 hl5 =>
      tree_path_min hacyc hN hgl b1 b2 b3 b4 b5 hl1 hl2 hl3 hl5
  rw [hdW, hdH] at c1 c2 c3 c4
  exact ⟨c1, c2, c3, c4⟩

/-- Witness for `solver_shortest_paths` on the 2×1 maze with the identity
edge order and fuel 5 for each search. -/
theorem solver_shortest_paths_witness :
    ((bfsRun (generateRandom (Maze.new 2 1) (edgeList 2 1)) 5).stopped ∧
     (pqRun (generateRandom (Maze.new 2 1) (edgeList 2 1)) zeroH 5).stopped ∧
     (pqRun (generateRandom (Maze.new 2 1) (edgeList 2 1)) (manH 2 1) 5).stopped ∧
     (dfsRun (generateRandom (Maze.new 2 1) (edgeList 2 1)) 5).stopped) ∧
    (finalPath (bfsRun (generateRandom (Maze.new 2 1) (edgeList 2 1)) 5).parentOf (goalCell 2 1) (2 * 1 + 1)).length = (finalPath (pqRun (generateRandom (Maze.new 2 1) (edgeList 2 1)) zeroH 5).parentOf (goalCell 2 1) (2 * 1 + 1)).length ∧
    (finalPath (bfsRun (generateRandom (Maze.new 2 1) (edgeList 2 1)) 5).parentOf (goalCell 2 1) (2 * 1 + 1)).length = (finalPath (pqRun (generateRandom (Maze.new 2 1) (edgeList 2 1)) (manH 2 1) 5).parentOf (goalCell 2 1) (2 * 1 + 1)).length ∧
    (finalPath (bfsRun (generateRandom (Maze.new 2 1) (edgeList 2 1)) 5).parentOf (goalCell 2 1) (2 * 1 + 1)).length ≤ (finalPath (dfsRun (generateRandom (Maze.new 2 1) (edgeList 2 1)) 5).parentOf (goalCell 2 1) (2 * 1 + 1)).length := by
  have h := solver_shortest_paths 2 1 (by decide) (by decide) (edgeList 2 1)
    (List.Perm.refl _) (by decide) 5 5 5 5 (by decide) (by decide) (by decide) (by decide)
  exact ⟨⟨by decide, by decide, by decide, by decide⟩, h.1, h.2.1, h.2.2.2⟩

/-- If the cell where the parent walk starts has no parent recorded, the walk
is the single-cell list, whatever the fuel. -/
theorem followParent_none {pa : Nat → Option Nat} {v : Nat} (h : pa v = none) :
    ∀ fuel, followParent pa v fuel = [v] := by
  intro fuel
  cases fuel with
  | zero => rfl
  | succ n =>
    unfold followParent
    rw [h]

/-- **C4, counterexample**: on the all-walls 2×1 maze the BFS frontier
empties before the goal cell `1` is visited, yet the run carries no error
value of any kind (`done` is simply still `false`), and the path
reconstruction of `drawFinalPath` still runs, producing the degenerate list
`[1]` — a malformed "path" that does not start at the start cell — instead of
any `GoalUnreachable` report. -/
theorem empty_frontier_malformed_path :
    (bfsRun (Maze.new 2 1) 3).done = false ∧
    (bfsRun (Maze.new 2 1) 3).que = [] ∧
    goalCell 2 1 ∉ (bfsRun (Maze.new 2 1) 3).visited ∧
    finalPath (bfsRun (Maze.new 2 1) 3).parentOf (goalCell 2 1) 3
      = [goalCell 2 1] ∧
    (finalPath (bfsRun (Maze.new 2 1) 3).parentOf (goalCell 2 1) 3).head?
      ≠ some 0 := by
  decide

/-- **C4, amended**: the program defines no `GoalUnreachable` (nor any other
error) result. When a search stops with the goal cell never reached — not
visited for DFS/BFS, distance still `INT_MAX` for Dijkstra/A* — the code
falls through to `drawFinalPath`, which unconditionally follows `parentOf`
from the goal cell and displays the outcome under the "FINAL (exit found)"
banner; the goal cell has no recorded parent then, so the reconstruction
yields the degenerate single-cell list `[goalCell]` rather than an error
report. -/
theorem unreached_goal_degenerate_path (mz : Maze) (k fuel : Nat)
    (hN : 0 < mz.mazeW * mz.mazeH) (hbig : mz.mazeW * mz.mazeH + 1 < INTMAX) :
    (goalCell mz.mazeW mz.mazeH ∉ (dfsRun mz k).visited →
      finalPath (dfsRun mz k).parentOf (goalCell mz.mazeW mz.mazeH) fuel
        = [goalCell mz.mazeW mz.mazeH]) ∧
    (goalCell mz.mazeW mz.mazeH ∉ (bfsRun mz k).visited →
      finalPath (bfsRun mz k).parentOf (goalCell mz.mazeW mz.mazeH) fuel
        = [goalCell mz.mazeW mz.mazeH]) ∧
    (∀ hh : Nat → Nat,
      (pqRun mz hh k).dist (goalCell mz.mazeW mz.mazeH) = INTMAX →
      finalPath (pqRun mz hh k).parentOf (goalCell mz.mazeW mz.mazeH) fuel
        = [goalCell mz.mazeW mz.mazeH]) := by
  refine ⟨?_, ?_, ?_⟩
  · intro hg
    have hnone : (dfsRun mz k).parentOf (goalCell mz.mazeW mz.mazeH) = none := by
      cases hpa : (dfsRun mz k).parentOf (goalCell mz.mazeW mz.mazeH) with
      | none => rfl
      | some w =>
        obtain ⟨-, l1, l2, hsplit, -⟩ := (dfsInv_run mz k).par.2.1 _ w hpa
        exact absurd
          (hsplit ▸ List.mem_append_right l1 (List.mem_cons_self _ l2)) hg
    unfold finalPath
    rw [followParent_none hnone fuel]
    rfl
  · intro hg
    have hnone : (bfsRun mz k).parentOf (goalCell mz.mazeW mz.mazeH) = none := by
      cases hpa : (bfsRun mz k).parentOf (goalCell mz.mazeW mz.mazeH) with
      | none => rfl
      | some w =>
        obtain ⟨-, l1, l2, hsplit, -⟩ := (bfsInv_run mz k).par.2.1 _ w hpa
        exact absurd
          (hsplit ▸ List.mem_append_right l1 (List.mem_cons_self _ l2)) hg
    unfold finalPath
    rw [followParent_none hnone fuel]
    rfl
  · intro hh hd
    have hnone : (pqRun mz hh k).parentOf (goalCell mz.mazeW mz.mazeH) = none := by
      cases hpa : (pqRun mz hh k).parentOf (goalCell mz.mazeW mz.mazeH) with
      | none => rfl
      | some w =>
        have hp := (pqInv_run mz hh hN hbig k).par _ w hpa
        rw [hd] at hp
        exact absurd hp.2.2.1 (Nat.lt_irrefl _)
    unfold finalPath
    rw [followParent_none hnone fuel]
    rfl

/-- Witness for `unreached_goal_degenerate_path` on the all-walls 2×1 maze
with fuel 3. -/
theorem unreached_goal_degenerate_path_witness :
    (0 < 2 * 1 ∧ 2 * 1 + 1 < INTMAX ∧
      goalCell 2 1 ∉ (bfsRun (Maze.new 2 1) 3).visited) ∧
    finalPath (bfsRun (Maze.new 2 1) 3).parentOf (goalCell 2 1) 3
      = [goalCell 2 1] := by
  have h := (unreached_goal_degenerate_path (Maze.new 2 1) 3 3 (by decide)
    (by decide)).2.1 (by decide)
  exact ⟨⟨by decide, by decide, by decide⟩, h⟩

end MazeSolver
